import Mathlib

/-!
# A boundary-tag allocator: shallow embedding of `mem.c`

The development embeds the three public operations of `mem.c`
(`Mem_Init`, `Mem_Alloc`, `Mem_Free`) as Lean functions over an explicit
heap state and proves properties of them.

Modelling conventions.

* A C `int` is a mathematical integer kept inside the 32-bit two's complement
  range: every `+`, `-`, `*` of the source is followed by `wrap32`.
  `/` and `%` of C truncate towards zero (`cdiv`, `cmod`).
* Memory is a total map from byte addresses to the 32-bit word stored there.
  A `blk_hdr *` is the byte address it holds; adding `k` to it moves the
  address by `4 * k` bytes (`padd`).  `NULL` is the address `0`.
* Loops that the source does not bound carry a fuel argument; running out of
  fuel yields `none`.
-/

/-! ## Machine integers -/

/-- The largest value of a C `int`. -/
def INT_MAX : Int := 2147483647

/-- The value a 32-bit two's complement `int` holds after an arithmetic
operation whose mathematical result is `x`. -/
def wrap32 (x : Int) : Int := (x + 2147483648) % 4294967296 - 2147483648

/-- C addition on `int`. -/
def iadd (a b : Int) : Int := wrap32 (a + b)

/-- C subtraction on `int`. -/
def isub (a b : Int) : Int := wrap32 (a - b)

/-- C multiplication on `int`. -/
def imul (a b : Int) : Int := wrap32 (a * b)

/-- C division on `int`: the quotient is truncated towards zero. -/
def cdiv (a b : Int) : Int := Int.tdiv a b

/-- C remainder on `int`: it has the sign of the dividend. -/
def cmod (a b : Int) : Int := Int.tmod a b

/-! ## Heap state -/

/-- The program state: the global `first_blk`, the function-static
`allocated_once` of `Mem_Init`, and the memory. -/
structure Heap where
  first_blk : Int
  allocated_once : Int
  mem : Int → Int

/-- Memory after the assignment `*(int *)a = v`. -/
def store (m : Int → Int) (a v : Int) : Int → Int :=
  fun x => if x = a then v else m x

/-- Pointer arithmetic on `blk_hdr *`: `p + k` moves by `4 * k` bytes. -/
def padd (p k : Int) : Int := p + 4 * k

/-! ## `Mem_Alloc` -/

/-- Lines 92-96 of `mem.c`: the request plus the header, rounded up to a
multiple of 8, as the `int` arithmetic of the source computes it. -/
def roundedSize (size : Int) : Int :=
  if cmod (iadd size 4) 8 ≠ 0 then
    imul (iadd (cdiv (iadd size 4) 8) 1) 8
  else
    iadd size 4

/-- Lines 103-112 of `mem.c`: the best-fit scan.  The arguments after the fuel
are the memory, the rounded size, and the loop variables `ptr`, `best_ptr`,
`min_diff`; the result is the final `(best_ptr, min_diff)`. -/
def scan : Nat → (Int → Int) → Int → Int → Int → Int → Option (Int × Int)
  | 0, _, _, _, _, _ => none
  | fuel + 1, mem, size, ptr, best_ptr, min_diff =>
    if mem ptr ≠ 1 then
      let curr_blk_size := imul (cdiv (mem ptr) 8) 8
      let curr_blk_status := cmod (mem ptr) 8
      if curr_blk_size ≥ size ∧ (curr_blk_status = 0 ∨ curr_blk_status = 2)
          ∧ min_diff > isub curr_blk_size size then
        scan fuel mem size (padd ptr (cdiv curr_blk_size 4)) ptr (isub curr_blk_size size)
      else
        scan fuel mem size (padd ptr (cdiv curr_blk_size 4)) best_ptr min_diff
    else
      some (best_ptr, min_diff)

/-- Lines 116-132 of `mem.c`: the writes done once the scan has ended with
`best_ptr` and `min_diff`, and the returned pointer. -/
def place (s : Heap) (size best_ptr min_diff : Int) : Heap × Int :=
  if best_ptr = 0 then (s, 0)
  else
    let after_best_ptr := padd best_ptr (cdiv (imul (cdiv (s.mem best_ptr) 8) 8) 4)
    let prev_blk_status := cdiv (cmod (s.mem best_ptr) 4) 2
    let m1 := store s.mem best_ptr (iadd (iadd size 1) (imul prev_blk_status 2))
    if min_diff ≥ 8 then
      let m2 := store m1 (padd best_ptr (cdiv size 4)) (iadd min_diff 2)
      let m3 := store m2 (padd after_best_ptr (-1)) min_diff
      ({ s with mem := m3 }, padd best_ptr 1)
    else if m1 after_best_ptr ≠ 1 then
      ({ s with mem := store m1 after_best_ptr (iadd (m1 after_best_ptr) 2) }, padd best_ptr 1)
    else
      ({ s with mem := m1 }, padd best_ptr 1)

/-- The function `Mem_Alloc` of `mem.c`.  The result is `none` when the scan
loop does not end within the fuel, and otherwise the new state with the
returned pointer (`0` for `NULL`). -/
def Mem_Alloc (fuel : Nat) (s : Heap) (size : Int) : Option (Heap × Int) :=
  if size ≤ 0 then some (s, 0)
  else
    match scan fuel s.mem (roundedSize size) s.first_blk 0 INT_MAX with
    | none => none
    | some (best_ptr, min_diff) => some (place s (roundedSize size) best_ptr min_diff)

/-! ## `Mem_Free` -/

/-- The function `Mem_Free` of `mem.c`: the new state and the returned `int`.
The cast `(int)ptr` is `wrap32 ptr`. -/
def Mem_Free (s : Heap) (ptr : Int) : Heap × Int :=
  if ptr = 0 then (s, -1)
  else if cmod (wrap32 ptr) 8 ≠ 0 then (s, -1)
  else
    let curr_blk_header := ptr - 4
    if cmod (s.mem curr_blk_header) 2 = 0 then (s, -1)
    else
      let m0 := store s.mem curr_blk_header (isub (s.mem curr_blk_header) 1)
      let curr_blk_size := imul (cdiv (m0 curr_blk_header) 8) 8
      let next_blk_header := padd curr_blk_header (cdiv curr_blk_size 4)
      let next_blk_size := imul (cdiv (m0 next_blk_header) 8) 8
      let prev_blk_footer := padd curr_blk_header (-1)
      let prev_blk_size :=
        if cmod (m0 curr_blk_header) 8 = 0 ∧ m0 prev_blk_footer ≠ 0 then m0 prev_blk_footer
        else 0
      let prev_blk_header :=
        if cmod (m0 curr_blk_header) 8 = 0 ∧ m0 prev_blk_footer ≠ 0 then
          padd curr_blk_header (-(cdiv prev_blk_size 4))
        else 0
      if prev_blk_header ≠ 0 ∧ cmod (cmod (m0 next_blk_header) 8) 2 = 1 then
        let size := iadd prev_blk_size curr_blk_size
        let m1 := store m0 prev_blk_header (iadd size 2)
        let m2 := store m1 prev_blk_footer 0
        let m3 := store m2 curr_blk_header 0
        let m4 := store m3 (padd next_blk_header (-1)) size
        let m5 := store m4 next_blk_header (isub (m4 next_blk_header) 2)
        ({ s with mem := m5 }, 0)
      else if prev_blk_header = 0 ∧ cmod (cmod (m0 next_blk_header) 8) 2 = 0 then
        let size := iadd next_blk_size curr_blk_size
        let m1 := store m0 curr_blk_header (iadd size 2)
        let m2 := store m1 next_blk_header 0
        let m3 := store m2 (padd (padd next_blk_header (cdiv next_blk_size 4)) (-1)) size
        ({ s with mem := m3 }, 0)
      else if prev_blk_header ≠ 0 ∧ cmod (cmod (m0 next_blk_header) 8) 2 = 0 then
        let size := iadd (iadd prev_blk_size curr_blk_size) next_blk_size
        let m1 := store m0 prev_blk_header (iadd size 2)
        let m2 := store m1 prev_blk_footer 0
        let m3 := store m2 curr_blk_header 0
        let m4 := store m3 next_blk_header 0
        let m5 := store m4 (padd (padd next_blk_header (cdiv next_blk_size 4)) (-1)) size
        ({ s with mem := m5 }, 0)
      else if prev_blk_header = 0 ∧ cmod (cmod (m0 next_blk_header) 8) 2 = 1 then
        let size := curr_blk_size
        let m1 := store m0 curr_blk_header (iadd size 2)
        let m2 := store m1 next_blk_header (isub (m1 next_blk_header) 2)
        let m3 := store m2 (padd next_blk_header (-1)) size
        ({ s with mem := m3 }, 0)
      else
        ({ s with mem := m0 }, -1)

/-! ## `Mem_Init` -/

/-- The value `MAP_FAILED` that `mmap` returns on failure: the pointer `(void *) -1`. -/
def MAP_FAILED : Int := -1

/-- Memory after a successful `mmap` of `len` bytes of `/dev/zero` at `base`:
the new region reads as zero. -/
def mmapZero (m : Int → Int) (base len : Int) : Int → Int :=
  fun x => if base ≤ x ∧ x < base + len then 0 else m x

/-- The function `Mem_Init` of `mem.c`.  The results of the three calls into
the operating system are arguments: `pagesize` is what `getpagesize` returns,
`fd` what `open` returns and `space_ptr` what `mmap` returns. -/
def Mem_Init (s : Heap) (sizeOfRegion pagesize fd space_ptr : Int) : Heap × Int :=
  if 0 ≠ s.allocated_once then (s, -1)
  else if sizeOfRegion ≤ 0 then (s, -1)
  else
    let padsize := cmod sizeOfRegion pagesize
    let padsize := cmod (isub pagesize padsize) pagesize
    let alloc_size := iadd sizeOfRegion padsize
    if -1 = fd then (s, -1)
    else if MAP_FAILED = space_ptr then ({ s with allocated_once := 0 }, -1)
    else
      let m := mmapZero s.mem space_ptr alloc_size
      let alloc_size := isub alloc_size 8
      let first_blk := padd space_ptr 1
      let end_mark := first_blk + alloc_size
      let m1 := store m first_blk alloc_size
      let m2 := store m1 first_blk (iadd (m1 first_blk) 2)
      let m3 := store m2 end_mark 1
      let footer := first_blk + alloc_size - 4
      let m4 := store m3 footer alloc_size
      ({ first_blk := first_blk, allocated_once := 1, mem := m4 }, 0)

/-! ## Reachable states -/

/-- The heap states a program can reach: the state after a successful
`Mem_Init` whose `mmap` returned a positive page-aligned address for a region
whose length did not overflow, and every state that `Mem_Alloc` and `Mem_Free`
calls, with any arguments, lead to from there. -/
inductive Reachable : Heap → Prop
  | init (s0 : Heap) (sizeOfRegion pagesize fd space_ptr : Int) :
      0 < pagesize → pagesize % 8 = 0 →
      0 < space_ptr → space_ptr % pagesize = 0 →
      sizeOfRegion + (pagesize - sizeOfRegion % pagesize) % pagesize ≤ INT_MAX →
      (Mem_Init s0 sizeOfRegion pagesize fd space_ptr).2 = 0 →
      Reachable (Mem_Init s0 sizeOfRegion pagesize fd space_ptr).1
  | alloc (s : Heap) (fuel : Nat) (n : Int) (r : Heap × Int) :
      Reachable s → Mem_Alloc fuel s n = some r → Reachable r.1
  | free (s : Heap) (p : Int) :
      Reachable s → Reachable (Mem_Free s p).1

/-! ## Concrete runs -/

/-- A state before `Mem_Init`: `first_blk` is `NULL`, `allocated_once` is `0`. -/
def heap0 : Heap := { first_blk := 0, allocated_once := 0, mem := fun _ => 0 }

/-- The state after `Mem_Init(4096)` with a page size of 4096, when `mmap`
returns the address 65536: `first_blk` is 65540 and the end mark is at 69628. -/
def heapInit : Heap := (Mem_Init heap0 4096 4096 3 65536).1

/-- The state after a `Mem_Alloc` call that ends within 64 loop steps (the
state itself otherwise). -/
def allocState (s : Heap) (n : Int) : Heap :=
  match Mem_Alloc 64 s n with
  | some r => r.1
  | none => s

/-- The pointer returned by a `Mem_Alloc` call that ends within 64 loop steps. -/
def allocPtr (s : Heap) (n : Int) : Option Int :=
  match Mem_Alloc 64 s n with
  | some r => some r.2
  | none => none

/-! ## The block chain -/

/-- A block of the chain as the headers describe it: its total span in bytes
and its self-allocated bit. -/
structure Blk where
  size : Int
  alloc : Bool
  deriving DecidableEq, Repr

/-- The header word of a block of span `sz` with self-allocated bit `al` and
prev-allocated bit `pa`. -/
def hdr (sz : Int) (al pa : Bool) : Int :=
  sz + (if pa then 2 else 0) + (if al then 1 else 0)

/-- The total span of a list of blocks. -/
def sumSizes : List Blk → Int
  | [] => 0
  | b :: bs => b.size + sumSizes bs

/-- The self-allocated bit of the last block of a list, `d` for the empty list. -/
def lastAlloc (d : Bool) : List Blk → Bool
  | [] => d
  | b :: bs => lastAlloc b.alloc bs

/-- The self-allocated bit of the first block of a list; the end mark, which
follows the last block, counts as allocated. -/
def headAlloc : List Blk → Bool
  | [] => true
  | b :: _ => b.alloc

/-- The words of `m` from address `a` up to `e` are the blocks `bs` laid end to
end, the block before `a` having the self-allocated bit `pa`: every span is a
multiple of 8 and at least 8, every header holds the span and the two flag
bits, and every free block comes after an allocated one and ends in a footer
that holds its span. -/
def Chain (m : Int → Int) : Int → Bool → List Blk → Int → Prop
  | a, _, [], e => a = e
  | a, pa, b :: bs, e =>
      8 ≤ b.size ∧ b.size % 8 = 0 ∧ m a = hdr b.size b.alloc pa ∧
      (b.alloc = false → pa = true ∧ m (a + b.size - 4) = b.size) ∧
      Chain m (a + b.size) b.alloc bs e

/-- The heap is well formed up to the end mark: `first_blk` is a positive
address that is 4 modulo 8, the blocks `bs` fill the arena from `first_blk` to
the address `e` of the end mark, the arena is small enough for every header to
be an `int`, and the word at `e` is `w`. -/
def WFx (s : Heap) (bs : List Blk) (e : Int) (w : Int) : Prop :=
  0 < s.first_blk ∧ s.first_blk % 8 = 4 ∧
  Chain s.mem s.first_blk true bs e ∧
  e - s.first_blk ≤ 2147483640 ∧
  s.mem e = w

/-- A well-formed heap: the invariants of the data model, with the end mark
holding 1. -/
def WF (s : Heap) (bs : List Blk) (e : Int) : Prop := WFx s bs e 1

/-- The least multiple of 8 that is at least `x`. -/
def roundUp8 (x : Int) : Int := (x + 7) / 8 * 8

/-- A free block whose span is at least `needed`. -/
def Fits (needed : Int) (b : Blk) : Prop := b.alloc = false ∧ needed ≤ b.size

/-- The best-fit choice over a list of blocks that starts at address `a`, as a
left-to-right pass that replaces the current choice `(best, diff)` only by a
free block with a strictly smaller excess over `needed`. -/
def pick (needed : Int) : Int → List Blk → Int × Int → Int × Int
  | _, [], acc => acc
  | a, b :: bs, acc =>
    if needed ≤ b.size ∧ b.alloc = false ∧ b.size - needed < acc.2 then
      pick needed (a + b.size) bs (a, b.size - needed)
    else
      pick needed (a + b.size) bs acc

/-- Whether memory holds a given chain can be computed. -/
instance Chain.decide (m : Int → Int) :
    ∀ (bs : List Blk) (a : Int) (pa : Bool) (e : Int), Decidable (Chain m a pa bs e)
  | [], a, _, e => inferInstanceAs (Decidable (a = e))
  | b :: bs, a, pa, e =>
    have := Chain.decide m bs (a + b.size) b.alloc e
    inferInstanceAs (Decidable (8 ≤ b.size ∧ b.size % 8 = 0 ∧ m a = hdr b.size b.alloc pa ∧
      (b.alloc = false → pa = true ∧ m (a + b.size - 4) = b.size) ∧
      Chain m (a + b.size) b.alloc bs e))

instance WFx.decide (s : Heap) (bs : List Blk) (e w : Int) : Decidable (WFx s bs e w) :=
  inferInstanceAs (Decidable (0 < s.first_blk ∧ s.first_blk % 8 = 4 ∧
    Chain s.mem s.first_blk true bs e ∧ e - s.first_blk ≤ 2147483640 ∧ s.mem e = w))

instance WF.decide (s : Heap) (bs : List Blk) (e : Int) : Decidable (WF s bs e) :=
  inferInstanceAs (Decidable (WFx s bs e 1))

instance Fits.decide (needed : Int) (b : Blk) : Decidable (Fits needed b) :=
  inferInstanceAs (Decidable (b.alloc = false ∧ needed ≤ b.size))

/-! ## Coalescing on the list of blocks -/

/-- The span of the first block of a list, 0 for the empty list. -/
def headSize : List Blk → Int
  | [] => 0
  | b :: _ => b.size

/-- The span of the last block of a list, `d` for the empty list. -/
def lastSize (d : Int) : List Blk → Int
  | [] => d
  | b :: bs => lastSize b.size bs

/-- A free block of span `z` followed by the blocks `post`, the first of which
it absorbs when that one is free. -/
def joinNext (z : Int) (post : List Blk) : List Blk :=
  if headAlloc post then ⟨z, false⟩ :: post else ⟨z + headSize post, false⟩ :: post.tail

/-- The chain after the allocated block of span `sz` between the blocks `pre`
and the blocks `post` has been freed and merged with its free neighbours. -/
def coalesce (pre : List Blk) (sz : Int) (post : List Blk) : List Blk :=
  if lastAlloc true pre then pre ++ joinNext sz post
  else pre.dropLast ++ joinNext (lastSize 0 pre + sz) post

/-- The word at the end mark after the block before `post` has been freed: the
end mark itself loses 2 when it is the successor of the freed block. -/
def endWordAfterFree : List Blk → Int
  | [] => -1
  | _ :: _ => 1

/-- The state after `Mem_Init(4096)` and one `Mem_Alloc(8)`: an allocated block
of 16 bytes at 65540 and a free block of 4072 bytes. -/
def heapA1 : Heap := allocState heapInit 8

/-- The state after `Mem_Init(4096)` and two `Mem_Alloc(8)`. -/
def heapA2 : Heap := allocState heapA1 8

/-- The state after `Mem_Init(4096)` and three `Mem_Alloc(8)`: allocated blocks
of 16 bytes at 65540, 65556 and 65572, and a free block of 4040 bytes. -/
def heapA3 : Heap := allocState heapA2 8

/-- The state after `Mem_Init(4096)` and `Mem_Alloc(4084)`: one allocated block
of 4088 bytes that fills the arena. -/
def heapFull : Heap := allocState heapInit 4084

/-- The state after `Mem_Init(4096)`, `p = Mem_Alloc(4084)` and `Mem_Free(p)`. -/
def heapFreed : Heap := (Mem_Free heapFull 65544).1

/-- The state after `Mem_Init(4096)`, two `Mem_Alloc(8)` and
`Mem_Alloc(2147483644)`. -/
def heapOver : Heap := allocState heapA2 2147483644

/-! ## Handles and sequences of frees -/

/-- The handles of the allocated blocks of a list of blocks that starts at
address `a`: 4 bytes past each block start. -/
def allocHandles : Int → List Blk → List Int
  | _, [] => []
  | a, b :: bs =>
    if b.alloc then (a + 4) :: allocHandles (a + b.size) bs
    else allocHandles (a + b.size) bs

/-- The calls `Mem_Free` on each pointer of a list in turn: the final state and the
values returned. -/
def freeAll : Heap → List Int → Heap × List Int
  | s, [] => (s, [])
  | s, p :: ps => ((freeAll (Mem_Free s p).1 ps).1, (Mem_Free s p).2 :: (freeAll (Mem_Free s p).1 ps).2)

/-- What a chosen free block of span `c` becomes when `needed` bytes of it are
allocated: an allocated block and a free remainder when at least 8 bytes are
left over, and otherwise the whole block, allocated. -/
def splitBlock (needed c : Int) : List Blk :=
  if 8 ≤ c - needed then [⟨needed, true⟩, ⟨c - needed, false⟩] else [⟨c, true⟩]

/-- The state of the test `coalesce4.c` before its first `Mem_Free`: after
`Mem_Init(4096)` and eight `Mem_Alloc(500)`, the arena holds eight allocated
blocks of 504 bytes and a free block of 56 bytes, and a ninth `Mem_Alloc(500)`
returns `NULL`. -/
def heapTest : Heap :=
  allocState (allocState (allocState (allocState (allocState (allocState (allocState
    (allocState heapInit 500) 500) 500) 500) 500) 500) 500) 500

/-! ## Initialisation -/

/-- The least multiple of `P` that is at least `x`, for a positive `P`. -/
def roundUpTo (x P : Int) : Int := (x + P - 1) / P * P

/-- The states that follow a state `s`: those reached from it by calls of
`Mem_Alloc`, `Mem_Free` and `Mem_Init` with any arguments. -/
inductive Later (s : Heap) : Heap → Prop
  | refl : Later s s
  | alloc (t : Heap) (fuel : Nat) (n : Int) (r : Heap × Int) :
      Later s t → Mem_Alloc fuel t n = some r → Later s r.1
  | free (t : Heap) (p : Int) : Later s t → Later s (Mem_Free t p).1
  | init (t : Heap) (sz P fd sp : Int) : Later s t → Later s (Mem_Init t sz P fd sp).1

/-- The state after `Mem_Init(4096)`, `Mem_Alloc(8)` and
`Mem_Alloc(2147483644)`. -/
def heapOver1 : Heap := allocState heapA1 2147483644

/-- The state after `Mem_Init(4096)`, three `Mem_Alloc(8)` and
`Mem_Alloc(2147483644)`. -/
def heapOver3 : Heap := allocState heapA3 2147483644

/-- The state after `Mem_Init(4096)`, three `Mem_Alloc(8)`,
`Mem_Alloc(2147483644)`, `Mem_Free(65576)` on the third block, which returns
-1, and `Mem_Free(65544)` on the first block, which returns 0. -/
def heapOverFreed : Heap := (Mem_Free (Mem_Free heapOver3 65576).1 65544).1

/-! ## Live allocations -/

/-- The handles and spans of the allocated blocks of a list of blocks that
starts at address `a`: for each allocated block, the address 4 bytes past the
block start and the span of the block. -/
def allocBlocks : Int → List Blk → List (Int × Int)
  | _, [] => []
  | a, b :: bs =>
    if b.alloc then (a + 4, b.size) :: allocBlocks (a + b.size) bs
    else allocBlocks (a + b.size) bs

/-- The live allocations `(p, n)` agree with the chain `bs` that starts at
`a`: each has a positive size `n` and is the handle of an allocated block of
at least `n + 4` bytes, and no two of them have the same handle. -/
def LiveOK (a : Int) (bs : List Blk) (live : List (Int × Int)) : Prop :=
  (∀ x ∈ live, 0 < x.2 ∧ ∃ z, (x.1, z) ∈ allocBlocks a bs ∧ x.2 + 4 ≤ z) ∧
  live.Pairwise (fun x y => x.1 ≠ y.1)

/-- The address where `Mem_Init` puts the end mark (line 287 of `mem.c`):
`first_blk` plus the padded size less 8. -/
def endMarkOf (sizeOfRegion pagesize space_ptr : Int) : Int :=
  padd space_ptr 1 +
    isub (iadd sizeOfRegion (cmod (isub pagesize (cmod sizeOfRegion pagesize)) pagesize)) 8

/-- The runs of a client: `Run s e live` says that the state `s` is reached
from a successful `Mem_Init`, which put the end mark at `e`, by calls of
`Mem_Alloc` that return and whose sizes `n` satisfy `n + 11 ≤ INT_MAX`, and by
calls of `Mem_Free` on a live handle or that are rejected without effect; and
that `live` lists the pairs `(p, n)` of a pointer `p` returned by a call
`Mem_Alloc(n)` and not freed since. -/
inductive Run : Heap → Int → List (Int × Int) → Prop
  | init (s0 : Heap) (sizeOfRegion pagesize fd space_ptr : Int) :
      0 < pagesize → pagesize % 8 = 0 →
      0 < space_ptr → space_ptr % pagesize = 0 →
      sizeOfRegion + (pagesize - sizeOfRegion % pagesize) % pagesize ≤ INT_MAX →
      (Mem_Init s0 sizeOfRegion pagesize fd space_ptr).2 = 0 →
      Run (Mem_Init s0 sizeOfRegion pagesize fd space_ptr).1
        (endMarkOf sizeOfRegion pagesize space_ptr) []
  | alloc (s : Heap) (e : Int) (live : List (Int × Int)) (fuel : Nat) (n : Int)
      (r : Heap × Int) :
      Run s e live → n + 11 ≤ INT_MAX → Mem_Alloc fuel s n = some r →
      Run r.1 e (if r.2 = 0 then live else (r.2, n) :: live)
  | free (s : Heap) (e : Int) (live : List (Int × Int)) (q : Int) :
      Run s e live → ((∃ n, (q, n) ∈ live) ∨ Mem_Free s q = (s, -1)) →
      Run (Mem_Free s q).1 e
        (if (Mem_Free s q).2 = 0 then live.filter (fun x => x.1 ≠ q) else live)

/-- The state after `Mem_Init(4096)`, the calls `Mem_Alloc` for 36, 8, 20, 8,
20, 8, 100 and 3844 bytes, which fill the arena with blocks of 40, 16, 24,
16, 24, 16, 104 and 3848 bytes, and `Mem_Free` on the blocks of 40, 24, 24
and 104 bytes: four free blocks, each between allocated ones. -/
def heapHoles : Heap :=
  (Mem_Free (Mem_Free (Mem_Free (Mem_Free
    (allocState (allocState (allocState (allocState (allocState (allocState (allocState
      (allocState heapInit 36) 8) 20) 8) 20) 8) 100) 3844)
    65544).1 65600).1 65640).1 65680).1

/-- The chain of `heapHoles`: free blocks of 40, 24, 24 and 104 bytes, each
followed by an allocated block. -/
def holesChain : List Blk :=
  [⟨40, false⟩, ⟨16, true⟩, ⟨24, false⟩, ⟨16, true⟩, ⟨24, false⟩, ⟨16, true⟩, ⟨104, false⟩,
    ⟨3848, true⟩]

/-! ## Arithmetic of the machine model -/

theorem wrap32_id (x : Int) (h1 : -2147483648 ≤ x) (h2 : x ≤ 2147483647) : wrap32 x = x := by
  unfold wrap32; omega

theorem wrap32_mod8 (x : Int) : wrap32 x % 8 = x % 8 := by
  unfold wrap32; omega

theorem cdiv_nonneg (a b : Int) (ha : 0 ≤ a) (hb : 0 ≤ b) : cdiv a b = a / b :=
  Int.tdiv_eq_ediv ha hb

theorem cmod_nonneg (a b : Int) (ha : 0 ≤ a) (hb : 0 ≤ b) : cmod a b = a % b :=
  Int.tmod_eq_emod ha hb

theorem cdiv_neg (a b : Int) (ha : a ≤ 0) (hb : 0 ≤ b) : cdiv a b = -((-a) / b) := by
  have h := Int.tdiv_eq_ediv (a := -a) (b := b) (by omega) hb
  unfold cdiv
  rw [← h, Int.neg_tdiv, Int.neg_neg]

theorem cmod_neg (a b : Int) (ha : a ≤ 0) (hb : 0 ≤ b) : cmod a b = -((-a) % b) := by
  have h := cdiv_neg a b ha hb
  unfold cdiv at h
  unfold cmod
  rw [Int.tmod_def, h, Int.emod_def]
  ring

theorem cmod8_eq_zero_iff (x : Int) : cmod x 8 = 0 ↔ x % 8 = 0 := by
  rcases le_total 0 x with h | h
  · rw [cmod_nonneg x 8 h (by omega)]
  · rw [cmod_neg x 8 h (by omega)]; omega

theorem cmod2_eq_zero_iff (x : Int) : cmod x 2 = 0 ↔ x % 2 = 0 := by
  rcases le_total 0 x with h | h
  · rw [cmod_nonneg x 2 h (by omega)]
  · rw [cmod_neg x 2 h (by omega)]; omega

theorem imul8_mod8 (k : Int) : imul k 8 % 8 = 0 := by
  unfold imul; rw [wrap32_mod8]; omega

theorem four_mul_cdiv4 (c : Int) (h : c % 8 = 0) : 4 * cdiv c 4 = c := by
  rcases le_total 0 c with h0 | h0
  · rw [cdiv_nonneg c 4 h0 (by omega)]; omega
  · rw [cdiv_neg c 4 h0 (by omega)]; omega

/-! ## Memory -/

theorem store_eq (m : Int → Int) (a v : Int) : store m a v a = v := by
  simp [store]

theorem store_ne (m : Int → Int) (a v x : Int) (h : x ≠ a) : store m a v x = m x := by
  simp [store, h]

/-! ## Alignment of the scan -/

/-- One loop step moves `ptr` by a multiple of 8 bytes. -/
theorem scan_step_mod8 (m : Int → Int) (ptr : Int) :
    padd ptr (cdiv (imul (cdiv (m ptr) 8) 8) 4) % 8 = ptr % 8 := by
  unfold padd
  rw [four_mul_cdiv4 _ (imul8_mod8 _)]
  have := imul8_mod8 (cdiv (m ptr) 8)
  omega

/-- The scan returns the initial `best_ptr` or an address that is 4 modulo 8. -/
theorem scan_best_mod8 (fuel : Nat) (m : Int → Int) (size : Int) :
    ∀ (ptr best md b d : Int), ptr % 8 = 4 → (best = 0 ∨ best % 8 = 4) →
      scan fuel m size ptr best md = some (b, d) → (b = 0 ∨ b % 8 = 4) := by
  induction fuel with
  | zero => intro ptr best md b d _ _ h; simp [scan] at h
  | succ k ih =>
    intro ptr best md b d hp hb h
    have hstep := scan_step_mod8 m ptr
    unfold scan at h
    dsimp only at h
    split_ifs at h with h1 h2
    · exact ih _ _ _ b d (by omega) (Or.inr hp) h
    · exact ih _ _ _ b d (by omega) hb h
    · simp only [Option.some.injEq, Prod.mk.injEq] at h
      rcases h with ⟨rfl, _⟩
      exact hb

/-- The writes of `Mem_Alloc` leave `first_blk` as it is. -/
theorem place_first_blk (s : Heap) (size b d : Int) :
    (place s size b d).1.first_blk = s.first_blk := by
  unfold place
  dsimp only
  split_ifs <;> rfl

/-- The function `Mem_Alloc` leaves `first_blk` as it is. -/
theorem Mem_Alloc_first_blk (fuel : Nat) (s : Heap) (n : Int) (r : Heap × Int)
    (h : Mem_Alloc fuel s n = some r) : r.1.first_blk = s.first_blk := by
  unfold Mem_Alloc at h
  split_ifs at h
  · simp only [Option.some.injEq] at h; rw [← h]
  · split at h
    · simp at h
    · simp only [Option.some.injEq] at h
      rw [← h]; exact place_first_blk _ _ _ _

/-- The function `Mem_Free` leaves `first_blk` as it is. -/
theorem Mem_Free_first_blk (s : Heap) (p : Int) : (Mem_Free s p).1.first_blk = s.first_blk := by
  unfold Mem_Free
  dsimp only
  split_ifs <;> rfl

/-- In every reachable state `first_blk` is 4 modulo 8. -/
theorem Reachable_first_blk (s : Heap) (h : Reachable s) : s.first_blk % 8 = 4 := by
  induction h with
  | init s0 sz pg fd sp hpg hpg8 hsp hal hov hret =>
    unfold Mem_Init at hret ⊢
    dsimp only at hret ⊢
    split_ifs at hret ⊢ <;> simp at hret
    simp only [padd]
    have h8 : (8 : Int) ∣ sp :=
      Int.dvd_trans (Int.dvd_of_emod_eq_zero hpg8) (Int.dvd_of_emod_eq_zero hal)
    omega
  | alloc s fuel n r _ hr ih =>
    rw [Mem_Alloc_first_blk fuel s n r hr]; exact ih
  | free s p _ ih =>
    rw [Mem_Free_first_blk]; exact ih

/-- C1. In every state reached from a successful `Mem_Init` by `Mem_Alloc` and
`Mem_Free` calls, a `Mem_Alloc(n)` with `n > 0` that returns a non-null
pointer `p` returns the address 4 bytes past the header `best_ptr` that the
scan chose, which is not the header address, and `p` is a multiple of 8. -/
theorem Mem_Alloc_handle (s : Heap) (hs : Reachable s) (fuel : Nat) (n : Int)
    (s' : Heap) (p : Int) (hn : 0 < n)
    (h : Mem_Alloc fuel s n = some (s', p)) (hp : p ≠ 0) :
    ∃ best_ptr min_diff,
      scan fuel s.mem (roundedSize n) s.first_blk 0 INT_MAX = some (best_ptr, min_diff) ∧
      best_ptr ≠ 0 ∧ p = best_ptr + 4 ∧ p ≠ best_ptr ∧ p % 8 = 0 := by
  have hf := Reachable_first_blk s hs
  unfold Mem_Alloc at h
  rw [if_neg (by omega)] at h
  split at h
  · simp at h
  · rename_i best md hscan
    refine ⟨best, md, hscan, ?_⟩
    have hb := scan_best_mod8 fuel s.mem _ _ 0 INT_MAX best md hf (Or.inl rfl) hscan
    simp only [Option.some.injEq] at h
    unfold place at h
    dsimp only at h
    split_ifs at h with h0 h1 h2 <;> simp only [Prod.mk.injEq] at h
    · exact absurd h.2.symm hp
    all_goals
      obtain ⟨_, rfl⟩ := h
      unfold padd
      refine ⟨h0, by ring, by omega, ?_⟩
      rcases hb with hb | hb
      · exact absurd hb h0
      · omega

/-! ## Concrete states -/

theorem heapInit_reachable : Reachable heapInit :=
  Reachable.init heap0 4096 4096 3 65536 (by decide) (by decide) (by decide) (by decide)
    (by decide) (by decide)

/-- A run of `Mem_Alloc_handle`: `Mem_Alloc(4)` right after `Mem_Init(4096)`
returns 65544, 4 bytes past `first_blk`. -/
theorem Mem_Alloc_handle_witness :
    ∃ best_ptr min_diff,
      scan 64 heapInit.mem (roundedSize 4) heapInit.first_blk 0 INT_MAX
        = some (best_ptr, min_diff) ∧
      best_ptr ≠ 0 ∧ (65544 : Int) = best_ptr + 4 ∧ (65544 : Int) ≠ best_ptr ∧
      (65544 : Int) % 8 = 0 :=
  Mem_Alloc_handle heapInit heapInit_reachable 64 4 (allocState heapInit 4) 65544
    (by decide) (by rfl) (by decide)


/-! ## Decoding header words -/

/-- The flag bits of a header word, as a number from 0 to 3. -/
theorem hdr_flags (sz : Int) (al pa : Bool) :
    ∃ f, hdr sz al pa = sz + f ∧ 0 ≤ f ∧ f ≤ 3 ∧
      (f % 2 = if al then 1 else 0) ∧ (f / 2 = if pa then 1 else 0) := by
  refine ⟨(if pa then 2 else 0) + (if al then 1 else 0), ?_, ?_, ?_, ?_, ?_⟩
  · unfold hdr; ring
  all_goals cases al <;> cases pa <;> decide

/-- The span that the source reads back from a word `sz + f` with flags `f`. -/
theorem word_size (x sz f : Int) (hx : x = sz + f) (hf0 : 0 ≤ f) (hf3 : f ≤ 3)
    (h0 : 0 ≤ sz) (h8 : sz % 8 = 0) (hmax : sz ≤ 2147483640) :
    imul (cdiv x 8) 8 = sz := by
  rw [cdiv_nonneg x 8 (by omega) (by omega)]
  unfold imul wrap32
  omega

/-- The remainders of a word `sz + f` with flags `f`. -/
theorem word_status (x sz f : Int) (hx : x = sz + f) (hf0 : 0 ≤ f) (hf3 : f ≤ 3)
    (h0 : 0 ≤ sz) (h8 : sz % 8 = 0) :
    cmod x 8 = f ∧ cmod x 4 = f ∧ cmod x 2 = f % 2 := by
  rw [cmod_nonneg x 8 (by omega) (by omega), cmod_nonneg x 4 (by omega) (by omega),
    cmod_nonneg x 2 (by omega) (by omega)]
  omega

/-! ## Lists of blocks -/

theorem sumSizes_append (xs ys : List Blk) :
    sumSizes (xs ++ ys) = sumSizes xs + sumSizes ys := by
  induction xs with
  | nil => simp [sumSizes]
  | cons b bs ih => simp [sumSizes, ih]; ring

theorem lastAlloc_append (d : Bool) (xs ys : List Blk) :
    lastAlloc d (xs ++ ys) = lastAlloc (lastAlloc d xs) ys := by
  induction xs generalizing d with
  | nil => rfl
  | cons b bs ih => simp [lastAlloc, ih]

/-! ## Chains -/

/-- A chain ends where its spans add up to. -/
theorem Chain_end (m : Int → Int) :
    ∀ (bs : List Blk) (a : Int) (pa : Bool) (e : Int),
      Chain m a pa bs e → e = a + sumSizes bs := by
  intro bs
  induction bs with
  | nil => intro a pa e h; simp [Chain] at h; simp [sumSizes, h]
  | cons b bs ih =>
    intro a pa e h
    obtain ⟨_, _, _, _, h5⟩ := h
    rw [ih _ _ _ h5]; simp [sumSizes]; ring

/-- Every block of a chain has a span that is a multiple of 8 and at least 8. -/
theorem Chain_sizes (m : Int → Int) :
    ∀ (bs : List Blk) (a : Int) (pa : Bool) (e : Int),
      Chain m a pa bs e → ∀ b ∈ bs, 8 ≤ b.size ∧ b.size % 8 = 0 := by
  intro bs
  induction bs with
  | nil => intro a pa e _ b hb; simp at hb
  | cons c bs ih =>
    intro a pa e h b hb
    obtain ⟨h1, h2, _, _, h5⟩ := h
    rcases List.mem_cons.1 hb with rfl | hb
    · exact ⟨h1, h2⟩
    · exact ih _ _ _ h5 b hb

/-- The total span of a chain is a non-negative multiple of 8, and at least
8 times the number of blocks. -/
theorem Chain_sum (m : Int → Int) :
    ∀ (bs : List Blk) (a : Int) (pa : Bool) (e : Int),
      Chain m a pa bs e → 8 * (bs.length : Int) ≤ sumSizes bs ∧ sumSizes bs % 8 = 0 := by
  intro bs
  induction bs with
  | nil => intro a pa e _; simp [sumSizes]
  | cons c bs ih =>
    intro a pa e h
    obtain ⟨h1, h2, _, _, h5⟩ := h
    have := ih _ _ _ h5
    simp only [sumSizes, List.length_cons, Nat.cast_add, Nat.cast_one]
    omega

/-- A chain over a concatenation is a chain over each part. -/
theorem Chain_append (m : Int → Int) :
    ∀ (xs ys : List Blk) (a : Int) (pa : Bool) (e : Int),
      Chain m a pa (xs ++ ys) e ↔
        Chain m a pa xs (a + sumSizes xs) ∧
        Chain m (a + sumSizes xs) (lastAlloc pa xs) ys e := by
  intro xs
  induction xs with
  | nil => intro ys a pa e; simp [Chain, sumSizes, lastAlloc]
  | cons b bs ih =>
    intro ys a pa e
    have hrw : a + (b.size + sumSizes bs) = a + b.size + sumSizes bs := by ring
    show Chain m a pa (b :: (bs ++ ys)) e ↔
      Chain m a pa (b :: bs) (a + (b.size + sumSizes bs)) ∧
      Chain m (a + (b.size + sumSizes bs)) (lastAlloc b.alloc bs) ys e
    rw [hrw]
    constructor
    · rintro ⟨h1, h2, h3, h4, h5⟩
      obtain ⟨h6, h7⟩ := (ih ys _ _ _).1 h5
      exact ⟨⟨h1, h2, h3, h4, h6⟩, h7⟩
    · rintro ⟨⟨h1, h2, h3, h4, h6⟩, h7⟩
      exact ⟨h1, h2, h3, h4, (ih ys _ _ _).2 ⟨h6, h7⟩⟩

/-- A chain reads memory only between its two ends. -/
theorem Chain_frame (m m' : Int → Int) :
    ∀ (bs : List Blk) (a : Int) (pa : Bool) (e : Int),
      Chain m a pa bs e → (∀ x, a ≤ x → x < e → m' x = m x) → Chain m' a pa bs e := by
  intro bs
  induction bs with
  | nil => intro a pa e h _; exact h
  | cons b bs ih =>
    intro a pa e h hm
    have he := Chain_end m _ _ _ _ h
    have hs := Chain_sum m _ _ _ _ h
    obtain ⟨h1, h2, h3, h4, h5⟩ := h
    have hs5 := Chain_sum m _ _ _ _ h5
    simp only [sumSizes] at he
    refine ⟨h1, h2, ?_, ?_, ?_⟩
    · rw [hm a (by omega) (by omega)]; exact h3
    · intro hf
      obtain ⟨h41, h42⟩ := h4 hf
      refine ⟨h41, ?_⟩
      rw [hm _ (by omega) (by omega)]; exact h42
    · exact ih _ _ _ h5 (fun x hx1 hx2 => hm x (by omega) hx2)

/-! ## The scan over a chain -/

/-- Over a chain that ends in the end mark, the scan of `Mem_Alloc` ends
within one step per block and one more, and computes `pick`. -/
theorem scan_chain (m : Int → Int) (needed : Int) (hn0 : 0 ≤ needed)
    (hn1 : needed ≤ 2147483647) :
    ∀ (bs : List Blk) (a : Int) (pa : Bool) (e best md : Int) (fuel : Nat),
      Chain m a pa bs e → m e = 1 → sumSizes bs ≤ 2147483640 → bs.length < fuel →
      scan fuel m needed a best md = some (pick needed a bs (best, md)) := by
  intro bs
  induction bs with
  | nil =>
    intro a pa e best md fuel h he _ hfu
    obtain ⟨k, rfl⟩ : ∃ k, fuel = k + 1 := ⟨fuel - 1, by simp at hfu; omega⟩
    simp only [Chain] at h
    subst h
    simp [scan, pick, he]
  | cons b bs ih =>
    intro a pa e best md fuel h he hsum hfu
    obtain ⟨k, rfl⟩ : ∃ k, fuel = k + 1 := ⟨fuel - 1, by simp at hfu; omega⟩
    have hs := Chain_sum m _ _ _ _ h
    obtain ⟨h1, h2, h3, _, h5⟩ := h
    have hs5 := Chain_sum m _ _ _ _ h5
    simp only [sumSizes] at hsum hs
    obtain ⟨f, hf, hf0, hf3, hfa, _⟩ := hdr_flags b.size b.alloc pa
    rw [← h3] at hf
    have hsz := word_size (m a) b.size f hf hf0 hf3 (by omega) h2 (by omega)
    have hst := (word_status (m a) b.size f hf hf0 hf3 (by omega) h2).1
    have hne : m a ≠ 1 := by omega
    have hnext : padd a (cdiv b.size 4) = a + b.size := by
      unfold padd; rw [four_mul_cdiv4 _ h2]
    have hsub : isub b.size needed = b.size - needed := by
      unfold isub; exact wrap32_id _ (by omega) (by omega)
    have hfree : (f = 0 ∨ f = 2) ↔ b.alloc = false := by
      cases hb : b.alloc <;> simp [hb] at hfa ⊢ <;> omega
    unfold scan
    dsimp only
    rw [if_pos hne, hsz, hst, hnext, hsub]
    have hfu' : bs.length < k := by simp at hfu; omega
    by_cases hc : needed ≤ b.size ∧ b.alloc = false ∧ b.size - needed < md
    · have hc' : b.size ≥ needed ∧ (f = 0 ∨ f = 2) ∧ md > b.size - needed :=
        ⟨hc.1, hfree.2 hc.2.1, hc.2.2⟩
      rw [if_pos hc', ih _ _ _ _ _ _ h5 he (by omega) hfu']
      simp [pick, hc]
    · have hc' : ¬ (b.size ≥ needed ∧ (f = 0 ∨ f = 2) ∧ md > b.size - needed) :=
        fun hx => hc ⟨hx.1, hfree.1 hx.2.1, hx.2.2⟩
      rw [if_neg hc', ih _ _ _ _ _ _ h5 he (by omega) hfu']
      simp [pick, hc]

/-- What `pick` returns: the choice it started from when no block of the list
is a free block with a smaller excess, and otherwise the first among the free
blocks of least span that are large enough. -/
theorem pick_spec (needed : Int) :
    ∀ (bs : List Blk) (a best md : Int),
      (pick needed a bs (best, md) = (best, md) ∧
        ∀ b ∈ bs, Fits needed b → md ≤ b.size - needed) ∨
      ∃ pre c post, bs = pre ++ c :: post ∧ Fits needed c ∧ c.size - needed < md ∧
        pick needed a bs (best, md) = (a + sumSizes pre, c.size - needed) ∧
        (∀ b ∈ pre, Fits needed b → c.size < b.size) ∧
        (∀ b ∈ post, Fits needed b → c.size ≤ b.size) := by
  intro bs
  induction bs with
  | nil => intro a best md; left; simp [pick]
  | cons b bs ih =>
    intro a best md
    by_cases hc : needed ≤ b.size ∧ b.alloc = false ∧ b.size - needed < md
    · right
      have hp : pick needed a (b :: bs) (best, md)
          = pick needed (a + b.size) bs (a, b.size - needed) := by simp [pick, hc]
      rcases ih (a + b.size) a (b.size - needed) with ⟨h1, h2⟩ | ⟨pre, c, post, h1, h2, h3, h4, h5, h6⟩
      · refine ⟨[], b, bs, rfl, ⟨hc.2.1, hc.1⟩, hc.2.2, ?_, ?_, ?_⟩
        · rw [hp, h1]; simp [sumSizes]
        · intro x hx; simp at hx
        · intro x hx hfx; have := h2 x hx hfx; omega
      · refine ⟨b :: pre, c, post, by simp [h1], h2, by omega, ?_, ?_, h6⟩
        · rw [hp, h4]; simp [sumSizes]; ring
        · intro x hx hfx
          rcases List.mem_cons.1 hx with rfl | hx
          · omega
          · exact h5 x hx hfx
    · have hp : pick needed a (b :: bs) (best, md)
          = pick needed (a + b.size) bs (best, md) := by simp [pick, hc]
      have hb : Fits needed b → md ≤ b.size - needed := by
        intro hf
        by_contra hlt
        exact hc ⟨hf.2, hf.1, by omega⟩
      rcases ih (a + b.size) best md with ⟨h1, h2⟩ | ⟨pre, c, post, h1, h2, h3, h4, h5, h6⟩
      · left
        refine ⟨by rw [hp, h1], ?_⟩
        intro x hx hfx
        rcases List.mem_cons.1 hx with rfl | hx
        · exact hb hfx
        · exact h2 x hx hfx
      · right
        refine ⟨b :: pre, c, post, by simp [h1], h2, h3, ?_, ?_, h6⟩
        · rw [hp, h4]; simp [sumSizes]; ring
        · intro x hx hfx
          rcases List.mem_cons.1 hx with rfl | hx
          · have := hb hfx; omega
          · exact h5 x hx hfx

/-! ## Best fit -/

/-- Without overflow the rounding of `Mem_Alloc` yields the least multiple
of 8 that is at least the request plus 4. -/
theorem roundedSize_eq (n : Int) (h0 : 0 < n) (h1 : n ≤ 2147483636) :
    roundedSize n = roundUp8 (n + 4) := by
  unfold roundedSize roundUp8 iadd imul
  rw [wrap32_id (n + 4) (by omega) (by omega),
    cmod_nonneg (n + 4) 8 (by omega) (by omega), cdiv_nonneg (n + 4) 8 (by omega) (by omega)]
  split_ifs with h
  · have e1 : wrap32 ((n + 4) / 8 + 1) = (n + 4) / 8 + 1 := wrap32_id _ (by omega) (by omega)
    rw [e1, wrap32_id _ (by omega) (by omega)]; omega
  · omega

/-- A block of a list of blocks of non-negative span is no larger than the list. -/
theorem size_le_sumSizes (bs : List Blk) (hpos : ∀ b ∈ bs, 0 ≤ b.size) :
    ∀ b ∈ bs, b.size ≤ sumSizes bs := by
  induction bs with
  | nil => intro b hb; simp at hb
  | cons c bs ih =>
    intro b hb
    have hc := hpos c (by simp)
    have hnn : 0 ≤ sumSizes bs := by
      clear ih hb
      induction bs with
      | nil => simp [sumSizes]
      | cons d ds ihd =>
        have := hpos d (by simp)
        have := ihd (fun x hx => by
          rcases List.mem_cons.1 hx with rfl | hx
          · exact hc
          · exact hpos x (by simp [hx]))
        simp only [sumSizes]; omega
    simp only [sumSizes]
    rcases List.mem_cons.1 hb with rfl | hb
    · omega
    · have := ih (fun x hx => hpos x (by simp [hx])) b hb
      omega

/-- The pointer that `Mem_Alloc` returns once a block is chosen. -/
theorem place_ptr (s : Heap) (size best md : Int) (hb : best ≠ 0) :
    (place s size best md).2 = best + 4 := by
  unfold place padd
  dsimp only
  rw [if_neg hb]
  split_ifs <;> simp

/-- The header that `Mem_Alloc` leaves at a chosen free block of a chain. -/
theorem place_header (s : Heap) (needed best md csize : Int)
    (hb : best ≠ 0) (hm : s.mem best = hdr csize false true)
    (hc8 : csize % 8 = 0) (hn8 : 8 ≤ needed) (hnc : needed ≤ csize)
    (hcmax : csize ≤ 2147483640) :
    (place s needed best md).1.mem best = hdr needed true true := by
  have hm' : s.mem best = csize + 2 := by rw [hm]; simp [hdr]
  have hsz := word_size (s.mem best) csize 2 hm' (by omega) (by omega) (by omega) hc8 hcmax
  have hst := (word_status (s.mem best) csize 2 hm' (by omega) (by omega) (by omega) hc8).2.1
  have hafter : padd best (cdiv csize 4) = best + csize := by
    unfold padd; rw [four_mul_cdiv4 _ hc8]
  have hv : iadd (iadd needed 1) (imul (cdiv 2 2) 2) = hdr needed true true := by
    have : cdiv 2 2 = 1 := by decide
    rw [this]
    unfold iadd imul
    rw [wrap32_id (1 * 2) (by omega) (by omega), wrap32_id (needed + 1) (by omega) (by omega),
      wrap32_id _ (by omega) (by omega)]
    simp [hdr]; ring
  unfold place
  dsimp only
  rw [if_neg hb, hsz, hst, hafter, hv]
  unfold padd
  have e2 : best ≠ best + 4 * cdiv needed 4 := by
    rw [cdiv_nonneg needed 4 (by omega) (by omega)]; omega
  split_ifs
  · show store _ _ _ best = _
    rw [store_ne _ _ _ _ (by omega), store_ne _ _ _ _ e2, store_eq]
  · show store _ _ _ best = _
    rw [store_ne _ _ _ _ (by omega), store_eq]
  · show store _ _ _ best = _
    rw [store_eq]

/-- The choice of `Mem_Alloc` on a well-formed heap that has a free block
large enough for a positive request. -/
theorem Mem_Alloc_choice (s : Heap) (bs : List Blk) (e n : Int)
    (hwf : WF s bs e) (hn : 0 < n)
    (hex : ∃ b ∈ bs, Fits (roundUp8 (n + 4)) b) :
    ∃ pre c post, bs = pre ++ c :: post ∧ Fits (roundUp8 (n + 4)) c ∧
      0 < s.first_blk + sumSizes pre ∧
      (∀ b ∈ pre, Fits (roundUp8 (n + 4)) b → c.size < b.size) ∧
      (∀ b ∈ post, Fits (roundUp8 (n + 4)) b → c.size ≤ b.size) ∧
      ∀ fuel, bs.length < fuel →
        ∃ s', Mem_Alloc fuel s n = some (s', s.first_blk + sumSizes pre + 4) ∧
          s'.mem (s.first_blk + sumSizes pre) = hdr (roundUp8 (n + 4)) true true ∧
          s' = (place s (roundUp8 (n + 4)) (s.first_blk + sumSizes pre)
            (c.size - roundUp8 (n + 4))).1 := by
  obtain ⟨hF0, hF8, hch, hbound, hend⟩ := hwf
  have hsum := Chain_end s.mem _ _ _ _ hch
  have hsizes := Chain_sizes s.mem _ _ _ _ hch
  have hle := size_le_sumSizes bs (fun b hb => by have := (hsizes b hb).1; omega)
  obtain ⟨b0, hb0, hfit0⟩ := hex
  have hb0le := hle b0 hb0
  have hneeded : roundUp8 (n + 4) ≤ 2147483640 := by have := hfit0.2; omega
  have hnlo : 8 ≤ roundUp8 (n + 4) := by unfold roundUp8; omega
  have hnmax : n ≤ 2147483636 := by unfold roundUp8 at hneeded; omega
  have hround := roundedSize_eq n hn hnmax
  rcases pick_spec (roundUp8 (n + 4)) bs s.first_blk 0 INT_MAX with
    ⟨_, h2⟩ | ⟨pre, c, post, h1, h2, h3, h4, h5, h6⟩
  · exfalso
    have := h2 b0 hb0 hfit0
    unfold INT_MAX at this
    omega
  · have hpre0 : 0 < s.first_blk + sumSizes pre := by
      rw [h1] at hch
      have := Chain_sum s.mem _ _ _ _ ((Chain_append s.mem pre (c :: post) _ _ _).1 hch).1
      omega
    refine ⟨pre, c, post, h1, h2, hpre0, h5, h6, ?_⟩
    intro fuel hfuel
    have hscan := scan_chain s.mem (roundUp8 (n + 4)) (by omega) (by omega) bs s.first_blk true e 0
      INT_MAX fuel hch hend (by omega) hfuel
    rw [h4] at hscan
    rw [h1] at hch
    obtain ⟨hpre, hc⟩ := (Chain_append s.mem pre (c :: post) _ _ _).1 hch
    have hpresum := Chain_sum s.mem _ _ _ _ hpre
    obtain ⟨_, hc8, hchdr, hcfree, _⟩ := hc
    obtain ⟨hpa, _⟩ := hcfree h2.1
    rw [hpa, h2.1] at hchdr
    have hbest : s.first_blk + sumSizes pre ≠ 0 := by omega
    have hcle := hle c (by rw [h1]; simp)
    refine ⟨(place s (roundUp8 (n + 4)) (s.first_blk + sumSizes pre)
      (c.size - roundUp8 (n + 4))).1, ?_, ?_⟩
    · unfold Mem_Alloc
      rw [if_neg (by omega), hround, hscan]
      simp only [Option.some.injEq]
      rw [← place_ptr s (roundUp8 (n + 4)) _ (c.size - roundUp8 (n + 4)) hbest]
    · exact ⟨place_header s _ _ _ c.size hbest hchdr hc8 hnlo h2.2 (by omega), rfl⟩

/-- A positive request that some free block of a well-formed heap can hold
makes `Mem_Alloc` return a non-null pointer. -/
theorem Mem_Alloc_succeeds (s : Heap) (bs : List Blk) (e n : Int)
    (hwf : WF s bs e) (hn : 0 < n)
    (hex : ∃ b ∈ bs, Fits (roundUp8 (n + 4)) b) (fuel : Nat) (hfuel : bs.length < fuel) :
    ∃ s' p, Mem_Alloc fuel s n = some (s', p) ∧ p ≠ 0 := by
  obtain ⟨pre, c, post, _, _, h0, _, _, h⟩ := Mem_Alloc_choice s bs e n hwf hn hex
  obtain ⟨s', h1, _⟩ := h fuel hfuel
  exact ⟨s', _, h1, by omega⟩

/-- C3, amended. On a well-formed heap and for a request `n > 0`, with
`needed` the least multiple of 8 at least `n + 4`: if some free block has a
span of at least `needed`, then the chain splits around a free block `c` that
is large enough, is strictly smaller than every large-enough free block before
it and no larger than every one after it, and `Mem_Alloc(n)` returns within
one loop step per block the pointer 4 bytes past the start of `c`, leaving at
the start of `c` the header of an allocated block of `needed` bytes. -/
theorem Mem_Alloc_best_fit (s : Heap) (bs : List Blk) (e n : Int)
    (hwf : WF s bs e) (hn : 0 < n)
    (hex : ∃ b ∈ bs, Fits (roundUp8 (n + 4)) b) :
    ∃ pre c post, bs = pre ++ c :: post ∧ Fits (roundUp8 (n + 4)) c ∧
      (∀ b ∈ pre, Fits (roundUp8 (n + 4)) b → c.size < b.size) ∧
      (∀ b ∈ post, Fits (roundUp8 (n + 4)) b → c.size ≤ b.size) ∧
      ∀ fuel, bs.length < fuel →
        ∃ s', Mem_Alloc fuel s n = some (s', s.first_blk + sumSizes pre + 4) ∧
          s'.mem (s.first_blk + sumSizes pre) = hdr (roundUp8 (n + 4)) true true := by
  obtain ⟨pre, c, post, h1, h2, _, h4, h5, h6⟩ := Mem_Alloc_choice s bs e n hwf hn hex
  refine ⟨pre, c, post, h1, h2, h4, h5, ?_⟩
  intro fuel hfuel
  obtain ⟨s', h7, h8, _⟩ := h6 fuel hfuel
  exact ⟨s', h7, h8⟩

theorem heapInit_WF : WF heapInit [⟨4088, false⟩] 69628 := by decide

theorem heapHoles_WF : WF heapHoles holesChain 69628 := by decide

/-- A run of `Mem_Alloc_best_fit`: `Mem_Alloc(20)`, which needs 24 bytes, on a
heap whose free blocks span 40, 24, 24 and 104 bytes in address order, at
65540, 65596, 65636 and 65676. The call returns 65600, the handle of the first
block of 24 bytes: it passes over the larger block of 40 bytes before it, and
keeps it against the equal block and the larger block after it. -/
theorem Mem_Alloc_best_fit_witness :
    WF heapHoles holesChain 69628 ∧
    (∃ pre c post, holesChain = pre ++ c :: post ∧ Fits (roundUp8 (20 + 4)) c ∧
      (∀ b ∈ pre, Fits (roundUp8 (20 + 4)) b → c.size < b.size) ∧
      (∀ b ∈ post, Fits (roundUp8 (20 + 4)) b → c.size ≤ b.size) ∧
      ∀ fuel, holesChain.length < fuel →
        ∃ s', Mem_Alloc fuel heapHoles 20
            = some (s', heapHoles.first_blk + sumSizes pre + 4) ∧
          s'.mem (heapHoles.first_blk + sumSizes pre) = hdr (roundUp8 (20 + 4)) true true) ∧
    Mem_Alloc 64 heapHoles 20 = some (allocState heapHoles 20, 65600) ∧
    (65600 : Int) = heapHoles.first_blk + sumSizes [⟨40, false⟩, ⟨16, true⟩] + 4 ∧
    holesChain = [⟨40, false⟩, ⟨16, true⟩] ++ ⟨24, false⟩ ::
      [⟨16, true⟩, ⟨24, false⟩, ⟨16, true⟩, ⟨104, false⟩, ⟨3848, true⟩] ∧
    (allocState heapHoles 20).mem 65596 = hdr 24 true true :=
  ⟨heapHoles_WF,
    Mem_Alloc_best_fit heapHoles holesChain 69628 20 heapHoles_WF (by decide)
      ⟨⟨24, false⟩, by decide, by decide⟩,
    rfl, by decide, rfl, by decide⟩

/-- C3 as stated fails for a request that is not positive: the heap after
`Mem_Init(4096)` is well formed and its free block of 4088 bytes is at least
the `needed` of 8 bytes for `n = 0`, yet `Mem_Alloc(0)` returns `NULL` and
allocates nothing. -/
theorem Mem_Alloc_best_fit_zero_request :
    WF heapInit [⟨4088, false⟩] 69628 ∧ Fits (roundUp8 (0 + 4)) ⟨4088, false⟩ ∧
    Mem_Alloc 64 heapInit 0 = some (heapInit, 0) :=
  ⟨by decide, by decide, rfl⟩

/-! ## Symbolic runs of `Mem_Free` -/

theorem store_store (m : Int → Int) (a v v' : Int) :
    store (store m a v) a v' = store m a v' := by
  funext x; unfold store; split_ifs <;> rfl

/-- A call of `Mem_Free` on an allocated block whose predecessor is allocated and whose
successor word `w` has bit 0 set: the block becomes free, gets a footer, and
the successor word loses 2. -/
theorem Mem_Free_run_neither (s : Heap) (a sz w : Int)
    (ha0 : 0 < a) (ha8 : a % 8 = 4) (hsz8 : sz % 8 = 0) (hsz : 8 ≤ sz)
    (hmax : sz ≤ 2147483640)
    (hcur : s.mem a = sz + 3) (hnext : s.mem (a + sz) = w)
    (hw : cmod (cmod w 8) 2 = 1) (hwr : -2147483646 ≤ w ∧ w ≤ 2147483647) :
    Mem_Free s (a + 4) =
      ({ s with mem := store (store (store s.mem a (sz + 2)) (a + sz) (w - 2)) (a + sz - 4) sz },
        0) := by
  have c1 : ¬ (a + 4 = 0) := by omega
  have c2 : cmod (wrap32 (a + 4)) 8 = 0 := by rw [cmod8_eq_zero_iff, wrap32_mod8]; omega
  have c3 : cmod (sz + 3) 2 = 1 := by rw [cmod_nonneg _ _ (by omega) (by omega)]; omega
  have c4 : isub (sz + 3) 1 = sz + 2 := by
    unfold isub; rw [wrap32_id _ (by omega) (by omega)]; ring
  have c5 : imul (cdiv (sz + 2) 8) 8 = sz :=
    word_size _ sz 2 rfl (by omega) (by omega) (by omega) hsz8 hmax
  have c6 : cmod (sz + 2) 8 = 2 :=
    (word_status _ sz 2 rfl (by omega) (by omega) (by omega) hsz8).1
  have c7 : padd a (cdiv sz 4) = a + sz := by unfold padd; rw [four_mul_cdiv4 _ hsz8]
  have c8 : padd (a + sz) (-1) = a + sz - 4 := by unfold padd; ring
  have c9 : iadd sz 2 = sz + 2 := by unfold iadd; exact wrap32_id _ (by omega) (by omega)
  have c10 : isub w 2 = w - 2 := by unfold isub; exact wrap32_id _ (by omega) (by omega)
  have d1 : a + sz ≠ a := by omega
  unfold Mem_Free
  simp only [add_sub_cancel_right, c1, c2, hcur, c3, c4, store_eq, c5, c6, c7, c8, c9, c10,
    store_ne _ _ _ _ d1, hnext, hw, if_false, if_true, ne_eq, not_true_eq_false,
    not_false_eq_true, one_ne_zero, and_true, and_false, false_and, true_and,
    OfNat.ofNat_ne_zero, store_store]

/-- A call of `Mem_Free` on an allocated block whose predecessor is allocated and whose
successor is a free block of span `nsz`: the two become one free block. -/
theorem Mem_Free_run_next (s : Heap) (a sz nsz : Int)
    (ha0 : 0 < a) (ha8 : a % 8 = 4) (hsz8 : sz % 8 = 0) (hsz : 8 ≤ sz)
    (hn8 : nsz % 8 = 0) (hn : 8 ≤ nsz) (hmax : sz + nsz ≤ 2147483640)
    (hcur : s.mem a = sz + 3) (hnext : s.mem (a + sz) = nsz + 2) :
    Mem_Free s (a + 4) =
      ({ s with
          mem := store (store (store s.mem a (sz + nsz + 2)) (a + sz) 0)
                  (a + sz + nsz - 4) (sz + nsz) }, 0) := by
  have c1 : ¬ (a + 4 = 0) := by omega
  have c2 : cmod (wrap32 (a + 4)) 8 = 0 := by rw [cmod8_eq_zero_iff, wrap32_mod8]; omega
  have c3 : cmod (sz + 3) 2 = 1 := by rw [cmod_nonneg _ _ (by omega) (by omega)]; omega
  have c4 : isub (sz + 3) 1 = sz + 2 := by
    unfold isub; rw [wrap32_id _ (by omega) (by omega)]; ring
  have c5 : imul (cdiv (sz + 2) 8) 8 = sz :=
    word_size _ sz 2 rfl (by omega) (by omega) (by omega) hsz8 (by omega)
  have c6 : cmod (sz + 2) 8 = 2 :=
    (word_status _ sz 2 rfl (by omega) (by omega) (by omega) hsz8).1
  have c7 : padd a (cdiv sz 4) = a + sz := by unfold padd; rw [four_mul_cdiv4 _ hsz8]
  have c8 : imul (cdiv (nsz + 2) 8) 8 = nsz :=
    word_size _ nsz 2 rfl (by omega) (by omega) (by omega) hn8 (by omega)
  have c9 : cmod (cmod (nsz + 2) 8) 2 = 0 := by
    rw [(word_status _ nsz 2 rfl (by omega) (by omega) (by omega) hn8).1]; decide
  have c10 : padd (padd (a + sz) (cdiv nsz 4)) (-1) = a + sz + nsz - 4 := by
    unfold padd; rw [four_mul_cdiv4 _ hn8]; ring
  have c11 : iadd nsz sz = sz + nsz := by
    unfold iadd; rw [wrap32_id _ (by omega) (by omega)]; ring
  have c12 : iadd (sz + nsz) 2 = sz + nsz + 2 := by
    unfold iadd; exact wrap32_id _ (by omega) (by omega)
  have d1 : a + sz ≠ a := by omega
  unfold Mem_Free
  simp only [add_sub_cancel_right, c1, c2, hcur, c3, c4, store_eq, c5, c6, c7, c8, c9, c10,
    c11, c12, store_ne _ _ _ _ d1, hnext, if_false, if_true, ne_eq, not_true_eq_false,
    not_false_eq_true, one_ne_zero, zero_ne_one, and_true, and_false, false_and, true_and,
    and_self, OfNat.ofNat_ne_zero, store_store]

/-- A call of `Mem_Free` on an allocated block whose predecessor is a free block of span
`psz` and whose successor word `w` has bit 0 set: the block joins its
predecessor, and the successor word loses 2. -/
theorem Mem_Free_run_prev (s : Heap) (a sz psz w : Int)
    (ha0 : 0 < a - psz) (ha8 : a % 8 = 4) (hsz8 : sz % 8 = 0) (hsz : 8 ≤ sz)
    (hp8 : psz % 8 = 0) (hp : 8 ≤ psz) (hmax : psz + sz ≤ 2147483640)
    (hcur : s.mem a = sz + 1) (hfoot : s.mem (a - 4) = psz) (hnext : s.mem (a + sz) = w)
    (hw : cmod (cmod w 8) 2 = 1) (hwr : -2147483646 ≤ w ∧ w ≤ 2147483647) :
    Mem_Free s (a + 4) =
      ({ s with
          mem := store (store (store (store (store (store s.mem a sz) (a - psz)
                  (psz + sz + 2)) (a - 4) 0) a 0) (a + sz - 4) (psz + sz)) (a + sz) (w - 2) },
        0) := by
  have c1 : ¬ (a + 4 = 0) := by omega
  have c2 : cmod (wrap32 (a + 4)) 8 = 0 := by rw [cmod8_eq_zero_iff, wrap32_mod8]; omega
  have c3 : cmod (sz + 1) 2 = 1 := by rw [cmod_nonneg _ _ (by omega) (by omega)]; omega
  have c4 : isub (sz + 1) 1 = sz := by
    unfold isub; rw [wrap32_id _ (by omega) (by omega)]; ring
  have c5 : imul (cdiv sz 8) 8 = sz :=
    word_size _ sz 0 (by ring) (by omega) (by omega) (by omega) hsz8 (by omega)
  have c6 : cmod sz 8 = 0 :=
    (word_status _ sz 0 (by ring) (by omega) (by omega) (by omega) hsz8).1
  have c7 : padd a (cdiv sz 4) = a + sz := by unfold padd; rw [four_mul_cdiv4 _ hsz8]
  have c8 : padd a (-1) = a - 4 := by unfold padd; ring
  have c9 : padd a (-cdiv psz 4) = a - psz := by
    unfold padd
    have := four_mul_cdiv4 _ hp8
    omega
  have c10 : padd (a + sz) (-1) = a + sz - 4 := by unfold padd; ring
  have c11 : iadd psz sz = psz + sz := by
    unfold iadd; rw [wrap32_id _ (by omega) (by omega)]
  have c12 : iadd (psz + sz) 2 = psz + sz + 2 := by
    unfold iadd; exact wrap32_id _ (by omega) (by omega)
  have c13 : isub w 2 = w - 2 := by unfold isub; exact wrap32_id _ (by omega) (by omega)
  have d1 : a + sz ≠ a := by omega
  have d2 : a - 4 ≠ a := by omega
  have d3 : a + sz ≠ a + sz - 4 := by omega
  have d4 : a + sz ≠ a - 4 := by omega
  have d5 : a + sz ≠ a - psz := by omega
  have d6 : ¬ (psz = 0) := by omega
  have d7 : ¬ (a - psz = 0) := by omega
  unfold Mem_Free
  simp only [add_sub_cancel_right, c1, c2, hcur, c3, c4, store_eq, c5, c6, c7, c8, c9, c10,
    c11, c12, c13, store_ne _ _ _ _ d1, store_ne _ _ _ _ d2, store_ne _ _ _ _ d3,
    store_ne _ _ _ _ d4, store_ne _ _ _ _ d5, d6, d7, hfoot, hnext, hw, if_false, if_true,
    ne_eq, not_true_eq_false, not_false_eq_true, one_ne_zero, zero_ne_one, and_true,
    and_false, false_and, true_and, and_self, OfNat.ofNat_ne_zero]

/-- A call of `Mem_Free` on an allocated block between a free block of span `psz` and a
free block of span `nsz`: the three become one free block. -/
theorem Mem_Free_run_both (s : Heap) (a sz psz nsz : Int)
    (ha0 : 0 < a - psz) (ha8 : a % 8 = 4) (hsz8 : sz % 8 = 0) (hsz : 8 ≤ sz)
    (hp8 : psz % 8 = 0) (hp : 8 ≤ psz) (hn8 : nsz % 8 = 0) (hn : 8 ≤ nsz)
    (hmax : psz + sz + nsz ≤ 2147483640)
    (hcur : s.mem a = sz + 1) (hfoot : s.mem (a - 4) = psz)
    (hnext : s.mem (a + sz) = nsz + 2) :
    Mem_Free s (a + 4) =
      ({ s with
          mem := store (store (store (store (store (store s.mem a sz) (a - psz)
                  (psz + sz + nsz + 2)) (a - 4) 0) a 0) (a + sz) 0) (a + sz + nsz - 4)
                  (psz + sz + nsz) }, 0) := by
  have c1 : ¬ (a + 4 = 0) := by omega
  have c2 : cmod (wrap32 (a + 4)) 8 = 0 := by rw [cmod8_eq_zero_iff, wrap32_mod8]; omega
  have c3 : cmod (sz + 1) 2 = 1 := by rw [cmod_nonneg _ _ (by omega) (by omega)]; omega
  have c4 : isub (sz + 1) 1 = sz := by
    unfold isub; rw [wrap32_id _ (by omega) (by omega)]; ring
  have c5 : imul (cdiv sz 8) 8 = sz :=
    word_size _ sz 0 (by ring) (by omega) (by omega) (by omega) hsz8 (by omega)
  have c6 : cmod sz 8 = 0 :=
    (word_status _ sz 0 (by ring) (by omega) (by omega) (by omega) hsz8).1
  have c7 : padd a (cdiv sz 4) = a + sz := by unfold padd; rw [four_mul_cdiv4 _ hsz8]
  have c8 : padd a (-1) = a - 4 := by unfold padd; ring
  have c9 : padd a (-cdiv psz 4) = a - psz := by
    unfold padd
    have := four_mul_cdiv4 _ hp8
    omega
  have c10 : padd (padd (a + sz) (cdiv nsz 4)) (-1) = a + sz + nsz - 4 := by
    unfold padd; rw [four_mul_cdiv4 _ hn8]; ring
  have c11 : iadd psz sz = psz + sz := by
    unfold iadd; rw [wrap32_id _ (by omega) (by omega)]
  have c12 : iadd (psz + sz) nsz = psz + sz + nsz := by
    unfold iadd; exact wrap32_id _ (by omega) (by omega)
  have c13 : iadd (psz + sz + nsz) 2 = psz + sz + nsz + 2 := by
    unfold iadd; exact wrap32_id _ (by omega) (by omega)
  have c14 : imul (cdiv (nsz + 2) 8) 8 = nsz :=
    word_size _ nsz 2 rfl (by omega) (by omega) (by omega) hn8 (by omega)
  have c15 : cmod (cmod (nsz + 2) 8) 2 = 0 := by
    rw [(word_status _ nsz 2 rfl (by omega) (by omega) (by omega) hn8).1]; decide
  have d1 : a + sz ≠ a := by omega
  have d2 : a - 4 ≠ a := by omega
  have d6 : ¬ (psz = 0) := by omega
  have d7 : ¬ (a - psz = 0) := by omega
  unfold Mem_Free
  simp only [add_sub_cancel_right, c1, c2, hcur, c3, c4, store_eq, c5, c6, c7, c8, c9, c10,
    c11, c12, c13, c14, c15, store_ne _ _ _ _ d1, store_ne _ _ _ _ d2, d6, d7, hfoot, hnext,
    if_false, if_true, ne_eq, not_true_eq_false, not_false_eq_true, one_ne_zero, zero_ne_one,
    and_true, and_false, false_and, true_and, and_self, OfNat.ofNat_ne_zero]

/-! ## `Mem_Free` on a well-formed heap -/

/-- Freeing an allocated block whose predecessor is allocated, or which is the
first block, in a heap whose end mark holds `w`; when the block is the last
one the end mark must hold 1, and it holds -1 afterwards. Every word that
changes lies between the start of the block and the header after the free
block that the call leaves. -/
theorem Mem_Free_after_alloc_x (s : Heap) (pre post : List Blk) (sz e w : Int)
    (hwf : WFx s (pre ++ ⟨sz, true⟩ :: post) e w) (hw1 : post = [] → w = 1)
    (hpa : lastAlloc true pre = true) :
    (Mem_Free s (s.first_blk + sumSizes pre + 4)).2 = 0 ∧
    WFx (Mem_Free s (s.first_blk + sumSizes pre + 4)).1 (pre ++ joinNext sz post) e
      (if post = [] then -1 else w) ∧
    (Mem_Free s (s.first_blk + sumSizes pre + 4)).1.mem (s.first_blk + sumSizes pre) % 2 = 0 ∧
    (∀ x, (Mem_Free s (s.first_blk + sumSizes pre + 4)).1.mem x ≠ s.mem x →
      s.first_blk + sumSizes pre ≤ x ∧
      x ≤ s.first_blk + sumSizes pre + sz + (if headAlloc post then 0 else headSize post)) := by
  obtain ⟨hF0, hF8, hch, hbound, hend⟩ := hwf
  have hsum := Chain_end s.mem _ _ _ _ hch
  obtain ⟨hpre, hcur⟩ := (Chain_append s.mem pre _ _ _ _).1 hch
  have hpresum := Chain_sum s.mem _ _ _ _ hpre
  rw [sumSizes_append] at hsum
  simp only [sumSizes] at hsum
  obtain ⟨hsz, hsz8, hhdr, _, hpost⟩ := hcur
  dsimp only at hsz hsz8 hhdr hpost hsum
  have hpostsum := Chain_sum s.mem _ _ _ _ hpost
  rw [hpa] at hhdr
  have hhdr' : s.mem (s.first_blk + sumSizes pre) = sz + 3 := by rw [hhdr]; simp [hdr]; ring
  generalize ha : s.first_blk + sumSizes pre = a at *
  rcases post with _ | ⟨⟨nsz, nal⟩, post'⟩
  · -- the successor is the end mark
    have hw := hw1 rfl
    subst hw
    simp only [Chain] at hpost
    simp only [sumSizes] at hsum hpostsum
    have hrun := Mem_Free_run_neither s a sz 1 (by omega) (by omega) hsz8 hsz (by omega) hhdr'
      (by rw [hpost]; exact hend) (by decide) (by omega)
    rw [hrun]
    dsimp only
    refine ⟨rfl, ⟨hF0, hF8, ?_, hbound, ?_⟩, ?_, ?_⟩
    · refine (Chain_append _ pre _ _ _ _).2 ⟨?_, ?_⟩
      · rw [ha]
        refine Chain_frame s.mem _ _ _ _ _ hpre ?_
        intro x hx1 hx2
        show store _ _ _ x = _
        rw [store_ne _ _ _ _ (by omega), store_ne _ _ _ _ (by omega), store_ne _ _ _ _ (by omega)]
      · rw [ha, hpa]
        have hj : joinNext sz ([] : List Blk) = [⟨sz, false⟩] := rfl
        rw [hj]
        refine ⟨hsz, hsz8, ?_, ?_, hpost⟩
        · show store _ _ _ a = _
          rw [store_ne _ _ _ _ (by omega), store_ne _ _ _ _ (by omega), store_eq]
          simp [hdr]
        · intro _
          refine ⟨rfl, ?_⟩
          show store _ _ _ (a + sz - 4) = _
          rw [store_eq]
    · show store _ _ _ e = _
      rw [store_ne _ _ _ _ (by omega), ← hpost, store_eq]
      rfl
    · show store _ _ _ a % 2 = 0
      rw [store_ne _ _ _ _ (by omega), store_ne _ _ _ _ (by omega), store_eq]
      omega
    · intro x hx
      by_contra hc
      have hhi : (if headAlloc ([] : List Blk) then (0 : Int)
          else headSize ([] : List Blk)) = 0 := rfl
      rw [hhi] at hc
      apply hx
      show store _ _ _ x = _
      repeat rw [store_ne _ _ _ _ (by omega)]
  · cases nal
    · -- the successor is free
      obtain ⟨hn, hn8, hnh, hnf, hpost'⟩ := hpost
      dsimp only at hn hn8 hnh hnf hpost'
      have hpost'sum := Chain_sum s.mem _ _ _ _ hpost'
      simp only [sumSizes] at hsum hpostsum
      obtain ⟨_, hfoot⟩ := hnf rfl
      have hnh' : s.mem (a + sz) = nsz + 2 := by rw [hnh]; simp [hdr]
      have hrun := Mem_Free_run_next s a sz nsz (by omega) (by omega) hsz8 hsz hn8 hn
        (by omega) hhdr' hnh'
      rw [hrun]
      dsimp only
      refine ⟨rfl, ⟨hF0, hF8, ?_, hbound, ?_⟩, ?_, ?_⟩
      · refine (Chain_append _ pre _ _ _ _).2 ⟨?_, ?_⟩
        · rw [ha]
          refine Chain_frame s.mem _ _ _ _ _ hpre ?_
          intro x hx1 hx2
          show store _ _ _ x = _
          rw [store_ne _ _ _ _ (by omega), store_ne _ _ _ _ (by omega),
            store_ne _ _ _ _ (by omega)]
        · rw [ha, hpa]
          have hj : joinNext sz (⟨nsz, false⟩ :: post') = ⟨sz + nsz, false⟩ :: post' := rfl
          rw [hj]
          have hadd : a + (sz + nsz) = a + sz + nsz := by ring
          refine ⟨by dsimp only; omega, by dsimp only; omega, ?_, ?_, ?_⟩
          · show store _ _ _ a = _
            rw [store_ne _ _ _ _ (by omega), store_ne _ _ _ _ (by omega), store_eq]
            simp [hdr]
          · intro _
            refine ⟨rfl, ?_⟩
            show store _ _ _ (a + (sz + nsz) - 4) = _
            rw [hadd, store_eq]
          · show Chain _ (a + (sz + nsz)) false post' e
            rw [hadd]
            refine Chain_frame s.mem _ _ _ _ _ hpost' ?_
            intro x hx1 hx2
            show store _ _ _ x = _
            rw [store_ne _ _ _ _ (by omega), store_ne _ _ _ _ (by omega),
              store_ne _ _ _ _ (by omega)]
      · show store _ _ _ e = _
        rw [store_ne _ _ _ _ (by omega), store_ne _ _ _ _ (by omega),
          store_ne _ _ _ _ (by omega)]
        rw [if_neg (List.cons_ne_nil _ _)]
        exact hend
      · show store _ _ _ a % 2 = 0
        rw [store_ne _ _ _ _ (by omega), store_ne _ _ _ _ (by omega), store_eq]
        omega
      · intro x hx
        by_contra hc
        have hhi : (if headAlloc ((⟨nsz, false⟩ : Blk) :: post') then (0 : Int)
            else headSize ((⟨nsz, false⟩ : Blk) :: post')) = nsz := rfl
        rw [hhi] at hc
        apply hx
        show store _ _ _ x = _
        repeat rw [store_ne _ _ _ _ (by omega)]
    · -- the successor is allocated
      obtain ⟨hn, hn8, hnh, _, hpost'⟩ := hpost
      dsimp only at hn hn8 hnh hpost'
      have hpost'sum := Chain_sum s.mem _ _ _ _ hpost'
      simp only [sumSizes] at hsum hpostsum
      have hnh' : s.mem (a + sz) = nsz + 3 := by rw [hnh]; simp [hdr]; ring
      have hw : cmod (cmod (nsz + 3) 8) 2 = 1 := by
        rw [(word_status _ nsz 3 rfl (by omega) (by omega) (by omega) hn8).1]; decide
      have hrun := Mem_Free_run_neither s a sz (nsz + 3) (by omega) (by omega) hsz8 hsz
        (by omega) hhdr' hnh' hw (by omega)
      rw [hrun]
      dsimp only
      refine ⟨rfl, ⟨hF0, hF8, ?_, hbound, ?_⟩, ?_, ?_⟩
      · refine (Chain_append _ pre _ _ _ _).2 ⟨?_, ?_⟩
        · rw [ha]
          refine Chain_frame s.mem _ _ _ _ _ hpre ?_
          intro x hx1 hx2
          show store _ _ _ x = _
          rw [store_ne _ _ _ _ (by omega), store_ne _ _ _ _ (by omega),
            store_ne _ _ _ _ (by omega)]
        · rw [ha, hpa]
          have hj : joinNext sz (⟨nsz, true⟩ :: post')
              = ⟨sz, false⟩ :: ⟨nsz, true⟩ :: post' := rfl
          rw [hj]
          refine ⟨hsz, hsz8, ?_, ?_, hn, hn8, ?_, ?_, ?_⟩
          · show store _ _ _ a = _
            rw [store_ne _ _ _ _ (by omega), store_ne _ _ _ _ (by omega), store_eq]
            simp [hdr]
          · intro _
            refine ⟨rfl, ?_⟩
            show store _ _ _ (a + sz - 4) = _
            rw [store_eq]
          · show store _ _ _ (a + sz) = _
            rw [store_ne _ _ _ _ (by omega), store_eq]
            simp [hdr]; ring
          · intro h; cases h
          · refine Chain_frame s.mem _ _ _ _ _ hpost' ?_
            intro x hx1 hx2
            show store _ _ _ x = _
            dsimp only at hx1
            rw [store_ne _ _ _ _ (by omega), store_ne _ _ _ _ (by omega),
              store_ne _ _ _ _ (by omega)]
      · show store _ _ _ e = _
        rw [store_ne _ _ _ _ (by omega), store_ne _ _ _ _ (by omega),
          store_ne _ _ _ _ (by omega)]
        rw [if_neg (List.cons_ne_nil _ _)]
        exact hend
      · show store _ _ _ a % 2 = 0
        rw [store_ne _ _ _ _ (by omega), store_ne _ _ _ _ (by omega), store_eq]
        omega
      · intro x hx
        by_contra hc
        have hhi : (if headAlloc ((⟨nsz, true⟩ : Blk) :: post') then (0 : Int)
            else headSize ((⟨nsz, true⟩ : Blk) :: post')) = 0 := rfl
        rw [hhi] at hc
        apply hx
        show store _ _ _ x = _
        repeat rw [store_ne _ _ _ _ (by omega)]

/-- Freeing an allocated block whose predecessor is allocated, or which is the
first block. -/
theorem Mem_Free_after_alloc (s : Heap) (pre post : List Blk) (sz e : Int)
    (hwf : WF s (pre ++ ⟨sz, true⟩ :: post) e) (hpa : lastAlloc true pre = true) :
    (Mem_Free s (s.first_blk + sumSizes pre + 4)).2 = 0 ∧
    WFx (Mem_Free s (s.first_blk + sumSizes pre + 4)).1 (pre ++ joinNext sz post) e
      (endWordAfterFree post) ∧
    (Mem_Free s (s.first_blk + sumSizes pre + 4)).1.mem (s.first_blk + sumSizes pre) % 2 = 0 := by
  obtain ⟨h1, h2, h3, _⟩ := Mem_Free_after_alloc_x s pre post sz e 1 hwf (fun _ => rfl) hpa
  cases post <;> exact ⟨h1, h2, h3⟩

theorem store_at (m : Int → Int) (a v x : Int) (h : x = a) : store m a v x = v := by
  simp [store, h]

/-- Freeing an allocated block whose predecessor is a free block of span `psz`,
in a heap whose end mark holds `w`; when the block is the last one the end
mark must hold 1, and it holds -1 afterwards. Every word that changes lies
between the start of the predecessor and the header after the free block that
the call leaves. -/
theorem Mem_Free_after_free_x (s : Heap) (pre post : List Blk) (psz sz e w : Int)
    (hwf : WFx s (pre ++ ⟨psz, false⟩ :: ⟨sz, true⟩ :: post) e w) (hw1 : post = [] → w = 1) :
    (Mem_Free s (s.first_blk + sumSizes pre + psz + 4)).2 = 0 ∧
    WFx (Mem_Free s (s.first_blk + sumSizes pre + psz + 4)).1
      (pre ++ joinNext (psz + sz) post) e (if post = [] then -1 else w) ∧
    (Mem_Free s (s.first_blk + sumSizes pre + psz + 4)).1.mem
      (s.first_blk + sumSizes pre + psz) % 2 = 0 ∧
    (∀ x, (Mem_Free s (s.first_blk + sumSizes pre + psz + 4)).1.mem x ≠ s.mem x →
      s.first_blk + sumSizes pre ≤ x ∧
      x ≤ s.first_blk + sumSizes pre + psz + sz
            + (if headAlloc post then 0 else headSize post)) := by
  obtain ⟨hF0, hF8, hch, hbound, hend⟩ := hwf
  have hsum := Chain_end s.mem _ _ _ _ hch
  obtain ⟨hpre, hprev⟩ := (Chain_append s.mem pre _ _ _ _).1 hch
  have hpresum := Chain_sum s.mem _ _ _ _ hpre
  rw [sumSizes_append] at hsum
  simp only [sumSizes] at hsum
  obtain ⟨hp, hp8, hph, hpf, hcur⟩ := hprev
  obtain ⟨hsz, hsz8, hhdr, _, hpost⟩ := hcur
  dsimp only at hp hp8 hph hpf hsz hsz8 hhdr hpost hsum
  obtain ⟨hpa, hfoot⟩ := hpf rfl
  have hpostsum := Chain_sum s.mem _ _ _ _ hpost
  rw [hpa] at hph
  generalize ha : s.first_blk + sumSizes pre = a' at *
  have hhdr' : s.mem (a' + psz) = sz + 1 := by rw [hhdr]; simp [hdr]
  have hfoot' : s.mem (a' + psz - 4) = psz := hfoot
  rcases post with _ | ⟨⟨nsz, nal⟩, post'⟩
  · -- the successor is the end mark
    have hw := hw1 rfl
    subst hw
    simp only [Chain] at hpost
    simp only [sumSizes] at hsum hpostsum
    have hrun := Mem_Free_run_prev s (a' + psz) sz psz 1 (by omega) (by omega) hsz8 hsz hp8 hp
      (by omega) hhdr' hfoot' (by rw [hpost]; exact hend) (by decide) (by omega)
    rw [hrun]
    dsimp only
    refine ⟨rfl, ⟨hF0, hF8, ?_, hbound, ?_⟩, ?_, ?_⟩
    · refine (Chain_append _ pre _ _ _ _).2 ⟨?_, ?_⟩
      · rw [ha]
        refine Chain_frame s.mem _ _ _ _ _ hpre ?_
        intro x hx1 hx2
        show store _ _ _ x = _
        rw [store_ne _ _ _ _ (by omega), store_ne _ _ _ _ (by omega),
          store_ne _ _ _ _ (by omega), store_ne _ _ _ _ (by omega),
          store_ne _ _ _ _ (by omega), store_ne _ _ _ _ (by omega)]
      · rw [ha, hpa]
        have hj : joinNext (psz + sz) ([] : List Blk) = [⟨psz + sz, false⟩] := rfl
        rw [hj]
        refine ⟨by dsimp only; omega, by dsimp only; omega, ?_, ?_, ?_⟩
        · show store _ _ _ a' = _
          rw [store_ne _ _ _ _ (by omega), store_ne _ _ _ _ (by omega),
            store_ne _ _ _ _ (by omega), store_ne _ _ _ _ (by omega),
            store_at _ _ _ _ (by omega)]
          simp [hdr]
        · intro _
          refine ⟨rfl, ?_⟩
          show store _ _ _ (a' + (psz + sz) - 4) = _
          rw [store_ne _ _ _ _ (by omega), store_at _ _ _ _ (by omega)]
        · show a' + (psz + sz) = e
          omega
    · show store _ _ _ e = _
      rw [store_at _ _ _ _ (by omega)]
      rfl
    · show store _ _ _ (a' + psz) % 2 = 0
      rw [store_ne _ _ _ _ (by omega), store_ne _ _ _ _ (by omega),
        store_at _ _ _ _ (by omega)]
      rfl
    · intro x hx
      by_contra hc
      have hhi : (if headAlloc ([] : List Blk) then (0 : Int)
          else headSize ([] : List Blk)) = 0 := rfl
      rw [hhi] at hc
      apply hx
      show store _ _ _ x = _
      repeat rw [store_ne _ _ _ _ (by omega)]
  · cases nal
    · -- the successor is free
      obtain ⟨hn, hn8, hnh, hnf, hpost'⟩ := hpost
      dsimp only at hn hn8 hnh hnf hpost'
      have hpost'sum := Chain_sum s.mem _ _ _ _ hpost'
      simp only [sumSizes] at hsum hpostsum
      have hnh' : s.mem (a' + psz + sz) = nsz + 2 := by rw [hnh]; simp [hdr]
      have hrun := Mem_Free_run_both s (a' + psz) sz psz nsz (by omega) (by omega) hsz8 hsz
        hp8 hp hn8 hn (by omega) hhdr' hfoot' hnh'
      rw [hrun]
      dsimp only
      refine ⟨rfl, ⟨hF0, hF8, ?_, hbound, ?_⟩, ?_, ?_⟩
      · refine (Chain_append _ pre _ _ _ _).2 ⟨?_, ?_⟩
        · rw [ha]
          refine Chain_frame s.mem _ _ _ _ _ hpre ?_
          intro x hx1 hx2
          show store _ _ _ x = _
          rw [store_ne _ _ _ _ (by omega), store_ne _ _ _ _ (by omega),
            store_ne _ _ _ _ (by omega), store_ne _ _ _ _ (by omega),
            store_ne _ _ _ _ (by omega), store_ne _ _ _ _ (by omega)]
        · rw [ha, hpa]
          have hj : joinNext (psz + sz) (⟨nsz, false⟩ :: post')
              = ⟨psz + sz + nsz, false⟩ :: post' := rfl
          rw [hj]
          refine ⟨by dsimp only; omega, by dsimp only; omega, ?_, ?_, ?_⟩
          · show store _ _ _ a' = _
            rw [store_ne _ _ _ _ (by omega), store_ne _ _ _ _ (by omega),
              store_ne _ _ _ _ (by omega), store_ne _ _ _ _ (by omega),
              store_at _ _ _ _ (by omega)]
            simp [hdr]
          · intro _
            refine ⟨rfl, ?_⟩
            show store _ _ _ (a' + (psz + sz + nsz) - 4) = _
            rw [store_at _ _ _ _ (by omega)]
          · show Chain _ (a' + (psz + sz + nsz)) false post' e
            have hadd : a' + (psz + sz + nsz) = a' + psz + sz + nsz := by ring
            rw [hadd]
            refine Chain_frame s.mem _ _ _ _ _ hpost' ?_
            intro x hx1 hx2
            show store _ _ _ x = _
            rw [store_ne _ _ _ _ (by omega), store_ne _ _ _ _ (by omega),
              store_ne _ _ _ _ (by omega), store_ne _ _ _ _ (by omega),
              store_ne _ _ _ _ (by omega), store_ne _ _ _ _ (by omega)]
      · show store _ _ _ e = _
        rw [store_ne _ _ _ _ (by omega), store_ne _ _ _ _ (by omega),
          store_ne _ _ _ _ (by omega), store_ne _ _ _ _ (by omega),
          store_ne _ _ _ _ (by omega), store_ne _ _ _ _ (by omega)]
        rw [if_neg (List.cons_ne_nil _ _)]
        exact hend
      · show store _ _ _ (a' + psz) % 2 = 0
        rw [store_ne _ _ _ _ (by omega), store_ne _ _ _ _ (by omega),
          store_at _ _ _ _ (by omega)]
        rfl
      · intro x hx
        by_contra hc
        have hhi : (if headAlloc ((⟨nsz, false⟩ : Blk) :: post') then (0 : Int)
            else headSize ((⟨nsz, false⟩ : Blk) :: post')) = nsz := rfl
        rw [hhi] at hc
        apply hx
        show store _ _ _ x = _
        repeat rw [store_ne _ _ _ _ (by omega)]
    · -- the successor is allocated
      obtain ⟨hn, hn8, hnh, _, hpost'⟩ := hpost
      dsimp only at hn hn8 hnh hpost'
      have hpost'sum := Chain_sum s.mem _ _ _ _ hpost'
      simp only [sumSizes] at hsum hpostsum
      have hnh' : s.mem (a' + psz + sz) = nsz + 3 := by rw [hnh]; simp [hdr]; ring
      have hw : cmod (cmod (nsz + 3) 8) 2 = 1 := by
        rw [(word_status _ nsz 3 rfl (by omega) (by omega) (by omega) hn8).1]; decide
      have hrun := Mem_Free_run_prev s (a' + psz) sz psz (nsz + 3) (by omega) (by omega) hsz8
        hsz hp8 hp (by omega) hhdr' hfoot' hnh' hw (by omega)
      rw [hrun]
      dsimp only
      refine ⟨rfl, ⟨hF0, hF8, ?_, hbound, ?_⟩, ?_, ?_⟩
      · refine (Chain_append _ pre _ _ _ _).2 ⟨?_, ?_⟩
        · rw [ha]
          refine Chain_frame s.mem _ _ _ _ _ hpre ?_
          intro x hx1 hx2
          show store _ _ _ x = _
          rw [store_ne _ _ _ _ (by omega), store_ne _ _ _ _ (by omega),
            store_ne _ _ _ _ (by omega), store_ne _ _ _ _ (by omega),
            store_ne _ _ _ _ (by omega), store_ne _ _ _ _ (by omega)]
        · rw [ha, hpa]
          have hj : joinNext (psz + sz) (⟨nsz, true⟩ :: post')
              = ⟨psz + sz, false⟩ :: ⟨nsz, true⟩ :: post' := rfl
          rw [hj]
          refine ⟨by dsimp only; omega, by dsimp only; omega, ?_, ?_, hn, hn8, ?_, ?_, ?_⟩
          · show store _ _ _ a' = _
            rw [store_ne _ _ _ _ (by omega), store_ne _ _ _ _ (by omega),
              store_ne _ _ _ _ (by omega), store_ne _ _ _ _ (by omega),
              store_at _ _ _ _ (by omega)]
            simp [hdr]
          · intro _
            refine ⟨rfl, ?_⟩
            show store _ _ _ (a' + (psz + sz) - 4) = _
            rw [store_ne _ _ _ _ (by omega), store_at _ _ _ _ (by omega)]
          · show store _ _ _ (a' + (psz + sz)) = _
            rw [store_at _ _ _ _ (by omega)]
            simp [hdr]; ring
          · intro h; cases h
          · show Chain _ (a' + (psz + sz) + nsz) true post' e
            have hadd : a' + (psz + sz) + nsz = a' + psz + sz + nsz := by ring
            rw [hadd]
            refine Chain_frame s.mem _ _ _ _ _ hpost' ?_
            intro x hx1 hx2
            show store _ _ _ x = _
            rw [store_ne _ _ _ _ (by omega), store_ne _ _ _ _ (by omega),
              store_ne _ _ _ _ (by omega), store_ne _ _ _ _ (by omega),
              store_ne _ _ _ _ (by omega), store_ne _ _ _ _ (by omega)]
      · show store _ _ _ e = _
        rw [store_ne _ _ _ _ (by omega), store_ne _ _ _ _ (by omega),
          store_ne _ _ _ _ (by omega), store_ne _ _ _ _ (by omega),
          store_ne _ _ _ _ (by omega), store_ne _ _ _ _ (by omega)]
        rw [if_neg (List.cons_ne_nil _ _)]
        exact hend
      · show store _ _ _ (a' + psz) % 2 = 0
        rw [store_ne _ _ _ _ (by omega), store_ne _ _ _ _ (by omega),
          store_at _ _ _ _ (by omega)]
        rfl
      · intro x hx
        by_contra hc
        have hhi : (if headAlloc ((⟨nsz, true⟩ : Blk) :: post') then (0 : Int)
            else headSize ((⟨nsz, true⟩ : Blk) :: post')) = 0 := rfl
        rw [hhi] at hc
        apply hx
        show store _ _ _ x = _
        repeat rw [store_ne _ _ _ _ (by omega)]

/-- Freeing an allocated block whose predecessor is a free block of span `psz`. -/
theorem Mem_Free_after_free (s : Heap) (pre post : List Blk) (psz sz e : Int)
    (hwf : WF s (pre ++ ⟨psz, false⟩ :: ⟨sz, true⟩ :: post) e) :
    (Mem_Free s (s.first_blk + sumSizes pre + psz + 4)).2 = 0 ∧
    WFx (Mem_Free s (s.first_blk + sumSizes pre + psz + 4)).1
      (pre ++ joinNext (psz + sz) post) e (endWordAfterFree post) ∧
    (Mem_Free s (s.first_blk + sumSizes pre + psz + 4)).1.mem
      (s.first_blk + sumSizes pre + psz) % 2 = 0 := by
  obtain ⟨h1, h2, h3, _⟩ := Mem_Free_after_free_x s pre post psz sz e 1 hwf (fun _ => rfl)
  cases post <;> exact ⟨h1, h2, h3⟩

/-! ## The coalesced list -/

theorem lastAlloc_false (pre : List Blk) :
    ∀ d, lastAlloc d pre = false →
      (pre = [] ∧ d = false) ∨ ∃ pre' psz, pre = pre' ++ [⟨psz, false⟩] := by
  induction pre with
  | nil => intro d h; left; exact ⟨rfl, h⟩
  | cons b bs ih =>
    intro d h
    right
    rcases ih b.alloc h with ⟨rfl, hb⟩ | ⟨pre', psz, rfl⟩
    · refine ⟨[], b.size, ?_⟩
      cases b; simp at hb; simp [hb]
    · exact ⟨b :: pre', psz, rfl⟩

theorem lastSize_concat (xs : List Blk) (b : Blk) : ∀ d, lastSize d (xs ++ [b]) = b.size := by
  induction xs with
  | nil => intro d; rfl
  | cons c cs ih => intro d; exact ih c.size

theorem coalesce_of_alloc (pre : List Blk) (sz : Int) (post : List Blk)
    (h : lastAlloc true pre = true) : coalesce pre sz post = pre ++ joinNext sz post := by
  simp [coalesce, h]

theorem coalesce_of_free (pre : List Blk) (psz sz : Int) (post : List Blk) :
    coalesce (pre ++ [⟨psz, false⟩]) sz post = pre ++ joinNext (psz + sz) post := by
  have h1 : lastAlloc true (pre ++ [⟨psz, false⟩]) = false := by
    rw [lastAlloc_append]; rfl
  simp [coalesce, h1, lastSize_concat]

/-- A call of `Mem_Free` on the handle of an allocated block of a well-formed heap
returns 0, leaves the chain with the block freed and merged with its free
neighbours, and leaves an even word where the header of the block was. -/
theorem Mem_Free_spec (s : Heap) (pre post : List Blk) (sz e : Int)
    (hwf : WF s (pre ++ ⟨sz, true⟩ :: post) e) :
    (Mem_Free s (s.first_blk + sumSizes pre + 4)).2 = 0 ∧
    WFx (Mem_Free s (s.first_blk + sumSizes pre + 4)).1 (coalesce pre sz post) e
      (endWordAfterFree post) ∧
    (Mem_Free s (s.first_blk + sumSizes pre + 4)).1.mem (s.first_blk + sumSizes pre) % 2 = 0 := by
  by_cases hpa : lastAlloc true pre = true
  · rw [coalesce_of_alloc pre sz post hpa]
    exact Mem_Free_after_alloc s pre post sz e hwf hpa
  · have hpa' : lastAlloc true pre = false := by simpa using hpa
    rcases lastAlloc_false pre true hpa' with ⟨_, h⟩ | ⟨pre', psz, rfl⟩
    · cases h
    · rw [coalesce_of_free]
      have hl : pre' ++ [⟨psz, false⟩] ++ ⟨sz, true⟩ :: post
          = pre' ++ ⟨psz, false⟩ :: ⟨sz, true⟩ :: post := by simp
      rw [hl] at hwf
      have hs : s.first_blk + sumSizes (pre' ++ [⟨psz, false⟩])
          = s.first_blk + sumSizes pre' + psz := by
        rw [sumSizes_append]; simp [sumSizes]; ring
      rw [hs]
      exact Mem_Free_after_free s pre' post psz sz e hwf

/-- The three rejections of `Mem_Free`. -/
theorem Mem_Free_rejects_aux (s : Heap) (p : Int)
    (h : p = 0 ∨ p % 8 ≠ 0 ∨ s.mem (p - 4) % 2 = 0) : Mem_Free s p = (s, -1) := by
  unfold Mem_Free
  dsimp only
  by_cases h0 : p = 0
  · rw [if_pos h0]
  · rw [if_neg h0]
    by_cases h8 : p % 8 = 0
    · have hh : s.mem (p - 4) % 2 = 0 := by
        rcases h with h | h | h
        · exact absurd h h0
        · exact absurd h8 h
        · exact h
      have h1 : ¬ cmod (wrap32 p) 8 ≠ 0 := by
        rw [not_not, cmod8_eq_zero_iff, wrap32_mod8]; exact h8
      rw [if_neg h1, if_pos ((cmod2_eq_zero_iff _).2 hh)]
    · have h1 : cmod (wrap32 p) 8 ≠ 0 := by
        rw [Ne, cmod8_eq_zero_iff, wrap32_mod8]; exact h8
      rw [if_pos h1]

/-- C6. On a well-formed heap, `Mem_Free` on the handle of an allocated block
returns 0, whichever of its neighbours are free, and a second `Mem_Free` on
the same handle right after returns -1 and leaves the state as the first call
left it. -/
theorem Mem_Free_twice (s : Heap) (pre post : List Blk) (sz e : Int)
    (hwf : WF s (pre ++ ⟨sz, true⟩ :: post) e) :
    (Mem_Free s (s.first_blk + sumSizes pre + 4)).2 = 0 ∧
    Mem_Free (Mem_Free s (s.first_blk + sumSizes pre + 4)).1 (s.first_blk + sumSizes pre + 4)
      = ((Mem_Free s (s.first_blk + sumSizes pre + 4)).1, -1) := by
  obtain ⟨h1, _, h3⟩ := Mem_Free_spec s pre post sz e hwf
  refine ⟨h1, Mem_Free_rejects_aux _ _ (Or.inr (Or.inr ?_))⟩
  rw [add_sub_cancel_right]
  exact h3

/-- C5. `Mem_Free(p)` returns -1 and leaves the whole state as it is when `p`
is `NULL`, when `p` is not a multiple of 8, and when bit 0 of the word at
`p - 4` is 0. -/
theorem Mem_Free_rejects (s : Heap) (p : Int)
    (h : p = 0 ∨ p % 8 ≠ 0 ∨ s.mem (p - 4) % 2 = 0) : Mem_Free s p = (s, -1) :=
  Mem_Free_rejects_aux s p h

/-- Runs of `Mem_Free_rejects` on the heap after `Mem_Init(4096)`: the null
pointer, the misaligned pointer 65548, and the pointer 65544 to the payload of
the free first block. -/
theorem Mem_Free_rejects_witness :
    Mem_Free heapInit 0 = (heapInit, -1) ∧ Mem_Free heapInit 65548 = (heapInit, -1) ∧
    Mem_Free heapInit 65544 = (heapInit, -1) :=
  ⟨Mem_Free_rejects heapInit 0 (Or.inl rfl),
   Mem_Free_rejects heapInit 65548 (Or.inr (Or.inl (by decide))),
   Mem_Free_rejects heapInit 65544 (Or.inr (Or.inr (by decide)))⟩

/-! ## Runs on concrete heaps -/

/-- A run of `Mem_Free_twice`: the middle one of three allocated blocks of 16
bytes, whose handle is 65560. -/
theorem Mem_Free_twice_witness :
    (Mem_Free heapA3 (heapA3.first_blk + sumSizes [⟨16, true⟩] + 4)).2 = 0 ∧
    Mem_Free (Mem_Free heapA3 (heapA3.first_blk + sumSizes [⟨16, true⟩] + 4)).1
      (heapA3.first_blk + sumSizes [⟨16, true⟩] + 4)
      = ((Mem_Free heapA3 (heapA3.first_blk + sumSizes [⟨16, true⟩] + 4)).1, -1) :=
  Mem_Free_twice heapA3 [⟨16, true⟩] [⟨16, true⟩, ⟨4040, false⟩] 16 69628 (by decide)

/-- C2, the failing run. The heap after `Mem_Init(4096)` is well formed, and
`Mem_Alloc(2147483647)` on it returns the non-null pointer 65544; the header
it leaves at 65540 is -2147483629, whose span as the source reads it is
negative and so less than `n + 4`, and the `n` bytes after the pointer run
past the end 69632 of the region. -/
theorem Mem_Alloc_overflow_span :
    WF heapInit [⟨4088, false⟩] 69628 ∧
    ∃ s', Mem_Alloc 64 heapInit 2147483647 = some (s', 65544) ∧
      s'.mem 65540 = -2147483629 ∧
      imul (cdiv (s'.mem 65540) 8) 8 = -2147483624 ∧
      imul (cdiv (s'.mem 65540) 8) 8 < 2147483647 + 4 ∧
      (65536 : Int) + 4096 < 65544 + 2147483647 :=
  ⟨by decide, allocState heapInit 2147483647, rfl, by decide, by decide, by decide, by decide⟩

/-- C4, the failing run. On the well-formed heap after `Mem_Init(4096)` no
block is a free block of at least `roundUp8 (2147483647 + 4)` bytes, yet
`Mem_Alloc(2147483647)` returns the non-null pointer 65544 and changes the
header word at 65540. -/
theorem Mem_Alloc_overflow_no_fit :
    WF heapInit [⟨4088, false⟩] 69628 ∧
    (∀ b ∈ [(⟨4088, false⟩ : Blk)], ¬ Fits (roundUp8 (2147483647 + 4)) b) ∧
    ∃ s', Mem_Alloc 64 heapInit 2147483647 = some (s', 65544) ∧
      heapInit.mem 65540 = 4090 ∧ s'.mem 65540 = -2147483629 :=
  ⟨by decide, by decide, allocState heapInit 2147483647, rfl, by decide, by decide⟩

/-- The scan never leaves a word that holds -1. -/
theorem scan_stuck (m : Int → Int) (size ptr : Int) (h : m ptr = -1) :
    ∀ (fuel : Nat) (best md : Int), scan fuel m size ptr best md = none := by
  intro fuel
  induction fuel with
  | zero => intro best md; rfl
  | succ k ih =>
    intro best md
    have h1 : padd ptr (cdiv (imul (cdiv (-1) 8) 8) 4) = ptr := by
      have : cdiv (imul (cdiv (-1) 8) 8) 4 = 0 := by decide
      rw [this]; unfold padd; ring
    unfold scan
    dsimp only
    rw [h, if_pos (by decide), h1]
    split_ifs
    · exact ih _ _
    · exact ih _ _

/-- After `Mem_Init(4096)`, `p = Mem_Alloc(4084)` and `Mem_Free(p)` the scan
of `Mem_Alloc` does not end, whatever the fuel and the size. -/
theorem heapFreed_scan (fuel : Nat) (size best md : Int) :
    scan fuel heapFreed.mem size heapFreed.first_blk best md = none := by
  cases fuel with
  | zero => rfl
  | succ k =>
    have h0 : heapFreed.first_blk = 65540 := by decide
    have h1 : heapFreed.mem 65540 = 4090 := by decide
    have h2 : padd 65540 (cdiv (imul (cdiv 4090 8) 8) 4) = 69628 := by decide
    have h3 : heapFreed.mem 69628 = -1 := by decide
    unfold scan
    dsimp only
    rw [h0, h1, if_pos (by decide), h2]
    split_ifs
    · exact scan_stuck _ _ _ h3 _ _ _
    · exact scan_stuck _ _ _ h3 _ _ _

theorem heapFreed_alloc (fuel : Nat) (n : Int) (hn : 0 < n) :
    Mem_Alloc fuel heapFreed n = none := by
  unfold Mem_Alloc
  rw [if_neg (by omega), heapFreed_scan]

theorem heapFreed_reachable : Reachable heapFreed :=
  Reachable.free heapFull 65544
    (Reachable.alloc heapInit 64 4084 (heapFull, 65544) heapInit_reachable rfl)

/-- C7, the failing run. After `Mem_Init(4096)`, `p = Mem_Alloc(4084)` and
`Mem_Free(p)`, which returns 0, the word at the end mark 69628 is -1, and the
walk from `first_blk` never reaches a word that holds 1: the scan of
`Mem_Alloc` does not end for any fuel, and no `Mem_Alloc(n)` with `n > 0`
returns. -/
theorem end_mark_lost :
    Reachable heapFreed ∧
    Mem_Alloc 64 heapInit 4084 = some (heapFull, 65544) ∧
    (Mem_Free heapFull 65544).2 = 0 ∧
    heapFreed.mem heapFreed.first_blk = 4090 ∧
    heapFreed.mem (heapFreed.first_blk + 4088) = -1 ∧
    (∀ fuel size best md,
      scan fuel heapFreed.mem size heapFreed.first_blk best md = none) ∧
    (∀ fuel n, 0 < n → Mem_Alloc fuel heapFreed n = none) :=
  ⟨heapFreed_reachable, rfl, by decide, by decide, by decide, heapFreed_scan,
    heapFreed_alloc⟩

/-- C8, the failing run. `Mem_Alloc(4084)` right after `Mem_Init(4096)` returns
65544, and `Mem_Free(65544)` right after returns 0, but the word at the end
mark 69628, which was 1 before the allocation, is then -1, and a second
`Mem_Alloc(4084)` does not return for any fuel. -/
theorem round_trip_end_mark :
    Reachable heapInit ∧
    Mem_Alloc 64 heapInit 4084 = some (heapFull, 65544) ∧
    (Mem_Free heapFull 65544).2 = 0 ∧
    heapInit.mem 69628 = 1 ∧
    (Mem_Free heapFull 65544).1.mem 69628 = -1 ∧
    (∀ fuel, Mem_Alloc fuel (Mem_Free heapFull 65544).1 4084 = none) :=
  ⟨heapInit_reachable, rfl, by decide, by decide, by decide,
    fun fuel => heapFreed_alloc fuel 4084 (by decide)⟩

theorem heapOver_reachable : Reachable heapOver :=
  Reachable.alloc heapA2 64 2147483644 (heapOver, 65576)
    (Reachable.alloc heapA1 64 8 (heapA2, 65560)
      (Reachable.alloc heapInit 64 8 (heapA1, 65544) heapInit_reachable rfl) rfl) rfl

/-- C9, the failing run. After `Mem_Init(4096)`, `x = Mem_Alloc(8)`,
`p = Mem_Alloc(8)` and `Mem_Alloc(2147483644)`, all of which return non-null
pointers, `Mem_Free(x)` returns 0 and leaves the block at 65540 free (header
18) before the allocated block at 65556 (header 17) and no two neighbours
free; `Mem_Free(p)` on that allocated block then returns -1 and leaves the
blocks at 65540 (header 18) and at 65556 (header 16), which are neighbours,
both free. -/
theorem adjacent_free_after_overflow :
    Reachable heapOver ∧
    Mem_Alloc 64 heapInit 8 = some (heapA1, 65544) ∧
    Mem_Alloc 64 heapA1 8 = some (heapA2, 65560) ∧
    Mem_Alloc 64 heapA2 2147483644 = some (heapOver, 65576) ∧
    heapOver.mem 65540 = 19 ∧ heapOver.mem 65556 = 19 ∧ heapOver.mem 65572 = -2147483645 ∧
    (Mem_Free heapOver 65544).2 = 0 ∧
    (Mem_Free heapOver 65544).1.mem 65540 = 18 ∧
    (Mem_Free heapOver 65544).1.mem 65556 = 17 ∧
    (Mem_Free (Mem_Free heapOver 65544).1 65560).2 = -1 ∧
    (Mem_Free (Mem_Free heapOver 65544).1 65560).1.mem 65540 = 18 ∧
    (Mem_Free (Mem_Free heapOver 65544).1 65560).1.mem 65556 = 16 :=
  ⟨heapOver_reachable, rfl, rfl, rfl, by decide, by decide, by decide, by decide, by decide,
    by decide, by decide, by decide, by decide⟩

/-! ## Freeing a run of blocks in any order -/

theorem allocHandles_append (xs ys : List Blk) :
    ∀ a, allocHandles a (xs ++ ys)
      = allocHandles a xs ++ allocHandles (a + sumSizes xs) ys := by
  induction xs with
  | nil => intro a; simp [allocHandles, sumSizes]
  | cons b bs ih =>
    intro a
    have h : a + b.size + sumSizes bs = a + (b.size + sumSizes bs) := by ring
    cases hb : b.alloc <;> simp [allocHandles, sumSizes, hb, ih, h]

/-- A handle of the list belongs to an allocated block of the list. -/
theorem mem_allocHandles (mid : List Blk) :
    ∀ (a h : Int), h ∈ allocHandles a mid →
      ∃ m1 sz m2, mid = m1 ++ ⟨sz, true⟩ :: m2 ∧ h = a + sumSizes m1 + 4 := by
  induction mid with
  | nil => intro a h hh; simp [allocHandles] at hh
  | cons b bs ih =>
    intro a h hh
    cases hb : b.alloc
    · simp only [allocHandles, hb] at hh
      obtain ⟨m1, sz, m2, h1, h2⟩ := ih _ _ hh
      refine ⟨b :: m1, sz, m2, by simp [h1], ?_⟩
      rw [h2]; simp [sumSizes]; ring
    · simp only [allocHandles, hb, if_true, List.mem_cons] at hh
      rcases hh with rfl | hh
      · refine ⟨[], b.size, bs, ?_, by simp [sumSizes]⟩
        cases b; simp at hb; simp [hb]
      · obtain ⟨m1, sz, m2, h1, h2⟩ := ih _ _ hh
        refine ⟨b :: m1, sz, m2, by simp [h1], ?_⟩
        rw [h2]; simp [sumSizes]; ring

theorem allocHandles_nil (mid : List Blk) :
    ∀ a, allocHandles a mid = [] → ∀ b ∈ mid, b.alloc = false := by
  induction mid with
  | nil => intro a _ b hb; simp at hb
  | cons c cs ih =>
    intro a h b hb
    cases hc : c.alloc
    · simp only [allocHandles, hc] at h
      rcases List.mem_cons.1 hb with rfl | hb
      · exact hc
      · exact ih _ h b hb
    · simp [allocHandles, hc] at h

theorem joinNext_append (z : Int) (m2 post : List Blk) (hright : headAlloc post = true) :
    joinNext z (m2 ++ post) = joinNext z m2 ++ post := by
  cases m2 with
  | nil =>
    have h1 : joinNext z ([] : List Blk) = [⟨z, false⟩] := rfl
    rw [List.nil_append, h1]
    unfold joinNext
    rw [hright]
    rfl
  | cons c r => cases hc : c.alloc <;> simp [joinNext, headAlloc, hc, headSize]

theorem sumSizes_joinNext (z : Int) (m2 : List Blk) :
    sumSizes (joinNext z m2) = z + sumSizes m2 := by
  cases m2 with
  | nil => simp [joinNext, headAlloc, sumSizes]
  | cons c r =>
    cases hc : c.alloc <;> simp [joinNext, headAlloc, hc, headSize, sumSizes]
    ring

theorem allocHandles_joinNext (z : Int) (m2 : List Blk) (a : Int) :
    allocHandles a (joinNext z m2) = allocHandles (a + z) m2 := by
  cases m2 with
  | nil => simp [joinNext, headAlloc, allocHandles]
  | cons c r =>
    have h : a + (z + c.size) = a + z + c.size := by ring
    cases hc : c.alloc <;> simp [joinNext, headAlloc, hc, headSize, allocHandles, h]

/-- Coalescing inside a run does not reach past an allocated block before the
run or one after it. -/
theorem coalesce_context (pre m1 m2 post : List Blk) (sz : Int)
    (hleft : lastAlloc true pre = true) (hright : headAlloc post = true) :
    coalesce (pre ++ m1) sz (m2 ++ post) = pre ++ coalesce m1 sz m2 ++ post := by
  have hl : lastAlloc true (pre ++ m1) = lastAlloc true m1 := by
    rw [lastAlloc_append, hleft]
  cases h1 : lastAlloc true m1
  · rcases lastAlloc_false m1 true h1 with ⟨_, h⟩ | ⟨m1', psz, rfl⟩
    · cases h
    · rw [← List.append_assoc, coalesce_of_free, coalesce_of_free,
        joinNext_append _ _ _ hright]
      simp
  · rw [coalesce_of_alloc _ _ _ (by rw [hl, h1]), coalesce_of_alloc _ _ _ h1,
      joinNext_append _ _ _ hright]
    simp

theorem sumSizes_coalesce (m1 m2 : List Blk) (sz : Int) :
    sumSizes (coalesce m1 sz m2) = sumSizes m1 + sz + sumSizes m2 := by
  cases h1 : lastAlloc true m1
  · rcases lastAlloc_false m1 true h1 with ⟨_, h⟩ | ⟨m1', psz, rfl⟩
    · cases h
    · rw [coalesce_of_free, sumSizes_append, sumSizes_append, sumSizes_joinNext]
      simp [sumSizes]; ring
  · rw [coalesce_of_alloc _ _ _ h1, sumSizes_append, sumSizes_joinNext]; ring

theorem allocHandles_coalesce (m1 m2 : List Blk) (sz a : Int) :
    allocHandles a (coalesce m1 sz m2)
      = allocHandles a m1 ++ allocHandles (a + sumSizes m1 + sz) m2 := by
  cases h1 : lastAlloc true m1
  · rcases lastAlloc_false m1 true h1 with ⟨_, h⟩ | ⟨m1', psz, rfl⟩
    · cases h
    · rw [coalesce_of_free, allocHandles_append, allocHandles_append, allocHandles_joinNext,
        sumSizes_append]
      have h : a + sumSizes m1' + (psz + sz) = a + (sumSizes m1' + sumSizes [⟨psz, false⟩]) + sz := by
        simp [sumSizes]; ring
      rw [h]
      simp [allocHandles]
  · rw [coalesce_of_alloc _ _ _ h1, allocHandles_append, allocHandles_joinNext]

/-- A chain has no two free blocks in a row. -/
theorem Chain_all_free (m : Int → Int) (mid : List Blk) (a : Int) (pa : Bool) (e : Int)
    (h : Chain m a pa mid e) (hfree : ∀ b ∈ mid, b.alloc = false) : mid.length ≤ 1 := by
  rcases mid with _ | ⟨b, _ | ⟨c, rest⟩⟩
  · simp
  · simp
  · exfalso
    obtain ⟨_, _, _, _, _, _, _, hc, _⟩ := h
    have hb := hfree b (by simp)
    have hc' := hfree c (by simp)
    rw [hb] at hc
    exact Bool.noConfusion (hc hc').1

/-- Freeing, in any order, the allocated blocks of a part `mid` of the chain
that lies between allocated blocks: every call returns 0 and the part ends up
with free blocks only and the same total span. -/
theorem freeAll_run (pre post : List Blk) (e : Int) (hleft : lastAlloc true pre = true)
    (hpost : post ≠ []) (hright : headAlloc post = true) :
    ∀ (order : List Int) (s : Heap) (mid : List Blk),
      WF s (pre ++ mid ++ post) e →
      order.Perm (allocHandles (s.first_blk + sumSizes pre) mid) →
      (freeAll s order).2 = List.replicate order.length 0 ∧
      ∃ mid', WF (freeAll s order).1 (pre ++ mid' ++ post) e ∧
        (∀ b ∈ mid', b.alloc = false) ∧ sumSizes mid' = sumSizes mid := by
  intro order
  induction order with
  | nil =>
    intro s mid hwf hperm
    have hnil := List.Perm.nil_eq hperm
    exact ⟨rfl, mid, hwf, allocHandles_nil mid _ hnil.symm, rfl⟩
  | cons h rest ih =>
    intro s mid hwf hperm
    have hmem : h ∈ allocHandles (s.first_blk + sumSizes pre) mid :=
      hperm.subset (List.mem_cons_self _ _)
    obtain ⟨m1, sz, m2, rfl, hh⟩ := mem_allocHandles mid _ _ hmem
    have hlist : pre ++ (m1 ++ ⟨sz, true⟩ :: m2) ++ post
        = (pre ++ m1) ++ ⟨sz, true⟩ :: (m2 ++ post) := by simp
    rw [hlist] at hwf
    have haddr : s.first_blk + sumSizes (pre ++ m1) + 4 = h := by
      rw [hh, sumSizes_append]; ring
    obtain ⟨hret, hwf', _⟩ := Mem_Free_spec s (pre ++ m1) (m2 ++ post) sz e hwf
    rw [haddr] at hret hwf'
    have hend : endWordAfterFree (m2 ++ post) = 1 := by
      cases m2 with
      | nil =>
        cases post with
        | nil => exact absurd rfl hpost
        | cons _ _ => rfl
      | cons _ _ => rfl
    rw [hend, coalesce_context pre m1 m2 post sz hleft hright] at hwf'
    have hfb := Mem_Free_first_blk s h
    have hperm' : rest.Perm
        (allocHandles ((Mem_Free s h).1.first_blk + sumSizes pre) (coalesce m1 sz m2)) := by
      rw [hfb, allocHandles_coalesce]
      rw [allocHandles_append] at hperm
      have hx : allocHandles (s.first_blk + sumSizes pre + sumSizes m1) (⟨sz, true⟩ :: m2)
          = h :: allocHandles (s.first_blk + sumSizes pre + sumSizes m1 + sz) m2 := by
        simp [allocHandles, hh]
      rw [hx] at hperm
      exact (hperm.trans List.perm_middle).cons_inv
    obtain ⟨hr, mid', hw, hf, hs⟩ := ih (Mem_Free s h).1 (coalesce m1 sz m2) hwf' hperm'
    refine ⟨?_, mid', hw, hf, ?_⟩
    · show (Mem_Free s h).2 :: (freeAll (Mem_Free s h).1 rest).2 = _
      rw [hret, hr]; rfl
    · rw [hs, sumSizes_coalesce, sumSizes_append]; simp [sumSizes]; ring

theorem allocHandles_length (run : List Blk) (hrun : ∀ b ∈ run, b.alloc = true) :
    ∀ a, (allocHandles a run).length = run.length := by
  induction run with
  | nil => intro a; rfl
  | cons b bs ih =>
    intro a
    have hb := hrun b (by simp)
    simp [allocHandles, hb, ih (fun x hx => hrun x (by simp [hx]))]

/-- C10, amended. In a well-formed heap take a run of `k ≥ 1` consecutive
allocated blocks that comes after an allocated block (or starts the chain) and
is followed by an allocated block. Calling `Mem_Free` on the `k` handles in any
order returns 0 every time and leaves a well-formed heap in which the run is
one free block, at the address of its first block and of the total span of the
run; a following `Mem_Alloc(n)` with `n > 0` and the least multiple of 8 at
least `n + 4` no larger than that span returns a non-null pointer. -/
theorem Mem_Free_run_any_order (s : Heap) (pre run post : List Blk) (e : Int)
    (order : List Int)
    (hwf : WF s (pre ++ run ++ post) e)
    (hrun : ∀ b ∈ run, b.alloc = true) (hk : run ≠ [])
    (hleft : lastAlloc true pre = true)
    (hpost : post ≠ []) (hright : headAlloc post = true)
    (hord : order.Perm (allocHandles (s.first_blk + sumSizes pre) run)) :
    order.length = run.length ∧
    (freeAll s order).2 = List.replicate order.length 0 ∧
    WF (freeAll s order).1 (pre ++ ⟨sumSizes run, false⟩ :: post) e ∧
    ∀ (n : Int) (fuel : Nat), 0 < n → roundUp8 (n + 4) ≤ sumSizes run →
      pre.length + 1 + post.length < fuel →
      ∃ s' p, Mem_Alloc fuel (freeAll s order).1 n = some (s', p) ∧ p ≠ 0 := by
  have hlen : order.length = run.length := by
    rw [hord.length_eq, allocHandles_length run hrun]
  obtain ⟨hret, mid', hwf', hfree, hsum⟩ :=
    freeAll_run pre post e hleft hpost hright order s run hwf hord
  -- the run has a positive span
  have hrunpos : 0 < sumSizes run := by
    obtain ⟨_, _, hch, _, _⟩ := hwf
    have h1 := ((Chain_append s.mem (pre ++ run) post _ _ _).1 hch).1
    have h2 := ((Chain_append s.mem pre run _ _ _).1 h1).2
    have h3 := (Chain_sum s.mem _ _ _ _ h2).1
    have h4 : 0 < run.length := List.length_pos.2 hk
    omega
  -- the freed part is a single block
  have hmid : mid' = [⟨sumSizes run, false⟩] := by
    obtain ⟨_, _, hch, _, _⟩ := hwf'
    have h1 := ((Chain_append _ (pre ++ mid') post _ _ _).1 hch).1
    have h2 := ((Chain_append _ pre mid' _ _ _).1 h1).2
    have h3 := Chain_all_free _ _ _ _ _ h2 hfree
    rcases mid' with _ | ⟨b, _ | ⟨c, rest⟩⟩
    · simp [sumSizes] at hsum; omega
    · have hb := hfree b (by simp)
      simp only [sumSizes, add_zero] at hsum
      cases b
      simp at hb hsum
      simp [hb, hsum]
    · simp at h3
  rw [hmid] at hwf'
  have hl : pre ++ [(⟨sumSizes run, false⟩ : Blk)] ++ post
      = pre ++ ⟨sumSizes run, false⟩ :: post := by simp
  rw [hl] at hwf'
  refine ⟨hlen, hret, hwf', ?_⟩
  intro n fuel hn hfit hfuel
  refine Mem_Alloc_succeeds _ _ e n hwf' hn ⟨⟨sumSizes run, false⟩, by simp, rfl, hfit⟩
    fuel ?_
  simp only [List.length_append, List.length_cons]
  omega

/-- A run of `Mem_Free_run_any_order`, the scenario of the test `coalesce4.c`:
of the eight allocated blocks of 504 bytes, the blocks 1 to 5 are freed in the
order 1, 5, 2, 4, 3. -/
theorem Mem_Free_run_any_order_witness :
    [(66048 : Int), 68064, 66552, 67560, 67056].length
      = [(⟨504, true⟩ : Blk), ⟨504, true⟩, ⟨504, true⟩, ⟨504, true⟩, ⟨504, true⟩].length ∧
    (freeAll heapTest [66048, 68064, 66552, 67560, 67056]).2
      = List.replicate [(66048 : Int), 68064, 66552, 67560, 67056].length 0 ∧
    WF (freeAll heapTest [66048, 68064, 66552, 67560, 67056]).1
      ([⟨504, true⟩] ++ ⟨sumSizes [⟨504, true⟩, ⟨504, true⟩, ⟨504, true⟩, ⟨504, true⟩,
        ⟨504, true⟩], false⟩ :: [⟨504, true⟩, ⟨504, true⟩, ⟨56, false⟩]) 69628 ∧
    ∀ (n : Int) (fuel : Nat), 0 < n →
      roundUp8 (n + 4) ≤ sumSizes [⟨504, true⟩, ⟨504, true⟩, ⟨504, true⟩, ⟨504, true⟩,
        ⟨504, true⟩] →
      [(⟨504, true⟩ : Blk)].length + 1
        + [(⟨504, true⟩ : Blk), ⟨504, true⟩, ⟨56, false⟩].length < fuel →
      ∃ s' p, Mem_Alloc fuel (freeAll heapTest [66048, 68064, 66552, 67560, 67056]).1 n
        = some (s', p) ∧ p ≠ 0 :=
  Mem_Free_run_any_order heapTest [⟨504, true⟩]
    [⟨504, true⟩, ⟨504, true⟩, ⟨504, true⟩, ⟨504, true⟩, ⟨504, true⟩]
    [⟨504, true⟩, ⟨504, true⟩, ⟨56, false⟩] 69628 [66048, 68064, 66552, 67560, 67056]
    (by decide) (by decide) (by decide) (by decide) (by decide) (by decide) (by decide)

/-- C10 as stated fails for a request that is not positive. In the well-formed
heap after `Mem_Init(4096)` and three `Mem_Alloc(8)` the middle block of 16
bytes lies between allocated blocks; `Mem_Free` on its handle 65560 returns 0
and leaves it as one free block of 16 bytes; the `needed` of 8 bytes for
`n = 0` is no larger than 16, yet `Mem_Alloc(0)` returns `NULL`. -/
theorem Mem_Alloc_zero_after_free :
    WF heapA3 ([⟨16, true⟩] ++ [⟨16, true⟩] ++ [⟨16, true⟩, ⟨4040, false⟩]) 69628 ∧
    (freeAll heapA3 [65560]).2 = [0] ∧
    WF (freeAll heapA3 [65560]).1 [⟨16, true⟩, ⟨16, false⟩, ⟨16, true⟩, ⟨4040, false⟩] 69628 ∧
    roundUp8 (0 + 4) ≤ 16 ∧
    ∀ fuel, Mem_Alloc fuel (freeAll heapA3 [65560]).1 0 = some ((freeAll heapA3 [65560]).1, 0) :=
  ⟨by decide, by decide, by decide, by decide, fun _ => rfl⟩

/-! ## `Mem_Alloc` on a well-formed heap -/

/-- The writes of `Mem_Alloc` when the chosen free block of span `c` is split:
the header for `needed` bytes, the header of the free remainder, and its
footer in the last word of the old block. -/
theorem place_run_split (s : Heap) (best needed c : Int)
    (hb : best ≠ 0) (hcur : s.mem best = c + 2)
    (hn : 8 ≤ needed) (hn8 : needed % 8 = 0) (hc8 : c % 8 = 0)
    (hsplit : 8 ≤ c - needed) (hmax : c ≤ 2147483640) :
    place s needed best (c - needed) =
      ({ s with
          mem := store (store (store s.mem best (needed + 3)) (best + needed) (c - needed + 2))
                  (best + c - 4) (c - needed) }, best + 4) := by
  have c1 : imul (cdiv (c + 2) 8) 8 = c :=
    word_size _ c 2 rfl (by omega) (by omega) (by omega) hc8 hmax
  have c2 : cmod (c + 2) 4 = 2 :=
    (word_status _ c 2 rfl (by omega) (by omega) (by omega) hc8).2.1
  have c3 : padd best (cdiv c 4) = best + c := by unfold padd; rw [four_mul_cdiv4 _ hc8]
  have c4 : iadd (iadd needed 1) (imul (cdiv 2 2) 2) = needed + 3 := by
    have : cdiv 2 2 = 1 := by decide
    rw [this]
    unfold iadd imul
    rw [wrap32_id (1 * 2) (by omega) (by omega), wrap32_id (needed + 1) (by omega) (by omega),
      wrap32_id _ (by omega) (by omega)]
    ring
  have c5 : padd best (cdiv needed 4) = best + needed := by
    unfold padd; rw [four_mul_cdiv4 _ hn8]
  have c6 : iadd (c - needed) 2 = c - needed + 2 := by
    unfold iadd; exact wrap32_id _ (by omega) (by omega)
  have c7 : padd (best + c) (-1) = best + c - 4 := by unfold padd; ring
  have c8 : padd best 1 = best + 4 := by unfold padd; ring
  have c9 : c - needed ≥ 8 := hsplit
  unfold place
  simp only [hb, hcur, c1, c2, c3, c4, c5, c6, c7, c8, c9, if_false, if_true]

/-- The writes of `Mem_Alloc` when the chosen free block of span `c` is taken
whole: its header, and 2 added to the successor word `w` unless that is the
end mark. -/
theorem place_run_whole (s : Heap) (best c w : Int)
    (hb : best ≠ 0) (hcur : s.mem best = c + 2) (hnext : s.mem (best + c) = w)
    (hc : 8 ≤ c) (hc8 : c % 8 = 0) (hmax : c ≤ 2147483640)
    (hwr : -2147483648 ≤ w ∧ w ≤ 2147483645) :
    place s c best (c - c) =
      ({ s with
          mem := if w ≠ 1 then store (store s.mem best (c + 3)) (best + c) (w + 2)
                 else store s.mem best (c + 3) }, best + 4) := by
  have c1 : imul (cdiv (c + 2) 8) 8 = c :=
    word_size _ c 2 rfl (by omega) (by omega) (by omega) hc8 hmax
  have c2 : cmod (c + 2) 4 = 2 :=
    (word_status _ c 2 rfl (by omega) (by omega) (by omega) hc8).2.1
  have c3 : padd best (cdiv c 4) = best + c := by unfold padd; rw [four_mul_cdiv4 _ hc8]
  have c4 : iadd (iadd c 1) (imul (cdiv 2 2) 2) = c + 3 := by
    have : cdiv 2 2 = 1 := by decide
    rw [this]
    unfold iadd imul
    rw [wrap32_id (1 * 2) (by omega) (by omega), wrap32_id (c + 1) (by omega) (by omega),
      wrap32_id _ (by omega) (by omega)]
    ring
  have c6 : iadd w 2 = w + 2 := by
    unfold iadd; exact wrap32_id _ (by omega) (by omega)
  have c8 : padd best 1 = best + 4 := by unfold padd; ring
  have c9 : ¬ (c - c ≥ 8) := by omega
  have d1 : best + c ≠ best := by omega
  unfold place
  simp only [hb, hcur, c1, c2, c3, c4, c6, c8, c9, store_ne _ _ _ _ d1, hnext, if_false,
    if_true]
  split_ifs <;> rfl

/-- The writes of `Mem_Alloc` on a free block of a well-formed heap leave a
well-formed heap in which the block is split or taken whole. -/
theorem place_spec (s : Heap) (pre post : List Blk) (c needed e : Int)
    (hwf : WF s (pre ++ ⟨c, false⟩ :: post) e)
    (hn : 8 ≤ needed) (hn8 : needed % 8 = 0) (hnc : needed ≤ c) :
    (place s needed (s.first_blk + sumSizes pre) (c - needed)).2
      = s.first_blk + sumSizes pre + 4 ∧
    WF (place s needed (s.first_blk + sumSizes pre) (c - needed)).1
      (pre ++ splitBlock needed c ++ post) e := by
  obtain ⟨hF0, hF8, hch, hbound, hend⟩ := hwf
  have hsum := Chain_end s.mem _ _ _ _ hch
  obtain ⟨hpre, hcur⟩ := (Chain_append s.mem pre _ _ _ _).1 hch
  have hpresum := Chain_sum s.mem _ _ _ _ hpre
  rw [sumSizes_append] at hsum
  simp only [sumSizes] at hsum
  obtain ⟨hc, hc8, hhdr, hcf, hpost⟩ := hcur
  dsimp only at hc hc8 hhdr hcf hpost hsum
  obtain ⟨hpa, hfoot⟩ := hcf rfl
  have hpostsum := Chain_sum s.mem _ _ _ _ hpost
  rw [hpa] at hhdr
  have hhdr' : s.mem (s.first_blk + sumSizes pre) = c + 2 := by rw [hhdr]; simp [hdr]
  generalize ha : s.first_blk + sumSizes pre = a at *
  have hbest : a ≠ 0 := by omega
  have hlist : ∀ l : List Blk, pre ++ l ++ post = pre ++ (l ++ post) := by intro l; simp
  by_cases hsplit : 8 ≤ c - needed
  · -- the block is split
    have hsb : splitBlock needed c = [⟨needed, true⟩, ⟨c - needed, false⟩] := by
      simp [splitBlock, hsplit]
    rw [place_run_split s a needed c hbest hhdr' hn hn8 hc8 hsplit (by omega), hsb, hlist]
    dsimp only
    refine ⟨rfl, hF0, hF8, ?_, hbound, ?_⟩
    · refine (Chain_append _ pre _ _ _ _).2 ⟨?_, ?_⟩
      · rw [ha]
        refine Chain_frame s.mem _ _ _ _ _ hpre ?_
        intro x hx1 hx2
        show store _ _ _ x = _
        rw [store_ne _ _ _ _ (by omega), store_ne _ _ _ _ (by omega),
          store_ne _ _ _ _ (by omega)]
      · rw [ha, hpa]
        show Chain _ a true (⟨needed, true⟩ :: ⟨c - needed, false⟩ :: post) e
        refine ⟨hn, hn8, ?_, ?_, by dsimp only; omega, by dsimp only; omega, ?_, ?_, ?_⟩
        · show store _ _ _ a = _
          rw [store_ne _ _ _ _ (by omega), store_ne _ _ _ _ (by omega), store_eq]
          simp [hdr]; ring
        · intro h; cases h
        · show store _ _ _ (a + needed) = _
          rw [store_ne _ _ _ _ (by omega), store_eq]
          simp [hdr]
        · intro _
          refine ⟨rfl, ?_⟩
          show store _ _ _ (a + needed + (c - needed) - 4) = _
          rw [store_at _ _ _ _ (by omega)]
        · show Chain _ (a + needed + (c - needed)) false post e
          have hadd : a + needed + (c - needed) = a + c := by ring
          rw [hadd]
          refine Chain_frame s.mem _ _ _ _ _ hpost ?_
          intro x hx1 hx2
          show store _ _ _ x = _
          rw [store_ne _ _ _ _ (by omega), store_ne _ _ _ _ (by omega),
            store_ne _ _ _ _ (by omega)]
    · show store _ _ _ e = _
      rw [store_ne _ _ _ _ (by omega), store_ne _ _ _ _ (by omega),
        store_ne _ _ _ _ (by omega)]
      exact hend
  · -- the block is taken whole
    have hcn : needed = c := by omega
    subst hcn
    have hsb : splitBlock needed needed = [⟨needed, true⟩] := by
      simp [splitBlock]
    rw [hsb, hlist]
    rcases post with _ | ⟨⟨nsz, nal⟩, post'⟩
    · -- the successor is the end mark
      simp only [Chain] at hpost
      simp only [sumSizes] at hsum hpostsum
      rw [place_run_whole s a needed 1 hbest hhdr' (by rw [hpost]; exact hend) hc hc8
        (by omega) (by omega)]
      dsimp only
      rw [if_neg (by decide)]
      refine ⟨rfl, hF0, hF8, ?_, hbound, ?_⟩
      · refine (Chain_append _ pre _ _ _ _).2 ⟨?_, ?_⟩
        · rw [ha]
          refine Chain_frame s.mem _ _ _ _ _ hpre ?_
          intro x hx1 hx2
          show store _ _ _ x = _
          rw [store_ne _ _ _ _ (by omega)]
        · rw [ha, hpa]
          show Chain _ a true [⟨needed, true⟩] e
          refine ⟨hc, hc8, ?_, ?_, hpost⟩
          · show store _ _ _ a = _
            rw [store_eq]
            simp [hdr]; ring
          · intro h; cases h
      · show store _ _ _ e = _
        rw [store_ne _ _ _ _ (by omega)]
        exact hend
    · obtain ⟨hnz, hnz8, hnh, hnf, hpost'⟩ := hpost
      dsimp only at hnz hnz8 hnh hnf hpost'
      have hpost'sum := Chain_sum s.mem _ _ _ _ hpost'
      simp only [sumSizes] at hsum hpostsum
      cases nal
      · exact absurd (hnf rfl).1 (by decide)
      · have hnh' : s.mem (a + needed) = nsz + 1 := by rw [hnh]; simp [hdr]
        rw [place_run_whole s a needed (nsz + 1) hbest hhdr' hnh' hc hc8 (by omega) (by omega)]
        dsimp only
        rw [if_pos (by omega)]
        refine ⟨rfl, hF0, hF8, ?_, hbound, ?_⟩
        · refine (Chain_append _ pre _ _ _ _).2 ⟨?_, ?_⟩
          · rw [ha]
            refine Chain_frame s.mem _ _ _ _ _ hpre ?_
            intro x hx1 hx2
            show store _ _ _ x = _
            rw [store_ne _ _ _ _ (by omega), store_ne _ _ _ _ (by omega)]
          · rw [ha, hpa]
            show Chain _ a true (⟨needed, true⟩ :: ⟨nsz, true⟩ :: post') e
            refine ⟨hc, hc8, ?_, ?_, hnz, hnz8, ?_, ?_, ?_⟩
            · show store _ _ _ a = _
              rw [store_ne _ _ _ _ (by omega), store_eq]
              simp [hdr]; ring
            · intro h; cases h
            · show store _ _ _ (a + needed) = _
              rw [store_eq]
              simp [hdr]; ring
            · intro h; cases h
            · refine Chain_frame s.mem _ _ _ _ _ hpost' ?_
              intro x hx1 hx2
              show store _ _ _ x = _
              dsimp only at hx1
              rw [store_ne _ _ _ _ (by omega), store_ne _ _ _ _ (by omega)]
        · show store _ _ _ e = _
          rw [store_ne _ _ _ _ (by omega), store_ne _ _ _ _ (by omega)]
          exact hend

/-- A `Mem_Alloc(n)` with `n > 0` on a well-formed heap that has a large-enough
free block returns within one loop step per block and leaves a well-formed
heap: the best-fit block `c` is split, or taken whole. -/
theorem Mem_Alloc_spec (s : Heap) (bs : List Blk) (e n : Int)
    (hwf : WF s bs e) (hn : 0 < n)
    (hex : ∃ b ∈ bs, Fits (roundUp8 (n + 4)) b) :
    ∃ pre c post, bs = pre ++ c :: post ∧ Fits (roundUp8 (n + 4)) c ∧
      ∀ fuel, bs.length < fuel →
        ∃ s', Mem_Alloc fuel s n = some (s', s.first_blk + sumSizes pre + 4) ∧
          WF s' (pre ++ splitBlock (roundUp8 (n + 4)) c.size ++ post) e := by
  obtain ⟨pre, c, post, h1, h2, _, _, _, h6⟩ := Mem_Alloc_choice s bs e n hwf hn hex
  refine ⟨pre, c, post, h1, h2, ?_⟩
  intro fuel hfuel
  obtain ⟨s', h7, _, h9⟩ := h6 fuel hfuel
  refine ⟨s', h7, ?_⟩
  rw [h9]
  have hc : c = ⟨c.size, false⟩ := by
    cases c; simp at h2 ⊢; exact h2.1
  rw [h1, hc] at hwf
  exact (place_spec s pre post c.size (roundUp8 (n + 4)) e hwf (by unfold roundUp8; omega)
    (by unfold roundUp8; omega) h2.2).2

/-- A call `Mem_Alloc(n)` with `n ≤ 0` returns `NULL` and leaves the state as
it is. -/
theorem Mem_Alloc_nonpositive (fuel : Nat) (s : Heap) (n : Int) (hn : n ≤ 0) :
    Mem_Alloc fuel s n = some (s, 0) := by
  unfold Mem_Alloc
  rw [if_pos hn]

/-- A call `Mem_Alloc(n)` whose rounding does not overflow returns `NULL` and
leaves the state as it is when no free block of a well-formed heap is large
enough. -/
theorem Mem_Alloc_no_fit (s : Heap) (bs : List Blk) (e n : Int)
    (hwf : WF s bs e) (hn : 0 < n) (hmax : n ≤ 2147483636)
    (hno : ∀ b ∈ bs, ¬ Fits (roundUp8 (n + 4)) b) (fuel : Nat) (hfuel : bs.length < fuel) :
    Mem_Alloc fuel s n = some (s, 0) := by
  obtain ⟨hF0, hF8, hch, hbound, hend⟩ := hwf
  have hsum := Chain_end s.mem _ _ _ _ hch
  have hround := roundedSize_eq n hn hmax
  have hlo : 0 ≤ roundUp8 (n + 4) ∧ roundUp8 (n + 4) ≤ 2147483647 := by
    unfold roundUp8; omega
  have hscan := scan_chain s.mem (roundUp8 (n + 4)) hlo.1 hlo.2 bs s.first_blk true e 0
    INT_MAX fuel hch hend (by omega) hfuel
  rcases pick_spec (roundUp8 (n + 4)) bs s.first_blk 0 INT_MAX with
    ⟨h1, _⟩ | ⟨pre, c, post, h1, h2, _⟩
  · unfold Mem_Alloc
    rw [if_neg (by omega), hround, hscan, h1]
    simp [place]
  · exact absurd h2 (hno c (by rw [h1]; simp))

/-! ## `Mem_Init` -/

/-- The padded size that `Mem_Init` computes: the request plus the padding is
the request rounded up to a whole number of pages. -/
theorem padded_size (sz P : Int) (hsz : 0 < sz) (hP : 0 < P) :
    sz + (P - sz % P) % P = roundUpTo sz P ∧ (roundUpTo sz P) % P = 0 ∧
    sz ≤ roundUpTo sz P ∧ P ≤ roundUpTo sz P ∧ roundUpTo sz P < sz + P := by
  have hr0 := Int.emod_nonneg sz (ne_of_gt hP)
  have hr1 := Int.emod_lt_of_pos sz hP
  have hq := Int.ediv_add_emod sz P
  have hq0 : 0 ≤ sz / P := Int.ediv_nonneg (le_of_lt hsz) (le_of_lt hP)
  unfold roundUpTo
  by_cases hr : sz % P = 0
  · have h1 : (P - sz % P) % P = 0 := by rw [hr]; simp
    have h2 : (sz + P - 1) / P = sz / P := by
      have : sz + P - 1 = (P - 1) + P * (sz / P) := by rw [hr] at hq; omega
      rw [this, Int.add_mul_ediv_left _ _ (ne_of_gt hP),
        Int.ediv_eq_zero_of_lt (by omega) (by omega)]
      ring
    rw [h1, h2]
    have h3 : sz / P * P = sz := by rw [hr] at hq; rw [mul_comm]; omega
    have h4 : 1 ≤ sz / P := by
      by_contra hlt
      have : sz / P = 0 := by omega
      rw [this] at h3; omega
    refine ⟨by omega, by rw [h3]; exact hr, by omega, ?_, by omega⟩
    rw [h3]
    by_contra hlt
    have := Int.emod_eq_of_lt (le_of_lt hsz) (by omega : sz < P)
    omega
  · have h1 : (P - sz % P) % P = P - sz % P :=
      Int.emod_eq_of_lt (by omega) (by omega)
    have h2 : (sz + P - 1) / P = sz / P + 1 := by
      have : sz + P - 1 = (sz % P - 1) + P * (sz / P + 1) := by
        have : P * (sz / P + 1) = P * (sz / P) + P := by ring
        omega
      rw [this, Int.add_mul_ediv_left _ _ (ne_of_gt hP),
        Int.ediv_eq_zero_of_lt (by omega) (by omega)]
      ring
    rw [h1, h2]
    have h3 : (sz / P + 1) * P = P * (sz / P) + P := by ring
    rw [h3]
    refine ⟨by omega, ?_, by omega, ?_, by omega⟩
    · rw [add_comm, Int.add_mul_emod_self_left]; simp
    · have : 0 ≤ P * (sz / P) := Int.mul_nonneg (le_of_lt hP) hq0
      omega

/-- The value that `Mem_Init` returns is 0 or -1, and a call that does not
return 0 leaves the whole state as it was. -/
theorem Mem_Init_fail (s : Heap) (sz P fd sp : Int) :
    (Mem_Init s sz P fd sp).2 = 0 ∨
    ((Mem_Init s sz P fd sp).2 = -1 ∧ (Mem_Init s sz P fd sp).1 = s) := by
  unfold Mem_Init
  dsimp only
  split_ifs with h1 h2 h3 h4
  · exact Or.inr ⟨rfl, rfl⟩
  · exact Or.inr ⟨rfl, rfl⟩
  · exact Or.inr ⟨rfl, rfl⟩
  · refine Or.inr ⟨rfl, ?_⟩
    have : s.allocated_once = 0 := by
      by_contra h; exact h1 (fun h' => h h'.symm)
    cases s
    simp only at this
    simp [this]
  · exact Or.inl rfl

/-- A call of `Mem_Init` that returns 0 was made with `allocated_once` equal
to 0, a positive size, and results of `open` and `mmap` that are not the
failure values. -/
theorem Mem_Init_ok (s : Heap) (sz P fd sp : Int) (h : (Mem_Init s sz P fd sp).2 = 0) :
    s.allocated_once = 0 ∧ 0 < sz ∧ fd ≠ -1 ∧ sp ≠ MAP_FAILED := by
  unfold Mem_Init at h
  dsimp only at h
  split_ifs at h with h1 h2 h3 h4
  · simp at h
  · simp at h
  · simp at h
  · simp at h
  · refine ⟨?_, by omega, fun hf => h3 hf.symm, fun hs => h4 hs.symm⟩
    by_contra hne
    exact h1 (fun h' => hne h'.symm)

/-- The state after a call of `Mem_Init` that returns 0, when the padded size
`T` is at least 8 and at most 2147483648. -/
theorem Mem_Init_run (s : Heap) (sz P fd sp T : Int)
    (h : (Mem_Init s sz P fd sp).2 = 0)
    (hszmax : sz ≤ 2147483647) (hP : 0 < P) (hPmax : P ≤ 2147483647)
    (hT : T = roundUpTo sz P) (hT8 : 8 ≤ T) (hTmax : T ≤ 2147483648) :
    Mem_Init s sz P fd sp =
      ({ first_blk := sp + 4, allocated_once := 1,
          mem := store (store (store (store (mmapZero s.mem sp (wrap32 T)) (sp + 4) (T - 8))
                  (sp + 4) (T - 6)) (sp + 4 + (T - 8)) 1) (sp + 4 + (T - 8) - 4) (T - 8) },
        0) := by
  obtain ⟨h0, hsz, hfd, hsp⟩ := Mem_Init_ok s sz P fd sp h
  obtain ⟨hpad, _, _, _, hlt⟩ := padded_size sz P hsz hP
  have c1 : cmod sz P = sz % P := cmod_nonneg _ _ (by omega) (by omega)
  have hr0 := Int.emod_nonneg sz (ne_of_gt hP)
  have hr1 := Int.emod_lt_of_pos sz hP
  have c2 : isub P (sz % P) = P - sz % P := by
    unfold isub; exact wrap32_id _ (by omega) (by omega)
  have c3 : cmod (P - sz % P) P = (P - sz % P) % P := cmod_nonneg _ _ (by omega) (by omega)
  have c4 : iadd sz ((P - sz % P) % P) = wrap32 T := by
    unfold iadd; rw [hpad, hT]
  have c5 : isub (wrap32 T) 8 = T - 8 := by
    unfold isub wrap32; omega
  have c6 : padd sp 1 = sp + 4 := by unfold padd; ring
  have c7 : iadd (T - 8) 2 = T - 6 := by
    unfold iadd; rw [wrap32_id _ (by omega) (by omega)]; ring
  have c8 : ¬ (0 ≠ s.allocated_once) := by rw [h0]; simp
  have c9 : ¬ (sz ≤ 0) := by omega
  have c10 : ¬ (-1 = fd) := fun hh => hfd hh.symm
  have c11 : ¬ (MAP_FAILED = sp) := fun hh => hsp hh.symm
  unfold Mem_Init
  simp only [c1, c2, c3, c4, c5, c6, c7, c8, c9, c10, c11, store_eq, if_false]

/-- C11. After a call of `Mem_Init` that returns 0, for a size `sz` that is an
`int` and a page size `P` that is a power of two (a divisor of 2147483648)
and at least 16, with `T` the size rounded up to a multiple of `P`:
`first_blk` is 4 bytes into the region, the first header holds `(T - 8) + 2`,
the last word of that block holds the footer `T - 8`, and the word after the
block, which is the last word of the region, holds the end mark 1. -/
theorem Mem_Init_post (s : Heap) (sz P fd sp : Int)
    (hret : (Mem_Init s sz P fd sp).2 = 0)
    (hszmax : sz ≤ INT_MAX) (hP : 16 ≤ P) (hPmax : P ≤ INT_MAX) (hPdvd : P ∣ 2147483648) :
    (Mem_Init s sz P fd sp).1.first_blk = sp + 4 ∧
    (Mem_Init s sz P fd sp).1.mem (sp + 4) = (roundUpTo sz P - 8) + 2 ∧
    (Mem_Init s sz P fd sp).1.mem (sp + 4 + (roundUpTo sz P - 8) - 4) = roundUpTo sz P - 8 ∧
    (Mem_Init s sz P fd sp).1.mem (sp + 4 + (roundUpTo sz P - 8)) = 1 ∧
    sp + 4 + (roundUpTo sz P - 8) = sp + roundUpTo sz P - 4 := by
  unfold INT_MAX at hszmax hPmax
  obtain ⟨h0, hsz, hfd, hsp⟩ := Mem_Init_ok s sz P fd sp hret
  obtain ⟨hpad, hmod, _, hge, hlt⟩ := padded_size sz P hsz (by omega)
  -- a multiple of `P` below `sz + P` is at most 2147483648
  have hTmax : roundUpTo sz P ≤ 2147483648 := by
    obtain ⟨c, hc⟩ := hPdvd
    obtain ⟨k, hk⟩ := Int.dvd_of_emod_eq_zero hmod
    by_contra hgt
    have h1 : P * c < P * k := by rw [← hc, ← hk]; omega
    have h2 : c < k := lt_of_mul_lt_mul_left h1 (by omega)
    have h3 : P * (c + 1) ≤ P * k := Int.mul_le_mul_of_nonneg_left (by omega) (by omega)
    have h4 : P * (c + 1) = P * c + P := by ring
    omega
  rw [Mem_Init_run s sz P fd sp _ hret hszmax (by omega) hPmax rfl (by omega) hTmax]
  dsimp only
  refine ⟨rfl, ?_, ?_, ?_, by ring⟩
  · rw [store_ne _ _ _ _ (by omega), store_ne _ _ _ _ (by omega), store_eq]; ring
  · rw [store_eq]
  · rw [store_ne _ _ _ _ (by omega), store_eq]

/-- A run of `Mem_Init_post`: `Mem_Init(4096)` with a page size of 4096 and the
region at 65536 leaves one free block of 4088 bytes. -/
theorem Mem_Init_post_witness :
    (Mem_Init heap0 4096 4096 3 65536).1.first_blk = 65536 + 4 ∧
    (Mem_Init heap0 4096 4096 3 65536).1.mem (65536 + 4) = (roundUpTo 4096 4096 - 8) + 2 ∧
    (Mem_Init heap0 4096 4096 3 65536).1.mem (65536 + 4 + (roundUpTo 4096 4096 - 8) - 4)
      = roundUpTo 4096 4096 - 8 ∧
    (Mem_Init heap0 4096 4096 3 65536).1.mem (65536 + 4 + (roundUpTo 4096 4096 - 8)) = 1 ∧
    (65536 : Int) + 4 + (roundUpTo 4096 4096 - 8) = 65536 + roundUpTo 4096 4096 - 4 :=
  Mem_Init_post heap0 4096 4096 3 65536 (by decide) (by decide) (by decide) (by decide)
    (by decide)

/-- The writes of `Mem_Alloc` leave `allocated_once` as it is. -/
theorem place_allocated_once (s : Heap) (size b d : Int) :
    (place s size b d).1.allocated_once = s.allocated_once := by
  unfold place
  dsimp only
  split_ifs <;> rfl

/-- The function `Mem_Alloc` leaves `allocated_once` as it is. -/
theorem Mem_Alloc_allocated_once (fuel : Nat) (s : Heap) (n : Int) (r : Heap × Int)
    (h : Mem_Alloc fuel s n = some r) : r.1.allocated_once = s.allocated_once := by
  unfold Mem_Alloc at h
  split_ifs at h
  · simp only [Option.some.injEq] at h; rw [← h]
  · split at h
    · simp at h
    · simp only [Option.some.injEq] at h
      rw [← h]; exact place_allocated_once _ _ _ _

/-- The function `Mem_Free` leaves `allocated_once` as it is. -/
theorem Mem_Free_allocated_once (s : Heap) (p : Int) :
    (Mem_Free s p).1.allocated_once = s.allocated_once := by
  unfold Mem_Free
  dsimp only
  split_ifs <;> rfl

/-- A call of `Mem_Init` in a state where `allocated_once` is not 0 returns -1
and leaves the state as it is. -/
theorem Mem_Init_again (s : Heap) (sz P fd sp : Int) (h : s.allocated_once ≠ 0) :
    Mem_Init s sz P fd sp = (s, -1) := by
  unfold Mem_Init
  rw [if_pos (fun h' => h h'.symm)]

/-- A call of `Mem_Init` that returns 0 leaves `allocated_once` at 1. -/
theorem Mem_Init_sets_once (s : Heap) (sz P fd sp : Int)
    (h : (Mem_Init s sz P fd sp).2 = 0) : (Mem_Init s sz P fd sp).1.allocated_once = 1 := by
  unfold Mem_Init at h ⊢
  dsimp only at h ⊢
  split_ifs at h ⊢ <;> simp at h ⊢

/-- Once `allocated_once` is 1 it stays 1. -/
theorem Later_allocated_once (s t : Heap) (h : Later s t) (hs : s.allocated_once = 1) :
    t.allocated_once = 1 := by
  induction h with
  | refl => exact hs
  | alloc t fuel n r _ hr ih => rw [Mem_Alloc_allocated_once fuel t n r hr]; exact ih
  | free t p _ ih => rw [Mem_Free_allocated_once]; exact ih
  | init t sz P fd sp _ ih =>
    rw [Mem_Init_again t sz P fd sp (by rw [ih]; decide)]; exact ih

/-- C12, amended. `Mem_Init` returns -1 whenever the size is not positive;
once a call of `Mem_Init` has returned 0, every call of `Mem_Init` in a later
state, whatever calls came in between, returns -1; and a call that does not
return 0 returns -1 and leaves `first_blk`, `allocated_once` and the memory as
they were. -/
theorem Mem_Init_rejects (s : Heap) (sz P fd sp : Int) :
    (sz ≤ 0 → (Mem_Init s sz P fd sp).2 = -1) ∧
    ((Mem_Init s sz P fd sp).2 = 0 →
      ∀ t, Later (Mem_Init s sz P fd sp).1 t →
        ∀ sz' P' fd' sp', (Mem_Init t sz' P' fd' sp').2 = -1) ∧
    ((Mem_Init s sz P fd sp).2 ≠ 0 →
      (Mem_Init s sz P fd sp).2 = -1 ∧ (Mem_Init s sz P fd sp).1 = s) := by
  refine ⟨?_, ?_, ?_⟩
  · intro hsz
    rcases Mem_Init_fail s sz P fd sp with h | h
    · have := (Mem_Init_ok s sz P fd sp h).2.1
      omega
    · exact h.1
  · intro h t ht sz' P' fd' sp'
    have h1 := Later_allocated_once _ t ht (Mem_Init_sets_once s sz P fd sp h)
    rw [Mem_Init_again t sz' P' fd' sp' (by rw [h1]; decide)]
  · intro h
    rcases Mem_Init_fail s sz P fd sp with h' | h'
    · exact absurd h' h
    · exact h'

/-- Runs of `Mem_Init_rejects`: a call with size 0, a second call after
`Mem_Init(4096)` has returned 0, and a call whose `open` fails. -/
theorem Mem_Init_rejects_witness :
    (Mem_Init heap0 0 4096 3 65536).2 = -1 ∧
    (Mem_Init (Mem_Init heap0 4096 4096 3 65536).1 8192 4096 3 131072).2 = -1 ∧
    ((Mem_Init heap0 4096 4096 (-1) 65536).2 = -1 ∧
      (Mem_Init heap0 4096 4096 (-1) 65536).1 = heap0) :=
  ⟨(Mem_Init_rejects heap0 0 4096 3 65536).1 (by decide),
   (Mem_Init_rejects heap0 4096 4096 3 65536).2.1 (by decide) _ Later.refl 8192 4096 3 131072,
   (Mem_Init_rejects heap0 4096 4096 (-1) 65536).2.2 (by decide)⟩

/-- C12 as stated fails: a call of `Mem_Init` that fails, for a size of 0, for
a failing `open` or for a failing `mmap`, leaves `allocated_once` at 0, and a
later call of `Mem_Init(4096)` returns 0. -/
theorem Mem_Init_after_failure :
    (Mem_Init heap0 0 4096 3 65536).2 = -1 ∧
    (Mem_Init (Mem_Init heap0 0 4096 3 65536).1 4096 4096 3 65536).2 = 0 ∧
    (Mem_Init heap0 4096 4096 (-1) 65536).2 = -1 ∧
    (Mem_Init (Mem_Init heap0 4096 4096 (-1) 65536).1 4096 4096 3 65536).2 = 0 ∧
    (Mem_Init heap0 4096 4096 3 MAP_FAILED).2 = -1 ∧
    (Mem_Init (Mem_Init heap0 4096 4096 3 MAP_FAILED).1 4096 4096 3 65536).2 = 0 := by
  decide

/-! ## The neighbours of an allocated block, and the block left by a free -/

/-- Bit 0 and bit 1 of a header word. -/
theorem hdr_bits (z : Int) (al pa : Bool) (hz : z % 8 = 0) :
    hdr z al pa % 2 = (if al then 1 else 0) ∧ hdr z al pa / 2 % 2 = (if pa then 1 else 0) := by
  cases al <;> cases pa <;> simp [hdr] <;> omega

/-- C14, amended. After a `Mem_Alloc(n)` with `n > 0` that finds a large-enough
free block in a well-formed heap, the header of the allocated block has bit 0
set and bit 1 as before, and the word right after the allocated block is
either the header of the split remainder or of the next block, with bit 1 set,
or, when the allocated block is the last one, the end mark, which still
holds 1. -/
theorem Mem_Alloc_prev_bits (s : Heap) (bs : List Blk) (e n : Int)
    (hwf : WF s bs e) (hn : 0 < n)
    (hex : ∃ b ∈ bs, Fits (roundUp8 (n + 4)) b) :
    ∃ pre c post, bs = pre ++ c :: post ∧ Fits (roundUp8 (n + 4)) c ∧
      ∀ fuel, bs.length < fuel →
        ∃ s' asz, Mem_Alloc fuel s n = some (s', s.first_blk + sumSizes pre + 4) ∧
          asz = (if 8 ≤ c.size - roundUp8 (n + 4) then roundUp8 (n + 4) else c.size) ∧
          s'.mem (s.first_blk + sumSizes pre) = hdr asz true true ∧
          s'.mem (s.first_blk + sumSizes pre) % 2 = 1 ∧
          s'.mem (s.first_blk + sumSizes pre) / 2 % 2
            = s.mem (s.first_blk + sumSizes pre) / 2 % 2 ∧
          ((s.first_blk + sumSizes pre + asz = e ∧ s'.mem e = 1) ∨
           (s.first_blk + sumSizes pre + asz < e ∧
            s'.mem (s.first_blk + sumSizes pre + asz) / 2 % 2 = 1)) := by
  obtain ⟨pre, c, post, h1, h2, h3⟩ := Mem_Alloc_spec s bs e n hwf hn hex
  refine ⟨pre, c, post, h1, h2, ?_⟩
  intro fuel hfuel
  obtain ⟨s', h4, hwf'⟩ := h3 fuel hfuel
  have hfb : s'.first_blk = s.first_blk := Mem_Alloc_first_blk fuel s n _ h4
  -- the chosen block before the call
  obtain ⟨_, _, hch, _, _⟩ := hwf
  rw [h1] at hch
  obtain ⟨_, hc8, hchdr, hcf, _⟩ := ((Chain_append s.mem pre (c :: post) _ _ _).1 hch).2
  rw [h2.1, (hcf h2.1).1] at hchdr
  have hold := (hdr_bits c.size false true hc8).2
  rw [← hchdr] at hold
  have hn8 : roundUp8 (n + 4) % 8 = 0 := by unfold roundUp8; omega
  have hnlo : 8 ≤ roundUp8 (n + 4) := by unfold roundUp8; omega
  -- the chain after the call
  obtain ⟨_, _, hch', _, hend'⟩ := hwf'
  rw [hfb, List.append_assoc] at hch'
  obtain ⟨hpre', hrest⟩ := (Chain_append s'.mem pre _ _ _ _).1 hch'
  generalize s.first_blk + sumSizes pre = a at *
  by_cases hsplit : 8 ≤ c.size - roundUp8 (n + 4)
  · have hsb : splitBlock (roundUp8 (n + 4)) c.size
        = [⟨roundUp8 (n + 4), true⟩, ⟨c.size - roundUp8 (n + 4), false⟩] := by
      simp [splitBlock, hsplit]
    rw [hsb] at hrest
    obtain ⟨_, _, hh1, _, hr8, _, hh2, _, htail⟩ := hrest
    dsimp only at hh1 hh2 htail hr8
    have hsum := Chain_sum _ _ _ _ _ htail
    have hend := Chain_end _ _ _ _ _ htail
    have hb1 := hdr_bits (roundUp8 (n + 4)) true (lastAlloc true pre) hn8
    have hb2 := hdr_bits (c.size - roundUp8 (n + 4)) false true (by omega)
    have hpa : lastAlloc true pre = true := (hcf h2.1).1
    rw [hpa] at hb1 hh1
    refine ⟨s', roundUp8 (n + 4), h4, by rw [if_pos hsplit], hh1, ?_, ?_,
      Or.inr ⟨by omega, ?_⟩⟩
    · rw [hh1]; simpa using hb1.1
    · rw [hh1, hold]; simpa using hb1.2
    · rw [hh2]; simpa using hb2.2
  · have hsb : splitBlock (roundUp8 (n + 4)) c.size = [⟨c.size, true⟩] := by
      simp [splitBlock, hsplit]
    rw [hsb] at hrest
    obtain ⟨_, _, hh1, _, htail⟩ := hrest
    dsimp only at hh1 htail
    have hb1 := hdr_bits c.size true (lastAlloc true pre) hc8
    have hpa : lastAlloc true pre = true := (hcf h2.1).1
    rw [hpa] at hb1 hh1
    refine ⟨s', c.size, h4, by rw [if_neg hsplit], hh1, ?_, ?_, ?_⟩
    · rw [hh1]; simpa using hb1.1
    · rw [hh1, hold]; simpa using hb1.2
    · rcases post with _ | ⟨b, post'⟩
      · left
        simp only [List.nil_append, Chain] at htail
        exact ⟨htail, hend'⟩
      · right
        obtain ⟨hb, hb8, hh2, _, htail'⟩ := htail
        have hsum := Chain_sum _ _ _ _ _ htail'
        have hend := Chain_end _ _ _ _ _ htail'
        have hb2 := hdr_bits b.size b.alloc true hb8
        refine ⟨by omega, ?_⟩
        rw [hh2]; simpa using hb2.2

/-- A run of `Mem_Alloc_prev_bits`: `Mem_Alloc(8)` right after
`Mem_Init(4096)`. -/
theorem Mem_Alloc_prev_bits_witness :
    ∃ pre c post, [(⟨4088, false⟩ : Blk)] = pre ++ c :: post ∧ Fits (roundUp8 (8 + 4)) c ∧
      ∀ fuel, [(⟨4088, false⟩ : Blk)].length < fuel →
        ∃ s' asz, Mem_Alloc fuel heapInit 8 = some (s', heapInit.first_blk + sumSizes pre + 4) ∧
          asz = (if 8 ≤ c.size - roundUp8 (8 + 4) then roundUp8 (8 + 4) else c.size) ∧
          s'.mem (heapInit.first_blk + sumSizes pre) = hdr asz true true ∧
          s'.mem (heapInit.first_blk + sumSizes pre) % 2 = 1 ∧
          s'.mem (heapInit.first_blk + sumSizes pre) / 2 % 2
            = heapInit.mem (heapInit.first_blk + sumSizes pre) / 2 % 2 ∧
          ((heapInit.first_blk + sumSizes pre + asz = 69628 ∧ s'.mem 69628 = 1) ∨
           (heapInit.first_blk + sumSizes pre + asz < 69628 ∧
            s'.mem (heapInit.first_blk + sumSizes pre + asz) / 2 % 2 = 1)) :=
  Mem_Alloc_prev_bits heapInit [⟨4088, false⟩] 69628 8 heapInit_WF (by decide)
    ⟨⟨4088, false⟩, by simp, by decide⟩

/-- C14 as stated fails when the allocated block is the last one: after
`Mem_Init(4096)`, `Mem_Alloc(4084)` allocates the whole block of 4088 bytes at
65540, the word right after it is the end mark at 69628, and that word still
holds 1, whose bit 1 is 0. -/
theorem Mem_Alloc_end_mark_bit :
    WF heapInit [⟨4088, false⟩] 69628 ∧
    Mem_Alloc 64 heapInit 4084 = some (heapFull, 65544) ∧
    heapFull.mem 65540 = hdr 4088 true true ∧
    (65540 : Int) + 4088 = 69628 ∧
    heapFull.mem 69628 = 1 ∧
    heapFull.mem 69628 / 2 % 2 = 0 :=
  ⟨by decide, rfl, by decide, by decide, by decide, by decide⟩

theorem sumSizes_dropLast (pre : List Blk) (psz : Int) :
    sumSizes (pre ++ [⟨psz, false⟩]) = sumSizes pre + psz := by
  rw [sumSizes_append]; simp [sumSizes]

/-- The coalesced chain, written out: the blocks before the merged span, the
merged free block, and the blocks after it. -/
theorem coalesce_eq (pre post : List Blk) (sz : Int) :
    coalesce pre sz post
      = (if lastAlloc true pre then pre else pre.dropLast)
        ++ ⟨(if lastAlloc true pre then 0 else lastSize 0 pre) + sz
              + (if headAlloc post then 0 else headSize post), false⟩
        :: (if headAlloc post then post else post.tail) := by
  unfold coalesce joinNext
  cases lastAlloc true pre <;> cases headAlloc post <;> simp

/-- On a well-formed heap, `Mem_Free` on the handle of an allocated block
`B` of span `sz` returns 0 and leaves a chain that is the blocks before the
merged span, one free block, and the blocks after the span: the free block
starts at the address of the predecessor of `B` when that was free and at the
address of `B` otherwise, its span is `sz` plus the spans of the free
neighbours of `B`, its header has bit 0 clear and bit 1 set, and its last
word is a footer that holds the span; the other blocks keep their addresses,
spans and self-allocated bits. The end mark keeps 1 when `B` is not the last
block, and holds -1 afterwards when it is. -/
theorem Mem_Free_coalesced (s : Heap) (pre post : List Blk) (sz e : Int)
    (hwf : WF s (pre ++ ⟨sz, true⟩ :: post) e) :
    (Mem_Free s (s.first_blk + sumSizes pre + 4)).2 = 0 ∧
    ∃ pre' post' z,
      pre' = (if lastAlloc true pre then pre else pre.dropLast) ∧
      post' = (if headAlloc post then post else post.tail) ∧
      z = (if lastAlloc true pre then 0 else lastSize 0 pre) + sz
            + (if headAlloc post then 0 else headSize post) ∧
      s.first_blk + sumSizes pre'
        = (if lastAlloc true pre then s.first_blk + sumSizes pre
           else s.first_blk + sumSizes pre - lastSize 0 pre) ∧
      sumSizes pre' + z + sumSizes post' = sumSizes pre + sz + sumSizes post ∧
      Chain (Mem_Free s (s.first_blk + sumSizes pre + 4)).1.mem s.first_blk true
        (pre' ++ ⟨z, false⟩ :: post') e ∧
      (Mem_Free s (s.first_blk + sumSizes pre + 4)).1.mem (s.first_blk + sumSizes pre')
        = hdr z false true ∧
      (Mem_Free s (s.first_blk + sumSizes pre + 4)).1.mem (s.first_blk + sumSizes pre' + z - 4)
        = z ∧
      (Mem_Free s (s.first_blk + sumSizes pre + 4)).1.mem e = endWordAfterFree post := by
  obtain ⟨hret, hwf', _⟩ := Mem_Free_spec s pre post sz e hwf
  refine ⟨hret, _, _, _, rfl, rfl, rfl, ?_, ?_, ?_⟩
  · cases hpa : lastAlloc true pre
    · rcases lastAlloc_false pre true hpa with ⟨_, h⟩ | ⟨pre0, psz, rfl⟩
      · cases h
      · simp [sumSizes_dropLast, lastSize_concat]
        ring
    · simp
  · have h1 := sumSizes_coalesce pre post sz
    rw [coalesce_eq, sumSizes_append] at h1
    simp only [sumSizes] at h1
    omega
  · obtain ⟨_, _, hch, _, hend'⟩ := hwf'
    rw [Mem_Free_first_blk, coalesce_eq] at hch
    refine ⟨hch, ?_⟩
    obtain ⟨_, hblk⟩ := (Chain_append _ _ _ _ _ _).1 hch
    obtain ⟨_, _, hh, hf, _⟩ := hblk
    dsimp only at hh hf
    obtain ⟨hpa, hfoot⟩ := hf rfl
    rw [hpa] at hh
    exact ⟨hh, hfoot, hend'⟩

/-! ## Runs with a request that overflows: split policy, chain bits, footers -/

theorem heapA3_reachable : Reachable heapA3 :=
  Reachable.alloc heapA2 64 8 (heapA3, 65576)
    (Reachable.alloc heapA1 64 8 (heapA2, 65560)
      (Reachable.alloc heapInit 64 8 (heapA1, 65544) heapInit_reachable rfl) rfl) rfl

theorem heapOverFreed_reachable : Reachable heapOverFreed :=
  Reachable.free (Mem_Free heapOver3 65576).1 65544
    (Reachable.free heapOver3 65576
      (Reachable.alloc heapA3 64 2147483644 (heapOver3, 65592) heapA3_reachable rfl))

theorem heapOver1_reachable : Reachable heapOver1 :=
  Reachable.alloc heapA1 64 2147483644 (heapOver1, 65560)
    (Reachable.alloc heapInit 64 8 (heapA1, 65544) heapInit_reachable rfl) rfl

/-- C13, the failing run. On the well-formed heap after `Mem_Init(4096)` the
scan of `Mem_Alloc(2147483647)` chooses the free block of 4088 bytes at 65540
and the call returns 65544; the slack `4088 - roundUp8 (2147483647 + 4)` is
less than 8, yet the header left at 65540 is -2147483629 and not the header
4091 of an allocated block of 4088 bytes, and the span the source reads back
from it is -2147483624. -/
theorem Mem_Alloc_overflow_split :
    WF heapInit [⟨4088, false⟩] 69628 ∧
    scan 64 heapInit.mem (roundedSize 2147483647) heapInit.first_blk 0 INT_MAX
      = some (65540, -2147479576) ∧
    4088 - roundUp8 (2147483647 + 4) < 8 ∧
    hdr 4088 true true = 4091 ∧
    ∃ s', Mem_Alloc 64 heapInit 2147483647 = some (s', 65544) ∧
      s'.mem 65540 = -2147483629 ∧
      imul (cdiv (s'.mem 65540) 8) 8 = -2147483624 :=
  ⟨by decide, by decide, by decide, by decide,
    allocState heapInit 2147483647, rfl, by decide, by decide⟩

/-- C16, the failing run. After `Mem_Init(4096)`, `y = Mem_Alloc(8)`,
`x = Mem_Alloc(8)`, `p = Mem_Alloc(8)` and `Mem_Alloc(2147483644)`, all of
which return non-null pointers, `Mem_Free(p)` returns -1 and `Mem_Free(y)`
returns 0. In the state after that successful call the block at 65572 has the
header 18, so it is free, and the block that follows it at 65588 has the
header -2147483645, whose bit 1, the prev-allocated bit, is 1. Read as line
120 of the source reads it, `% 4 / 2`, the bit of that header is 0, which is
wrong already after the successful `Mem_Alloc(2147483644)`, when the block at
65572 is allocated (header 19). -/
theorem prev_bit_after_overflow :
    Reachable heapOverFreed ∧
    Mem_Alloc 64 heapInit 8 = some (heapA1, 65544) ∧
    Mem_Alloc 64 heapA1 8 = some (heapA2, 65560) ∧
    Mem_Alloc 64 heapA2 8 = some (heapA3, 65576) ∧
    Mem_Alloc 64 heapA3 2147483644 = some (heapOver3, 65592) ∧
    (Mem_Free heapOver3 65576).2 = -1 ∧
    Mem_Free (Mem_Free heapOver3 65576).1 65544 = (heapOverFreed, 0) ∧
    heapOverFreed.mem 65540 = 18 ∧ heapOverFreed.mem 65556 = 17 ∧
    heapOverFreed.mem 65572 = 18 ∧ heapOverFreed.mem 65588 = -2147483645 ∧
    heapOverFreed.mem 65572 % 2 = 0 ∧
    heapOverFreed.mem 65588 / 2 % 2 = 1 ∧
    heapOver3.mem 65572 = 19 ∧ heapOver3.mem 65588 = -2147483645 ∧
    cdiv (cmod (heapOver3.mem 65588) 4) 2 = 0 :=
  ⟨heapOverFreed_reachable, rfl, rfl, rfl, rfl, by decide, rfl, by decide, by decide,
    by decide, by decide, by decide, by decide, by decide, by decide, by decide⟩

/-- C17, the failing run. After `Mem_Init(4096)`, `y = Mem_Alloc(8)`,
`x = Mem_Alloc(8)`, `p = Mem_Alloc(8)` and `Mem_Alloc(2147483644)`,
`Mem_Free(p)` returns -1 and `Mem_Free(y)` returns 0. In the state after that
successful call the block at 65572 is free with a span of 16 bytes (header 18),
and its last word, at 65584, holds 0 and not the footer 16. -/
theorem footer_after_overflow :
    Reachable heapOverFreed ∧
    Mem_Alloc 64 heapA3 2147483644 = some (heapOver3, 65592) ∧
    (Mem_Free heapOver3 65576).2 = -1 ∧
    Mem_Free (Mem_Free heapOver3 65576).1 65544 = (heapOverFreed, 0) ∧
    heapOverFreed.mem 65572 = hdr 16 false true ∧
    heapOverFreed.mem (65572 + 16 - 4) = 0 :=
  ⟨heapOverFreed_reachable, rfl, by decide, rfl, by decide, by decide⟩

/-- C18, the failing run. After `Mem_Init(4096)`, `p = Mem_Alloc(8)` and
`Mem_Alloc(2147483644)` the block at 65540 is allocated (header 19) and the
word after it, at 65556, is -2147483645, for which `% 8 % 2` is -1, neither 0
nor 1: none of the four case tests of `Mem_Free` holds, `Mem_Free(p)` returns
-1, and the header at 65540 has changed from 19 to 18. -/
theorem Mem_Free_no_case :
    Reachable heapOver1 ∧
    Mem_Alloc 64 heapInit 8 = some (heapA1, 65544) ∧
    Mem_Alloc 64 heapA1 2147483644 = some (heapOver1, 65560) ∧
    heapOver1.mem 65540 = 19 ∧ heapOver1.mem 65556 = -2147483645 ∧
    cmod (cmod (heapOver1.mem 65556) 8) 2 = -1 ∧
    (Mem_Free heapOver1 65544).2 = -1 ∧
    (Mem_Free heapOver1 65544).1.mem 65540 = 18 :=
  ⟨heapOver1_reachable, rfl, rfl, by decide, by decide, by decide, by decide, by decide⟩

/-! ## The allocated blocks of a chain -/

theorem allocBlocks_append (xs ys : List Blk) :
    ∀ a, allocBlocks a (xs ++ ys)
      = allocBlocks a xs ++ allocBlocks (a + sumSizes xs) ys := by
  induction xs with
  | nil => intro a; simp [allocBlocks, sumSizes]
  | cons b bs ih =>
    intro a
    have h : a + b.size + sumSizes bs = a + (b.size + sumSizes bs) := by ring
    cases hb : b.alloc <;> simp [allocBlocks, sumSizes, hb, ih, h]

theorem allocBlocks_joinNext (z : Int) (m2 : List Blk) (a : Int) :
    allocBlocks a (joinNext z m2) = allocBlocks (a + z) m2 := by
  cases m2 with
  | nil => simp [joinNext, headAlloc, allocBlocks]
  | cons c r =>
    have h : a + (z + c.size) = a + z + c.size := by ring
    cases hc : c.alloc <;> simp [joinNext, headAlloc, hc, headSize, allocBlocks, h]

/-- Freeing a block removes it from the allocated blocks and leaves the others
where they are. -/
theorem allocBlocks_coalesce (m1 m2 : List Blk) (sz a : Int) :
    allocBlocks a (coalesce m1 sz m2)
      = allocBlocks a m1 ++ allocBlocks (a + sumSizes m1 + sz) m2 := by
  cases h1 : lastAlloc true m1
  · rcases lastAlloc_false m1 true h1 with ⟨_, h⟩ | ⟨m1', psz, rfl⟩
    · cases h
    · rw [coalesce_of_free, allocBlocks_append, allocBlocks_append, allocBlocks_joinNext,
        sumSizes_append]
      have h : a + sumSizes m1' + (psz + sz)
          = a + (sumSizes m1' + sumSizes [⟨psz, false⟩]) + sz := by
        simp [sumSizes]; ring
      rw [h]
      simp [allocBlocks]
  · rw [coalesce_of_alloc _ _ _ h1, allocBlocks_append, allocBlocks_joinNext]

/-- Allocating from a free block of span `c` adds one allocated block at its
start and leaves the others where they are. -/
theorem allocBlocks_split (pre post : List Blk) (needed c a : Int) :
    allocBlocks a (pre ++ splitBlock needed c ++ post)
      = allocBlocks a pre ++
          (a + sumSizes pre + 4, if 8 ≤ c - needed then needed else c) ::
            allocBlocks (a + sumSizes pre + c) post := by
  rw [List.append_assoc, allocBlocks_append, allocBlocks_append]
  unfold splitBlock
  by_cases h : 8 ≤ c - needed
  · have e1 : a + sumSizes pre + sumSizes [(⟨needed, true⟩ : Blk), ⟨c - needed, false⟩]
        = a + sumSizes pre + c := by simp [sumSizes]
    rw [if_pos h, if_pos h, e1]
    simp [allocBlocks]
  · have e1 : a + sumSizes pre + sumSizes [(⟨c, true⟩ : Blk)] = a + sumSizes pre + c := by
      simp [sumSizes]
    rw [if_neg h, if_neg h, e1]
    simp [allocBlocks]

/-- An entry of the allocated blocks is an allocated block of the list. -/
theorem mem_allocBlocks (mid : List Blk) :
    ∀ (a p z : Int), (p, z) ∈ allocBlocks a mid →
      ∃ m1 m2, mid = m1 ++ ⟨z, true⟩ :: m2 ∧ p = a + sumSizes m1 + 4 := by
  induction mid with
  | nil => intro a p z hh; simp [allocBlocks] at hh
  | cons b bs ih =>
    intro a p z hh
    cases hb : b.alloc
    · simp only [allocBlocks, hb] at hh
      obtain ⟨m1, m2, h1, h2⟩ := ih _ _ _ hh
      refine ⟨b :: m1, m2, by simp [h1], ?_⟩
      rw [h2]; simp [sumSizes]; ring
    · simp only [allocBlocks, hb, if_true, List.mem_cons] at hh
      rcases hh with hh | hh
      · simp only [Prod.mk.injEq] at hh
        obtain ⟨rfl, rfl⟩ := hh
        refine ⟨[], bs, ?_, by simp [sumSizes]⟩
        cases b; simp at hb; simp [hb]
      · obtain ⟨m1, m2, h1, h2⟩ := ih _ _ _ hh
        refine ⟨b :: m1, m2, by simp [h1], ?_⟩
        rw [h2]; simp [sumSizes]; ring

theorem sumSizes_nonneg (l : List Blk) (h : ∀ c ∈ l, 0 ≤ c.size) : 0 ≤ sumSizes l := by
  induction l with
  | nil => simp [sumSizes]
  | cons c l ih =>
    have h1 := h c (by simp)
    have h3 := ih (fun d hd => h d (by simp [hd]))
    simp only [sumSizes]; omega

/-- Every allocated block lies between the start of the list and its end. -/
theorem allocBlocks_bounds (bs : List Blk) :
    ∀ (a : Int), (∀ b ∈ bs, 0 ≤ b.size) →
      ∀ x ∈ allocBlocks a bs, a + 4 ≤ x.1 ∧ x.1 - 4 + x.2 ≤ a + sumSizes bs := by
  induction bs with
  | nil => intro a _ x hx; simp [allocBlocks] at hx
  | cons b bs ih =>
    intro a hsz x hx
    have hb := hsz b (by simp)
    have hs := sumSizes_nonneg bs (fun c hc => hsz c (by simp [hc]))
    have hrec := ih (a + b.size) (fun c hc => hsz c (by simp [hc]))
    simp only [sumSizes]
    cases hal : b.alloc
    · simp only [allocBlocks, hal] at hx
      have := hrec x hx
      omega
    · simp only [allocBlocks, hal, if_true, List.mem_cons] at hx
      rcases hx with rfl | hx
      · dsimp only; omega
      · have := hrec x hx
        omega

/-- The allocated blocks come in address order, each ending before the next
one starts. -/
theorem allocBlocks_sorted (bs : List Blk) :
    ∀ (a : Int), (∀ b ∈ bs, 0 ≤ b.size) →
      (allocBlocks a bs).Pairwise (fun x y => x.1 - 4 + x.2 ≤ y.1 - 4) := by
  induction bs with
  | nil => intro a _; simp [allocBlocks]
  | cons b bs ih =>
    intro a hsz
    have hrec := ih (a + b.size) (fun c hc => hsz c (by simp [hc]))
    cases hal : b.alloc
    · simp only [allocBlocks, hal]
      exact hrec
    · simp only [allocBlocks, hal, if_true]
      refine List.Pairwise.cons ?_ hrec
      intro y hy
      have := allocBlocks_bounds bs (a + b.size) (fun c hc => hsz c (by simp [hc])) y hy
      dsimp only
      omega

/-- Two allocated blocks with different handles do not overlap. -/
theorem allocBlocks_disjoint (bs : List Blk) (a : Int) (hsz : ∀ b ∈ bs, 0 ≤ b.size)
    (x y : Int × Int) (hx : x ∈ allocBlocks a bs) (hy : y ∈ allocBlocks a bs)
    (hne : x.1 ≠ y.1) :
    x.1 - 4 + x.2 ≤ y.1 - 4 ∨ y.1 - 4 + y.2 ≤ x.1 - 4 := by
  have key : ∀ (l : List (Int × Int)), l.Pairwise (fun x y => x.1 - 4 + x.2 ≤ y.1 - 4) →
      ∀ x ∈ l, ∀ y ∈ l, x.1 = y.1 ∨ x.1 - 4 + x.2 ≤ y.1 - 4 ∨ y.1 - 4 + y.2 ≤ x.1 - 4 := by
    intro l hl
    induction hl with
    | nil => intro x hx; simp at hx
    | cons hhead _ ih =>
      intro x hx y hy
      rcases List.mem_cons.1 hx with rfl | hx' <;> rcases List.mem_cons.1 hy with rfl | hy'
      · exact Or.inl rfl
      · exact Or.inr (Or.inl (hhead y hy'))
      · exact Or.inr (Or.inr (hhead x hx'))
      · exact ih x hx' y hy'
  rcases key _ (allocBlocks_sorted bs a hsz) x hx y hy with h | h | h
  · exact absurd h hne
  · exact Or.inl h
  · exact Or.inr h

theorem lastAlloc_joinNext (z : Int) (post : List Blk) (d : Bool) :
    lastAlloc d (joinNext z post) = lastAlloc false post := by
  cases post with
  | nil => rfl
  | cons c r => cases hc : c.alloc <;> simp [joinNext, headAlloc, hc, headSize, lastAlloc]

theorem lastAlloc_coalesce (pre post : List Blk) (sz : Int) (d : Bool) :
    lastAlloc d (coalesce pre sz post) = lastAlloc false post := by
  unfold coalesce
  split_ifs <;> rw [lastAlloc_append, lastAlloc_joinNext]

/-- The round trip of the live allocations: what the theorem on runs needs
from the chain. -/
theorem LiveOK_ranges (a e : Int) (bs : List Blk) (live : List (Int × Int))
    (hsz : ∀ b ∈ bs, 0 ≤ b.size) (he : e = a + sumSizes bs) (h : LiveOK a bs live) :
    (∀ x ∈ live, a ≤ x.1 ∧ x.1 + x.2 ≤ e) ∧
    live.Pairwise (fun x y => x.1 + x.2 ≤ y.1 ∨ y.1 + y.2 ≤ x.1) := by
  obtain ⟨h1, h2⟩ := h
  constructor
  · intro x hx
    obtain ⟨_, z, hz, hn⟩ := h1 x hx
    have := allocBlocks_bounds bs a hsz _ hz
    dsimp only at this
    omega
  · refine h2.imp_of_mem ?_
    intro x y hx hy hne
    obtain ⟨_, zx, hzx, hnx⟩ := h1 x hx
    obtain ⟨_, zy, hzy, hny⟩ := h1 y hy
    have := allocBlocks_disjoint bs a hsz _ _ hzx hzy hne
    dsimp only at this
    omega

/-! ## Fuel, the lost end mark, and the heap after `Mem_Init` -/

/-- A scan that ends within some fuel ends with the same result within more. -/
theorem scan_mono (m : Int → Int) (size : Int) :
    ∀ (fuel : Nat) (ptr best md : Int) (r : Int × Int),
      scan fuel m size ptr best md = some r → scan (fuel + 1) m size ptr best md = some r := by
  intro fuel
  induction fuel with
  | zero => intro ptr best md r h; simp [scan] at h
  | succ k ih =>
    intro ptr best md r h
    unfold scan at h ⊢
    dsimp only at h ⊢
    split_ifs at h ⊢ with h1 h2
    · exact ih _ _ _ _ h
    · exact ih _ _ _ _ h
    · exact h

theorem Mem_Alloc_mono (s : Heap) (n : Int) (fuel : Nat) (r : Heap × Int)
    (h : Mem_Alloc fuel s n = some r) : ∀ k, Mem_Alloc (fuel + k) s n = some r := by
  intro k
  induction k with
  | zero => exact h
  | succ k ih =>
    unfold Mem_Alloc at ih ⊢
    split_ifs at ih ⊢ with h1
    · exact ih
    · cases hs : scan (fuel + k) s.mem (roundedSize n) s.first_blk 0 INT_MAX with
      | none => rw [hs] at ih; cases ih
      | some bm =>
        have := scan_mono s.mem (roundedSize n) (fuel + k) _ _ _ bm hs
        rw [hs] at ih
        rw [show fuel + (k + 1) = fuel + k + 1 from rfl, this]
        exact ih

/-- Over a chain that ends in a word -1 the scan does not end, whatever the
fuel. -/
theorem scan_chain_stuck (m : Int → Int) (size : Int) :
    ∀ (bs : List Blk) (a : Int) (pa : Bool) (e best md : Int) (fuel : Nat),
      Chain m a pa bs e → m e = -1 → sumSizes bs ≤ 2147483640 →
      scan fuel m size a best md = none := by
  intro bs
  induction bs with
  | nil =>
    intro a pa e best md fuel h he _
    simp only [Chain] at h
    subst h
    exact scan_stuck m size a he fuel best md
  | cons b bs ih =>
    intro a pa e best md fuel h he hsum
    cases fuel with
    | zero => rfl
    | succ k =>
      have hs := Chain_sum m _ _ _ _ h
      obtain ⟨h1, h2, h3, _, h5⟩ := h
      have hs5 := Chain_sum m _ _ _ _ h5
      simp only [sumSizes] at hsum hs
      obtain ⟨f, hf, hf0, hf3, hfa, _⟩ := hdr_flags b.size b.alloc pa
      rw [← h3] at hf
      have hsz := word_size (m a) b.size f hf hf0 hf3 (by omega) h2 (by omega)
      have hne : m a ≠ 1 := by omega
      have hnext : padd a (cdiv b.size 4) = a + b.size := by
        unfold padd; rw [four_mul_cdiv4 _ h2]
      unfold scan
      dsimp only
      rw [if_pos hne, hsz, hnext]
      split_ifs
      · exact ih _ _ _ _ _ _ h5 he (by omega)
      · exact ih _ _ _ _ _ _ h5 he (by omega)

/-- Once the end mark holds -1, no call `Mem_Alloc(n)` with `n > 0` returns. -/
theorem Mem_Alloc_stuck (s : Heap) (bs : List Blk) (e n : Int) (hwf : WFx s bs e (-1))
    (hn : 0 < n) (fuel : Nat) : Mem_Alloc fuel s n = none := by
  obtain ⟨_, _, hch, hbound, hend⟩ := hwf
  have hsum := Chain_end s.mem _ _ _ _ hch
  unfold Mem_Alloc
  rw [if_neg (by omega), scan_chain_stuck s.mem _ bs _ _ _ _ _ fuel hch hend (by omega)]

/-- A call of `Mem_Free` on the handle of an allocated block of a heap whose end mark
holds `w`, which is 1 when the block is the last one: the call returns 0 and
leaves the chain with the block freed and merged with its free neighbours;
the end mark holds -1 afterwards when the block was the last one. -/
theorem Mem_Free_spec_x (s : Heap) (pre post : List Blk) (sz e w : Int)
    (hwf : WFx s (pre ++ ⟨sz, true⟩ :: post) e w) (hw1 : post = [] → w = 1) :
    (Mem_Free s (s.first_blk + sumSizes pre + 4)).2 = 0 ∧
    WFx (Mem_Free s (s.first_blk + sumSizes pre + 4)).1 (coalesce pre sz post) e
      (if post = [] then -1 else w) := by
  by_cases hpa : lastAlloc true pre = true
  · rw [coalesce_of_alloc pre sz post hpa]
    obtain ⟨h1, h2, _⟩ := Mem_Free_after_alloc_x s pre post sz e w hwf hw1 hpa
    exact ⟨h1, h2⟩
  · have hpa' : lastAlloc true pre = false := by simpa using hpa
    rcases lastAlloc_false pre true hpa' with ⟨_, h⟩ | ⟨pre', psz, rfl⟩
    · cases h
    · rw [coalesce_of_free]
      have hl : pre' ++ [⟨psz, false⟩] ++ ⟨sz, true⟩ :: post
          = pre' ++ ⟨psz, false⟩ :: ⟨sz, true⟩ :: post := by simp
      rw [hl] at hwf
      have hs : s.first_blk + sumSizes (pre' ++ [⟨psz, false⟩])
          = s.first_blk + sumSizes pre' + psz := by
        rw [sumSizes_append]; simp [sumSizes]; ring
      rw [hs]
      obtain ⟨h1, h2, _⟩ := Mem_Free_after_free_x s pre' post psz sz e w hwf hw1
      exact ⟨h1, h2⟩

/-- The heap that a successful `Mem_Init` leaves is well formed: one free
block from `first_blk` to the end mark, or no block at all when the padded
size is 8. -/
theorem Mem_Init_WF (s0 : Heap) (sz P fd sp : Int)
    (hP : 0 < P) (hP8 : P % 8 = 0) (hsp : 0 < sp) (hal : sp % P = 0)
    (hov : sz + (P - sz % P) % P ≤ INT_MAX)
    (hret : (Mem_Init s0 sz P fd sp).2 = 0) :
    ∃ bs, WF (Mem_Init s0 sz P fd sp).1 bs (endMarkOf sz P sp) ∧
      allocBlocks (Mem_Init s0 sz P fd sp).1.first_blk bs = [] := by
  obtain ⟨h0, hsz, hfd, hspf⟩ := Mem_Init_ok s0 sz P fd sp hret
  obtain ⟨hpad, hTP, hle, hPle, hlt⟩ := padded_size sz P hsz hP
  unfold INT_MAX at hov
  rw [hpad] at hov
  have h8P : (8 : Int) ∣ P := Int.dvd_of_emod_eq_zero hP8
  have h8T : (8 : Int) ∣ roundUpTo sz P := Int.dvd_trans h8P (Int.dvd_of_emod_eq_zero hTP)
  have h8sp : (8 : Int) ∣ sp := Int.dvd_trans h8P (Int.dvd_of_emod_eq_zero hal)
  have hP8' : 8 ≤ P := by omega
  have hrun := Mem_Init_run s0 sz P fd sp (roundUpTo sz P) hret (by omega) hP (by omega) rfl
    (by omega) (by omega)
  have c1 : cmod sz P = sz % P := cmod_nonneg _ _ (by omega) (by omega)
  have hr0 := Int.emod_nonneg sz (ne_of_gt hP)
  have hr1 := Int.emod_lt_of_pos sz hP
  have c2 : isub P (sz % P) = P - sz % P := by
    unfold isub; exact wrap32_id _ (by omega) (by omega)
  have c3 : cmod (P - sz % P) P = (P - sz % P) % P := cmod_nonneg _ _ (by omega) (by omega)
  have c4 : iadd sz ((P - sz % P) % P) = roundUpTo sz P := by
    unfold iadd; rw [hpad]; exact wrap32_id _ (by omega) (by omega)
  have c5 : isub (roundUpTo sz P) 8 = roundUpTo sz P - 8 := by
    unfold isub; exact wrap32_id _ (by omega) (by omega)
  have c6 : padd sp 1 = sp + 4 := by unfold padd; ring
  have he : endMarkOf sz P sp = sp + 4 + (roundUpTo sz P - 8) := by
    unfold endMarkOf; rw [c1, c2, c3, c4, c5, c6]
  rw [hrun, he]
  generalize roundUpTo sz P = T at *
  by_cases hT : T = 8
  · subst hT
    refine ⟨[], ⟨by dsimp only; omega, by dsimp only; omega, ?_, by dsimp only; omega, ?_⟩, rfl⟩
    · show sp + 4 = sp + 4 + (8 - 8)
      ring
    · show store _ _ _ _ = 1
      rw [store_ne _ _ _ _ (by omega), store_eq]
  · refine ⟨[⟨T - 8, false⟩],
      ⟨by dsimp only; omega, by dsimp only; omega, ?_, by dsimp only; omega, ?_⟩, rfl⟩
    · refine ⟨by dsimp only; omega, by dsimp only; omega, ?_, ?_, rfl⟩
      · show store _ _ _ (sp + 4) = _
        rw [store_ne _ _ _ _ (by omega), store_ne _ _ _ _ (by omega), store_eq]
        simp [hdr]; ring
      · intro _
        refine ⟨rfl, ?_⟩
        show store _ _ _ (sp + 4 + (T - 8) - 4) = _
        rw [store_eq]
    · show store _ _ _ _ = 1
      rw [store_ne _ _ _ _ (by omega), store_eq]

/-! ## Live allocations never overlap -/

theorem lastAlloc_cons_irrel (d d' : Bool) (post : List Blk) (h : post ≠ []) :
    lastAlloc d post = lastAlloc d' post := by
  cases post with
  | nil => exact absurd rfl h
  | cons c r => rfl

/-- The live allocations stay in step with the chain when `Mem_Alloc` takes a
free block. -/
theorem LiveOK_alloc (F : Int) (pre post : List Blk) (c : Blk) (n : Int)
    (live : List (Int × Int))
    (hsz : ∀ b ∈ pre ++ c :: post, 8 ≤ b.size) (hn : 0 < n)
    (hfit : Fits (roundUp8 (n + 4)) c)
    (h : LiveOK F (pre ++ c :: post) live) :
    LiveOK F (pre ++ splitBlock (roundUp8 (n + 4)) c.size ++ post)
      ((F + sumSizes pre + 4, n) :: live) := by
  obtain ⟨h1, h2⟩ := h
  obtain ⟨hfree, hle⟩ := hfit
  have hc8 := hsz c (by simp)
  have hold : allocBlocks F (pre ++ c :: post)
      = allocBlocks F pre ++ allocBlocks (F + sumSizes pre + c.size) post := by
    rw [allocBlocks_append]
    simp [allocBlocks, hfree]
  have hnew := allocBlocks_split pre post (roundUp8 (n + 4)) c.size F
  have hpre0 : ∀ b ∈ pre, 0 ≤ b.size := fun b hb => by
    have := hsz b (by simp [hb]); omega
  have hpost0 : ∀ b ∈ post, 0 ≤ b.size := fun b hb => by
    have := hsz b (by simp [hb]); omega
  have hround : n + 4 ≤ roundUp8 (n + 4) := by unfold roundUp8; omega
  constructor
  · intro x hx
    rcases List.mem_cons.1 hx with rfl | hx
    · refine ⟨hn, (if 8 ≤ c.size - roundUp8 (n + 4) then roundUp8 (n + 4) else c.size), ?_, ?_⟩
      · rw [hnew]; simp
      · dsimp only
        split_ifs <;> omega
    · obtain ⟨hx0, z, hz, hnz⟩ := h1 x hx
      refine ⟨hx0, z, ?_, hnz⟩
      rw [hold] at hz
      rw [hnew]
      rcases List.mem_append.1 hz with hz | hz
      · exact List.mem_append.2 (Or.inl hz)
      · exact List.mem_append.2 (Or.inr (List.mem_cons_of_mem _ hz))
  · refine List.Pairwise.cons ?_ h2
    intro y hy
    obtain ⟨hy0, z, hz, hnz⟩ := h1 y hy
    rw [hold] at hz
    dsimp only
    rcases List.mem_append.1 hz with hz | hz
    · have := allocBlocks_bounds pre F hpre0 _ hz
      dsimp only at this
      omega
    · have := allocBlocks_bounds post _ hpost0 _ hz
      dsimp only at this
      omega

/-- The live allocations stay in step with the chain when `Mem_Free` frees the
block of a live handle. -/
theorem LiveOK_free (F : Int) (m1 m2 : List Blk) (z : Int) (live : List (Int × Int))
    (h : LiveOK F (m1 ++ ⟨z, true⟩ :: m2) live) :
    LiveOK F (coalesce m1 z m2) (live.filter (fun x => x.1 ≠ F + sumSizes m1 + 4)) := by
  obtain ⟨h1, h2⟩ := h
  have hold : allocBlocks F (m1 ++ ⟨z, true⟩ :: m2)
      = allocBlocks F m1 ++ (F + sumSizes m1 + 4, z) ::
          allocBlocks (F + sumSizes m1 + z) m2 := by
    rw [allocBlocks_append]
    simp [allocBlocks]
  constructor
  · intro x hx
    obtain ⟨hxl, hxq⟩ := List.mem_filter.1 hx
    have hxq' : x.1 ≠ F + sumSizes m1 + 4 := by simpa using hxq
    obtain ⟨hx0, zx, hz, hnz⟩ := h1 x hxl
    refine ⟨hx0, zx, ?_, hnz⟩
    rw [hold] at hz
    rw [allocBlocks_coalesce]
    rcases List.mem_append.1 hz with hz | hz
    · exact List.mem_append.2 (Or.inl hz)
    · rcases List.mem_cons.1 hz with hz | hz
      · simp only [Prod.mk.injEq] at hz
        exact absurd hz.1 hxq'
      · exact List.mem_append.2 (Or.inr hz)
  · exact h2.sublist (List.filter_sublist _)

/-- The invariant of the runs: the heap is a chain up to the end mark, the
end mark holds 1, or -1 after the last block was freed, and the live
allocations are allocated blocks of the chain. -/
theorem Run_inv (s : Heap) (e : Int) (live : List (Int × Int)) (h : Run s e live) :
    ∃ bs w, WFx s bs e w ∧ (w = 1 ∨ (w = -1 ∧ lastAlloc true bs = false)) ∧
      LiveOK s.first_blk bs live := by
  induction h with
  | init s0 sz P fd sp hP hP8 hsp hal hov hret =>
    obtain ⟨bs, hwf, _⟩ := Mem_Init_WF s0 sz P fd sp hP hP8 hsp hal hov hret
    exact ⟨bs, 1, hwf, Or.inl rfl, ⟨by simp, List.Pairwise.nil⟩⟩
  | alloc s e live fuel n r hrun hn hr ih =>
    obtain ⟨bs, w, hwf, hw, hlive⟩ := ih
    unfold INT_MAX at hn
    by_cases hn0 : n ≤ 0
    · rw [Mem_Alloc_nonpositive fuel s n hn0] at hr
      cases hr
      exact ⟨bs, w, hwf, hw, by simpa using hlive⟩
    · rcases hw with rfl | ⟨rfl, _⟩
      · have hmono := Mem_Alloc_mono s n fuel r hr (bs.length + 1)
        by_cases hex : ∃ b ∈ bs, Fits (roundUp8 (n + 4)) b
        · obtain ⟨pre, c, post, hbs, hfit, hall⟩ :=
            Mem_Alloc_spec s bs e n hwf (by omega) hex
          obtain ⟨s', hs', hwf'⟩ := hall (fuel + (bs.length + 1)) (by omega)
          rw [hmono] at hs'
          cases hs'
          have hF := Mem_Alloc_first_blk fuel s n _ hr
          dsimp only at hF ⊢
          have hsizes := Chain_sizes s.mem _ _ _ _ hwf.2.2.1
          rw [hbs] at hsizes hlive
          have hpre0 : 0 ≤ sumSizes pre :=
            sumSizes_nonneg pre (fun b hb => by have := hsizes b (by simp [hb]); omega)
          have hF0 := hwf.1
          rw [if_neg (by omega), hF]
          exact ⟨_, 1, hwf', Or.inl rfl,
            LiveOK_alloc s.first_blk pre post c n live (fun b hb => (hsizes b hb).1)
              (by omega) hfit hlive⟩
        · have hno : ∀ b ∈ bs, ¬ Fits (roundUp8 (n + 4)) b := fun b hb hf => hex ⟨b, hb, hf⟩
          have := Mem_Alloc_no_fit s bs e n hwf (by omega) (by omega) hno
            (fuel + (bs.length + 1)) (by omega)
          rw [hmono] at this
          cases this
          exact ⟨bs, 1, hwf, Or.inl rfl, by simpa using hlive⟩
      · rw [Mem_Alloc_stuck s bs e n hwf (by omega) fuel] at hr
        cases hr
  | free s e live q hrun hq ih =>
    obtain ⟨bs, w, hwf, hw, hlive⟩ := ih
    rcases hq with ⟨nq, hq⟩ | hrej
    · obtain ⟨_, z, hz, _⟩ := hlive.1 _ hq
      obtain ⟨m1, m2, hbs, hqa⟩ := mem_allocBlocks bs _ _ _ hz
      dsimp only at hqa
      subst hbs
      subst hqa
      have hw1 : m2 = [] → w = 1 := by
        intro hm
        rcases hw with rfl | ⟨_, hl⟩
        · rfl
        · subst hm
          rw [lastAlloc_append] at hl
          simp [lastAlloc] at hl
      obtain ⟨hret, hwf'⟩ := Mem_Free_spec_x s m1 m2 z e w hwf hw1
      rw [if_pos hret]
      refine ⟨coalesce m1 z m2, _, hwf', ?_, ?_⟩
      · by_cases hm : m2 = []
        · right
          rw [if_pos hm, lastAlloc_coalesce, hm]
          exact ⟨rfl, rfl⟩
        · rw [if_neg hm]
          rcases hw with rfl | ⟨rfl, hl⟩
          · exact Or.inl rfl
          · right
            refine ⟨rfl, ?_⟩
            rw [lastAlloc_coalesce]
            rw [lastAlloc_append] at hl
            have hl2 : lastAlloc true m2 = false := hl
            rw [lastAlloc_cons_irrel false true m2 hm]
            exact hl2
      · rw [Mem_Free_first_blk]
        exact LiveOK_free s.first_blk m1 m2 z live hlive
    · rw [hrej]
      dsimp only
      rw [if_neg (by decide)]
      exact ⟨bs, w, hwf, hw, hlive⟩

/-- A run: `Mem_Init(4096)`, `y = Mem_Alloc(8)`, `x = Mem_Alloc(8)`,
`Mem_Free(y)` and `Mem_Alloc(8)`, which returns the address of `y` again. -/
theorem reuse_run :
    Run (allocState (Mem_Free heapA2 65544).1 8) 69628 [(65544, 8), (65560, 8)] := by
  have h0 : Run heapInit 69628 [] :=
    Run.init heap0 4096 4096 3 65536 (by decide) (by decide) (by decide) (by decide)
      (by decide) (by decide)
  have h1 : Run heapA1 69628 [(65544, 8)] :=
    Run.alloc heapInit 69628 [] 64 8 (heapA1, 65544) h0 (by decide) rfl
  have h2 : Run heapA2 69628 [(65560, 8), (65544, 8)] :=
    Run.alloc heapA1 69628 [(65544, 8)] 64 8 (heapA2, 65560) h1 (by decide) rfl
  have h3 : Run (Mem_Free heapA2 65544).1 69628 [(65560, 8)] :=
    Run.free heapA2 69628 [(65560, 8), (65544, 8)] 65544 h2 (Or.inl ⟨8, by decide⟩)
  exact Run.alloc (Mem_Free heapA2 65544).1 69628 [(65560, 8)] 64 8
    (allocState (Mem_Free heapA2 65544).1 8, 65544) h3 (by decide) rfl

/-- C20. In every state of a run, that is, a state reached from a successful
`Mem_Init` by calls of `Mem_Alloc` that return, with sizes `n` such that
`n + 11 ≤ INT_MAX`, and by calls of `Mem_Free` on live handles (or rejected
without effect), the payload range `[p, p + n)` of every live allocation, a
pointer `p` returned by `Mem_Alloc(n)` and not freed since, lies between
`first_blk` and the end mark `e`, and the ranges of any two live allocations
are disjoint. -/
theorem live_allocations_disjoint (s : Heap) (e : Int) (live : List (Int × Int))
    (h : Run s e live) :
    (∀ x ∈ live, s.first_blk ≤ x.1 ∧ x.1 + x.2 ≤ e) ∧
    live.Pairwise (fun x y => x.1 + x.2 ≤ y.1 ∨ y.1 + y.2 ≤ x.1) := by
  obtain ⟨bs, w, hwf, _, hlive⟩ := Run_inv s e live h
  have hsizes := Chain_sizes s.mem _ _ _ _ hwf.2.2.1
  exact LiveOK_ranges s.first_blk e bs live
    (fun b hb => by have := hsizes b hb; omega) (Chain_end s.mem _ _ _ _ hwf.2.2.1) hlive

/-- A run of `live_allocations_disjoint`: after `Mem_Init(4096)`,
`y = Mem_Alloc(8)`, `x = Mem_Alloc(8)`, `Mem_Free(y)` and a third
`Mem_Alloc(8)`, the live allocations are 8 bytes at 65544 and 8 bytes at
65560. -/
theorem live_allocations_disjoint_witness :
    Run (allocState (Mem_Free heapA2 65544).1 8) 69628 [(65544, 8), (65560, 8)] ∧
    (∀ x ∈ [((65544 : Int), (8 : Int)), (65560, 8)],
      (allocState (Mem_Free heapA2 65544).1 8).first_blk ≤ x.1 ∧ x.1 + x.2 ≤ 69628) ∧
    [((65544 : Int), (8 : Int)), (65560, 8)].Pairwise
      (fun x y => x.1 + x.2 ≤ y.1 ∨ y.1 + y.2 ≤ x.1) :=
  ⟨reuse_run, live_allocations_disjoint _ 69628 [(65544, 8), (65560, 8)] reuse_run⟩

/-! ## The words that `Mem_Alloc` and `Mem_Free` write -/

/-- C15, the failing run. After `Mem_Init(4096)` and `p = Mem_Alloc(4084)` the
heap is well formed, with one allocated block `B` of 4088 bytes that ends at
the end sentinel 69628, which holds 1. `Mem_Free(p)` returns 0 and leaves a
free block of 4088 bytes at the address of `B`, with header 4090 and footer
4088; but the end sentinel, right after that block and outside its span, does
not keep its word: it holds -1 afterwards. -/
theorem Mem_Free_last_block_sentinel :
    WF heapFull [⟨4088, true⟩] 69628 ∧
    Mem_Alloc 64 heapInit 4084 = some (heapFull, 65544) ∧
    Mem_Free heapFull 65544 = (heapFreed, 0) ∧
    heapFreed.mem 65540 = hdr 4088 false true ∧
    heapFreed.mem (65540 + 4088 - 4) = 4088 ∧
    (65540 : Int) + 4088 = 69628 ∧
    heapFull.mem 69628 = 1 ∧
    heapFreed.mem 69628 = -1 :=
  ⟨by decide, rfl, rfl, by decide, by decide, by decide, by decide, by decide⟩
